import Mathlib

/-!
Verification of the `image-scraper` crawl engine against its specification.

The development shallowly embeds the Python sources:
  * `scraper.clean_image_url` (URL canonicalizer), together with the parts of
    CPython 3.11 `urllib.parse` it calls (`urlparse`, `urlunparse`, `parse_qs`,
    `urlencode`, `quote_plus`, `unquote`), modelled byte- and char-faithfully;
  * `scraper.ScrapeControl` (pause/resume/stop control state);
  * the crawl loop of `scraper.scrape_site` (frontier, visited set, page budget,
    robots check, image pipeline with URL- and content-hash dedup, event queue);
  * `app.run_scrape_background` (the background wrapper that owns the sink on
    crawl failure).

Python strings are modelled as `List Char` (Lean `Char` = unicode scalar value,
which matches CPython `str` except that lone surrogates are not representable;
none of the modelled code can produce one).  Network, filesystem and HTML
parsing are external capabilities in the specification and are modelled as
oracle functions supplied through a `World` structure.
-/

namespace ImageScraper

/-- Python `str` modelled as a list of unicode scalar values. -/
abbrev Str := List Char

/-- Literal conversion helper from Lean string literals. -/
def lit (s : String) : Str := s.data

/-- ASCII uppercase letter test (`'A'..'Z'`). -/
def isUpperAscii (c : Char) : Bool := 65 ≤ c.toNat && c.toNat ≤ 90

/-- ASCII lowercase letter test (`'a'..'z'`). -/
def isLowerAscii (c : Char) : Bool := 97 ≤ c.toNat && c.toNat ≤ 122

/-- ASCII digit test (`'0'..'9'`). -/
def isDigitAscii (c : Char) : Bool := 48 ≤ c.toNat && c.toNat ≤ 57

/-- ASCII alphabetic test, matching Python `c.isascii() and c.isalpha()`. -/
def isAlphaAscii (c : Char) : Bool := isUpperAscii c || isLowerAscii c

/-- ASCII test (`ord c < 128`), matching Python `str.isascii` per character. -/
def isAsciiChar (c : Char) : Bool := c.toNat < 128

/-- ASCII lowercasing of one character.  Python `str.lower` additionally maps a
handful of non-ASCII characters (e.g. Kelvin sign) to ASCII, but none of those
mappings can produce any of the parameter names the scraper compares against,
so ASCII lowercasing is observationally equivalent here. -/
def lowerChar (c : Char) : Char :=
  if isUpperAscii c then Char.ofNat (c.toNat + 32) else c

/-- ASCII lowercasing of a string (model of Python `str.lower`). -/
def lowerStr (s : Str) : Str := s.map lowerChar

/-- Hexadecimal digit test, both cases (Python `_hexdig`). -/
def isHexDigit (c : Char) : Bool :=
  isDigitAscii c || (65 ≤ c.toNat && c.toNat ≤ 70) || (97 ≤ c.toNat && c.toNat ≤ 102)

/-- Numeric value of a hexadecimal digit. -/
def hexVal (c : Char) : Nat :=
  if isDigitAscii c then c.toNat - 48
  else if 65 ≤ c.toNat && c.toNat ≤ 70 then c.toNat - 55
  else c.toNat - 87

/-- Uppercase hexadecimal digit for a value `< 16` (Python `'%{:02X}'.format`). -/
def hexDigitUpper (n : Nat) : Char :=
  if n < 10 then Char.ofNat (48 + n) else Char.ofNat (55 + n)

/-! ### UTF-8 encoding and decoding

CPython percent-decodes into bytes and then decodes those bytes with
`bytes.decode('utf-8', errors='replace')`; percent-encoding encodes the string
with UTF-8 first.  Both directions are modelled exactly: the encoder is the
standard scalar-value encoder, the decoder rejects overlong forms, surrogates
and out-of-range values, emitting U+FFFD per maximal invalid subpart. -/

/-- UTF-8 encoding of one unicode scalar value. -/
def utf8EncodeChar (c : Char) : List Nat :=
  let n := c.toNat
  if n < 0x80 then [n]
  else if n < 0x800 then [0xC0 + n / 64, 0x80 + n % 64]
  else if n < 0x10000 then [0xE0 + n / 4096, 0x80 + n / 64 % 64, 0x80 + n % 64]
  else [0xF0 + n / 262144, 0x80 + n / 4096 % 64, 0x80 + n / 64 % 64, 0x80 + n % 64]

/-- UTF-8 encoding of a string (model of Python `str.encode('utf-8')`). -/
def utf8Encode : Str → List Nat
  | [] => []
  | c :: rest => utf8EncodeChar c ++ utf8Encode rest

/-- Unicode replacement character U+FFFD, used by `errors='replace'`. -/
def replChar : Char := Char.ofNat 0xFFFD

/-- Continuation-byte test (`0x80..0xBF`). -/
def isContByte (b : Nat) : Bool := 0x80 ≤ b && b ≤ 0xBF

/-- Valid second byte after a three-byte lead, excluding overlong forms and
surrogates (lead `0xE0` requires `0xA0..0xBF`, lead `0xED` requires
`0x80..0x9F`). -/
def isCont3 (b1 b2 : Nat) : Bool :=
  if b1 = 0xE0 then 0xA0 ≤ b2 && b2 ≤ 0xBF
  else if b1 = 0xED then 0x80 ≤ b2 && b2 ≤ 0x9F
  else isContByte b2

/-- Valid second byte after a four-byte lead (lead `0xF0` requires
`0x90..0xBF`, lead `0xF4` requires `0x80..0x8F`). -/
def isCont4 (b1 b2 : Nat) : Bool :=
  if b1 = 0xF0 then 0x90 ≤ b2 && b2 ≤ 0xBF
  else if b1 = 0xF4 then 0x80 ≤ b2 && b2 ≤ 0x8F
  else isContByte b2

/-- UTF-8 decoding worker.  Each step consumes at least one byte and performs
exactly one fuel unwrap, so `fuel := bs.length` is always sufficient. -/
def utf8DecodeAux : Nat → List Nat → Str
  | 0, _ => []
  | _ + 1, [] => []
  | fuel + 1, b1 :: rest =>
    if b1 < 0x80 then Char.ofNat b1 :: utf8DecodeAux fuel rest
    else if 0xC2 ≤ b1 && b1 ≤ 0xDF then
      match rest with
      | b2 :: rest2 =>
        if isContByte b2 then
          Char.ofNat ((b1 - 0xC0) * 64 + (b2 - 0x80)) :: utf8DecodeAux fuel rest2
        else replChar :: utf8DecodeAux fuel (b2 :: rest2)
      | [] => [replChar]
    else if 0xE0 ≤ b1 && b1 ≤ 0xEF then
      match rest with
      | b2 :: rest2 =>
        if isCont3 b1 b2 then
          match rest2 with
          | b3 :: rest3 =>
            if isContByte b3 then
              Char.ofNat ((b1 - 0xE0) * 4096 + (b2 - 0x80) * 64 + (b3 - 0x80)) ::
                utf8DecodeAux fuel rest3
            else replChar :: utf8DecodeAux fuel (b3 :: rest3)
          | [] => [replChar]
        else replChar :: utf8DecodeAux fuel (b2 :: rest2)
      | [] => [replChar]
    else if 0xF0 ≤ b1 && b1 ≤ 0xF4 then
      match rest with
      | b2 :: rest2 =>
        if isCont4 b1 b2 then
          match rest2 with
          | b3 :: rest3 =>
            if isContByte b3 then
              match rest3 with
              | b4 :: rest4 =>
                if isContByte b4 then
                  Char.ofNat ((b1 - 0xF0) * 262144 + (b2 - 0x80) * 4096 +
                      (b3 - 0x80) * 64 + (b4 - 0x80)) :: utf8DecodeAux fuel rest4
                else replChar :: utf8DecodeAux fuel (b4 :: rest4)
              | [] => [replChar]
            else replChar :: utf8DecodeAux fuel (b3 :: rest3)
          | [] => [replChar]
        else replChar :: utf8DecodeAux fuel (b2 :: rest2)
      | [] => [replChar]
    else replChar :: utf8DecodeAux fuel rest

/-- UTF-8 decoding with replacement of invalid sequences (model of Python
`bytes.decode('utf-8', errors='replace')`). -/
def utf8DecodeReplace (bs : List Nat) : Str := utf8DecodeAux bs.length bs

/-! ### Percent-encoding: `quote`, `quote_plus` (CPython `urllib.parse`) -/

/-- Membership of a byte in `_ALWAYS_SAFE` (ASCII letters, digits, `_.-~`). -/
def isAlwaysSafeByte (b : Nat) : Bool :=
  (65 ≤ b && b ≤ 90) || (97 ≤ b && b ≤ 122) || (48 ≤ b && b ≤ 57) ||
    b = 0x5F || b = 0x2E || b = 0x2D || b = 0x7E

/-- Quoting of one byte (CPython `_Quoter.__missing__`): safe bytes map to
their character, all others to an uppercase `%XX` escape. -/
def quoteByte (safe : List Nat) (b : Nat) : Str :=
  if isAlwaysSafeByte b || b ∈ safe then [Char.ofNat b]
  else ['%', hexDigitUpper (b / 16), hexDigitUpper (b % 16)]

/-- Model of `quote_from_bytes(bs, safe)` for an already-normalized ASCII safe
set.  The `if not bs.rstrip(...)` branch in CPython is a pure fast path with
the same result. -/
def quoteFromBytes (safe : List Nat) : List Nat → Str
  | [] => []
  | b :: rest => quoteByte safe b ++ quoteFromBytes safe rest

/-- Model of `quote(string, safe)` on `str` input: UTF-8 encode, then quote
each byte.  The `safe` argument is given as characters (all uses here pass
ASCII-only safe sets, matching CPython's normalization). -/
def pyQuote (s : Str) (safe : Str) : Str :=
  quoteFromBytes (safe.map Char.toNat) (utf8Encode s)

/-- Replacement of every occurrence of one character (Python `str.replace`). -/
def replaceChar (old new : Char) (s : Str) : Str :=
  s.map fun c => if c = old then new else c

/-- Model of `quote_plus(string)` with `safe=''` (the only use in the scraper,
via `urlencode`'s default `quote_via`): if the string contains a space, quote
with space safe and then turn spaces into `+`; otherwise plain quote. -/
def quotePlus (s : Str) : Str :=
  if ' ' ∈ s then replaceChar ' ' '+' (pyQuote s [' ']) else pyQuote s []

/-! ### Percent-decoding: `unquote_to_bytes`, `unquote` (CPython) -/

/-- Model of `unquote_to_bytes` on the UTF-8 encoding of a string: a `%XX`
escape with two hex digits yields a byte, any other `%` stays literal, and
ordinary characters contribute their UTF-8 bytes. -/
def unquoteToBytes : Str → List Nat
  | [] => []
  | '%' :: c1 :: c2 :: rest =>
    if isHexDigit c1 && isHexDigit c2 then
      (hexVal c1 * 16 + hexVal c2) :: unquoteToBytes rest
    else 0x25 :: unquoteToBytes (c1 :: c2 :: rest)
  | c :: rest => utf8EncodeChar c ++ unquoteToBytes rest

/-- Maximal runs of ASCII / non-ASCII characters, in order, each tagged with
whether it is an ASCII run (model of CPython's `_asciire.split`). -/
def asciiRuns : Str → List (Bool × Str)
  | [] => []
  | c :: rest =>
    match asciiRuns rest with
    | (b, run) :: more =>
      if b = isAsciiChar c then (b, c :: run) :: more
      else (isAsciiChar c, [c]) :: (b, run) :: more
    | [] => [(isAsciiChar c, [c])]

/-- Model of `unquote(string)` with defaults (`utf-8`, `replace`): each
maximal ASCII run is percent-decoded to bytes and UTF-8-decoded; non-ASCII
runs pass through.  CPython's `if '%' not in string: return string` fast path
has the same result. -/
def unquote (s : Str) : Str :=
  (asciiRuns s).foldr
    (fun br acc => (if br.1 then utf8DecodeReplace (unquoteToBytes br.2) else br.2) ++ acc) []

/-! ### Query strings: `parse_qsl`, `parse_qs`, `urlencode` (CPython) -/

/-- Python `str.split(sep)` for a one-character separator (never returns an
empty list; splitting the empty string yields `[""]`). -/
def splitOn (sep : Char) : Str → List Str
  | [] => [[]]
  | c :: rest =>
    match splitOn sep rest with
    | h :: t => if c = sep then [] :: h :: t else (c :: h) :: t
    | [] => [[c]]

/-- Split at the first occurrence of a character, if present (used to model
`str.split(sep, 1)` and `str.find`). -/
def splitFirst (sep : Char) : Str → Option (Str × Str)
  | [] => none
  | c :: rest =>
    if c = sep then some ([], rest)
    else match splitFirst sep rest with
      | some (pre, post) => some (c :: pre, post)
      | none => none

/-- Processing of one `name=value` field of `parse_qsl`: empty fields and
fields without `=` or with an empty value are dropped; names and values have
`+` turned into spaces and are percent-decoded. -/
def qslStep (f : Str) (acc : List (Str × Str)) : List (Str × Str) :=
  if f = [] then acc
  else match splitFirst '=' f with
    | none => acc
    | some (n, v) =>
      if v = [] then acc
      else (unquote (replaceChar '+' ' ' n), unquote (replaceChar '+' ' ' v)) :: acc

/-- Model of `parse_qsl(qs)` with all defaults (`keep_blank_values=False`,
`strict_parsing=False`, separator `'&'`). -/
def parse_qsl (qs : Str) : List (Str × Str) :=
  (if qs = [] then [] else splitOn '&' qs).foldr qslStep []

/-- Insertion step of `parse_qs`'s dict building: append the value to an
existing key's list, else add a new key at the end (Python dicts preserve
insertion order). -/
def insertPair : List (Str × List Str) → Str × Str → List (Str × List Str)
  | [], (n, v) => [(n, [v])]
  | (k, vs) :: rest, (n, v) =>
    if k = n then (k, vs ++ [v]) :: rest else (k, vs) :: insertPair rest (n, v)

/-- Model of `parse_qs(qs)` with defaults: group the `parse_qsl` pairs by name
in first-occurrence order. -/
def parse_qs (qs : Str) : List (Str × List Str) :=
  (parse_qsl qs).foldl insertPair []

/-- Interleave a separator character between strings (Python `sep.join`). -/
def joinWith (sep : Char) : List Str → Str
  | [] => []
  | [s] => s
  | s :: rest => s ++ sep :: joinWith sep rest

/-- Model of `urlencode(query, doseq=True)` on a dict of string lists with the
default `quote_via=quote_plus` and `safe=''`. -/
def urlencode (query : List (Str × List Str)) : Str :=
  joinWith '&'
    (query.foldr
      (fun kv acc => kv.2.map (fun v => quotePlus kv.1 ++ '=' :: quotePlus v) ++ acc) [])

/-- Flattening of a grouped query dict into the (name, value) pairs in the
order `urlencode` emits them. -/
def pairsOf (d : List (Str × List Str)) : List (Str × Str) :=
  d.foldr (fun kv acc => kv.2.map (fun v => (kv.1, v)) ++ acc) []

/-- One encoded `name=value` field of `urlencode`. -/
def fieldStr (p : Str × Str) : Str := quotePlus p.1 ++ '=' :: quotePlus p.2

/-! ### URL splitting: `urlsplit`, `urlparse`, `urlunsplit`, `urlunparse`

Modelled on CPython 3.11 `urllib.parse` (the version with WHATWG C0/space
lstrip and tab/CR/LF removal).  Not modelled: the `_check_bracketed_host`
IPv6/IPvFuture content validation and `_checknetloc`'s NFKC check for
non-ASCII netlocs — both only reject additional exotic inputs (making
`urlparse` raise, which `clean_image_url` turns into the identity); the
bracket-mismatch `ValueError` is modelled. -/

/-- Result of `urlparse`: the six URL components. -/
structure UrlParts where
  scheme : Str
  netloc : Str
  path : Str
  params : Str
  query : Str
  fragment : Str
  deriving DecidableEq, Repr

/-- Characters valid in scheme names (CPython `scheme_chars`). -/
def isSchemeChar (c : Char) : Bool :=
  isAlphaAscii c || isDigitAscii c || c = '+' || c = '-' || c = '.'

/-- C0 control or space, stripped from the front of a URL per WHATWG. -/
def isC0OrSpace (c : Char) : Bool := c.toNat ≤ 0x20

/-- Removal of `\t`, `\r`, `\n` anywhere in the URL (CPython
`_UNSAFE_URL_BYTES_TO_REMOVE`). -/
def stripTabsNewlines (s : Str) : Str :=
  s.filter fun c => ¬(c = Char.ofNat 9 ∨ c = Char.ofNat 13 ∨ c = Char.ofNat 10)

/-- Scheme detection of `urlsplit`: if the text before the first `:` is a
nonempty run of scheme characters starting with an ASCII letter, it is the
scheme (lowercased); otherwise there is no scheme. -/
def detectScheme (url : Str) : Str × Str :=
  match splitFirst ':' url with
  | some (pre, post) =>
    if pre ≠ [] && isAlphaAscii (pre.headD ' ') && pre.all isSchemeChar then
      (lowerStr pre, post)
    else ([], url)
  | none => ([], url)

/-- Netloc delimiter test (`/`, `?` or `#` ends the netloc). -/
def isNetlocDelim (c : Char) : Bool := c = '/' || c = '?' || c = '#'

/-- List of schemes that use a netloc (CPython `uses_netloc`). -/
def usesNetloc : List Str :=
  ["", "ftp", "http", "gopher", "nntp", "telnet", "imap", "wais", "file", "mms",
   "https", "shttp", "snews", "prospero", "rtsp", "rtsps", "rtspu", "rsync",
   "svn", "svn+ssh", "sftp", "nfs", "git", "git+ssh", "ws", "wss"].map lit

/-- List of schemes that allow path parameters (CPython `uses_params`). -/
def usesParams : List Str :=
  ["", "ftp", "hdl", "prospero", "http", "imap", "https", "shttp", "rtsp",
   "rtsps", "rtspu", "sip", "sips", "mms", "sftp", "tel"].map lit

/-- Splitting of the netloc after a leading `//` (CPython `_splitnetloc`):
the netloc runs to the first `/`, `?` or `#`. -/
def splitNetloc (url : Str) : Str × Str :=
  match url with
  | '/' :: '/' :: rest => (rest.takeWhile (fun c => ¬isNetlocDelim c),
                           rest.dropWhile (fun c => ¬isNetlocDelim c))
  | _ => ([], url)

/-- Splitting at the first occurrence, keeping the whole string otherwise
(the `if '#' in url: url.split('#', 1)` pattern). -/
def splitOnceOr (sep : Char) (s : Str) : Str × Str :=
  match splitFirst sep s with
  | some (pre, post) => (pre, post)
  | none => (s, [])

/-- Model of `urlsplit(url)` with default arguments.  Mirrors the CPython
steps in order: lstrip C0/space, remove tab/CR/LF, detect scheme, split
netloc after `//` (raising on bracket mismatch; the bracketed-host content
validation and the NFKC `_checknetloc` are not modelled, see above), split
fragment at the first `#`, split query at the first `?`. -/
def urlsplitE (url0 : Str) : Except Unit UrlParts :=
  let url := stripTabsNewlines (url0.dropWhile isC0OrSpace)
  let sr := detectScheme url
  let nr := splitNetloc sr.2
  if ('[' ∈ nr.1 && ']' ∉ nr.1) || (']' ∈ nr.1 && '[' ∉ nr.1) then .error ()
  else
    let fr := splitOnceOr '#' nr.2
    let qr := splitOnceOr '?' fr.1
    .ok ⟨sr.1, nr.1, qr.1, [], qr.2, fr.2⟩

/-- Model of `_splitparams(url)`: split the parameters after the first `;`
that follows the last `/` (or the first `;` overall when there is no `/`).
The caller guarantees `;` occurs in `url`. -/
def splitparams (url : Str) : Str × Str :=
  if '/' ∈ url then
    -- decompose at the last '/': url = beforeLast ++ '/' :: afterLast
    let afterLast := (url.reverse.takeWhile (· ≠ '/')).reverse
    let beforeSlash := url.take (url.length - afterLast.length)
    match splitFirst ';' afterLast with
    | some (pre, post) => (beforeSlash ++ pre, post)
    | none => (url, [])
  else
    match splitFirst ';' url with
    | some (pre, post) => (pre, post)
    | none => (url, [])  -- unreachable under the caller's guard

/-- Model of `urlparse(url)` with default arguments. -/
def urlparseE (url : Str) : Except Unit UrlParts :=
  match urlsplitE url with
  | .error e => .error e
  | .ok p =>
    if p.scheme ∈ usesParams && ';' ∈ p.path then
      .ok { p with path := (splitparams p.path).1, params := (splitparams p.path).2 }
    else .ok p

/-- Model of `urlunsplit` on the five components (params already merged into
the path by `urlunparse`). -/
def urlunsplit (scheme netloc url query fragment : Str) : Str :=
  let url :=
    if netloc ≠ [] || (scheme ≠ [] && scheme ∈ usesNetloc && url.take 2 ≠ lit "//") then
      '/' :: '/' :: (netloc ++ (if url ≠ [] && url.headD ' ' ≠ '/' then '/' :: url else url))
    else url
  let url := if scheme ≠ [] then scheme ++ ':' :: url else url
  let url := if query ≠ [] then url ++ '?' :: query else url
  if fragment ≠ [] then url ++ '#' :: fragment else url

/-- Recombination of path and params (`urlunparse`'s `"%s;%s"`). -/
def recombineParams (path params : Str) : Str :=
  if params ≠ [] then path ++ ';' :: params else path

/-- Model of `urlunparse` on the six components. -/
def urlunparse (p : UrlParts) : Str :=
  urlunsplit p.scheme p.netloc (recombineParams p.path p.params) p.query p.fragment

/-- Absence of the tab, CR and LF characters (the bytes `urlsplit`
removes). -/
def noTRN (s : Str) : Prop :=
  ∀ c ∈ s, ¬(c = Char.ofNat 9 ∨ c = Char.ofNat 13 ∨ c = Char.ofNat 10)

/-- Shape invariants of a successful `urlsplit` result: exactly the facts
needed to re-parse the string `urlunsplit` reassembles from it. -/
structure SplitInv (p : UrlParts) : Prop where
  scheme_ok : p.scheme = [] ∨ (p.scheme ≠ [] ∧ isAlphaAscii (p.scheme.headD ' ') = true ∧
      p.scheme.all isSchemeChar = true ∧ lowerStr p.scheme = p.scheme)
  netloc_ok : ∀ c ∈ p.netloc, isNetlocDelim c = false
  brackets_ok : ¬(('[' ∈ p.netloc ∧ ']' ∉ p.netloc) ∨ (']' ∈ p.netloc ∧ '[' ∉ p.netloc))
  path_hash : '#' ∉ p.path
  path_qm : '?' ∉ p.path
  query_hash : '#' ∉ p.query
  params_empty : p.params = []
  path_head : p.netloc ≠ [] → p.path = [] ∨ p.path.headD ' ' = '/'
  netloc_trn : noTRN p.netloc
  path_trn : noTRN p.path
  query_trn : noTRN p.query
  frag_trn : noTRN p.fragment

/-- Shape invariants of a successful `urlparse` result, phrased about the
recombined `path;params` string that `urlunparse` will emit. -/
structure ParseInv (p : UrlParts) : Prop where
  scheme_ok : p.scheme = [] ∨ (p.scheme ≠ [] ∧ isAlphaAscii (p.scheme.headD ' ') = true ∧
      p.scheme.all isSchemeChar = true ∧ lowerStr p.scheme = p.scheme)
  netloc_ok : ∀ c ∈ p.netloc, isNetlocDelim c = false
  brackets_ok : ¬(('[' ∈ p.netloc ∧ ']' ∉ p.netloc) ∨ (']' ∈ p.netloc ∧ '[' ∉ p.netloc))
  recomb_hash : '#' ∉ recombineParams p.path p.params
  recomb_qm : '?' ∉ recombineParams p.path p.params
  recomb_head : p.netloc ≠ [] → recombineParams p.path p.params = [] ∨
      (recombineParams p.path p.params).headD ' ' = '/'
  query_hash : '#' ∉ p.query
  pp : (∃ s, splitparams s = (p.path, p.params) ∧ p.scheme ∈ usesParams) ∨
      (p.params = [] ∧ ¬(p.scheme ∈ usesParams ∧ ';' ∈ p.path))
  netloc_trn : noTRN p.netloc
  recomb_trn : noTRN (recombineParams p.path p.params)
  query_trn : noTRN p.query
  frag_trn : noTRN p.fragment

/-! ### The scraper's URL canonicalizer (`scraper.clean_image_url`) -/

/-- Fixed list of query parameters to remove, exactly as written in
`scraper.py` — note the mixed-case entries `maxWidth`/`maxHeight`. -/
def params_to_remove : List Str :=
  ["width", "height", "w", "h", "size", "quality", "q", "fit", "crop",
   "maxWidth", "maxHeight", "scale", "res", "resize", "fm", "format", "auto",
   "dpr"].map lit

/-- Model of `scraper.clean_image_url`: parse, drop query parameters whose
lowercased name is in `params_to_remove`, re-encode the query, reassemble.
Any parse failure returns the input unchanged (the `except` branch). -/
def clean_image_url (url : Str) : Str :=
  match urlparseE url with
  | .error _ => url
  | .ok p =>
    let query_params := parse_qs p.query
    let query_params := query_params.filter fun kv => lowerStr kv.1 ∉ params_to_remove
    let new_query := urlencode query_params
    urlunparse { p with query := new_query }

/-! ### Scrape control (`scraper.ScrapeControl`)

The Python class guards two booleans with a lock; transitions are modelled as
pure functions on the two-field state (the lock serializes them, so the
sequential model is exact). -/

/-- Control state of a crawl run. -/
structure ControlState where
  paused : Bool
  stopped : Bool
  deriving DecidableEq, Repr

/-- Initial control state (`ScrapeControl.__init__`). -/
def ControlState.init : ControlState := ⟨false, false⟩

/-- Model of `ScrapeControl.pause`. -/
def ControlState.pause (s : ControlState) : ControlState := { s with paused := true }

/-- Model of `ScrapeControl.resume`. -/
def ControlState.resume (s : ControlState) : ControlState := { s with paused := false }

/-- Model of `ScrapeControl.stop`: sets stopped and clears paused. -/
def ControlState.stop (s : ControlState) : ControlState :=
  { s with stopped := true, paused := false }

/-- External control transitions. -/
inductive ControlOp | pause | resume | stop
  deriving DecidableEq, Repr

/-- Application of one control transition. -/
def applyOp (s : ControlState) : ControlOp → ControlState
  | .pause => s.pause
  | .resume => s.resume
  | .stop => s.stop

/-- Application of a sequence of control transitions. -/
def applyOps (s : ControlState) (ops : List ControlOp) : ControlState :=
  ops.foldl applyOp s

/-! ### Crawl engine model (`scraper.scrape_site`, `app.run_scrape_background`)

The loop of `scrape_site` (lines 282–505) is embedded as a step function over
an explicit state, with the external capabilities (robots decision, page
fetch+parse, image fetch, `urljoin`, the control poll and the possibility of
an unexpected exception) supplied by a `World` of oracles.  `use_browser` is
`False` (the claims concern the standard loop).  The event sink is the
`image_update_queue`: the list of messages put on it is recorded in order,
with `none` modelling the terminal `None` sentinel. -/

/-- String containment test (Python `in` on strings / `re.search` of a fixed
alternative). -/
def containsSub (s pat : Str) : Bool :=
  match s with
  | [] => pat.isPrefixOf []
  | _ :: rest => pat.isPrefixOf s || containsSub rest pat

/-- Python `str.startswith`. -/
def startsWithStr (s p : Str) : Bool := p.isPrefixOf s

/-- Python `str.endswith`. -/
def endsWithStr (s p : Str) : Bool := p.isSuffixOf s

/-- Model of `COMMON_ICON_PATTERNS.search` (case-insensitive alternation of
fixed substrings; `/icons?/` matches `/icon/` or `/icons/`). -/
def iconPatternMatches (u : Str) : Bool :=
  let l := lowerStr u
  (["/icon/", "/icons/", "/social/", "/nav/", "favicon", "logo", "spinner",
    "loader", "rating", "cart", "search", "user", "account", "menu", "arrow",
    "/flags/"].map lit).any (containsSub l)

/-- Model of the file-download extension regex
`\.(pdf|zip|docx?|xlsx?|pptx?|exe|dmg|pkg|gz|rar)$` (case-insensitive). -/
def isFileDownloadPath (p : Str) : Bool :=
  let l := lowerStr p
  ([".pdf", ".zip", ".doc", ".docx", ".xls", ".xlsx", ".ppt", ".pptx", ".exe",
    ".dmg", ".pkg", ".gz", ".rar"].map lit).any (endsWithStr l)

/-- Model of the size-suffix regex `_\d+x\d+(\.[a-zA-Z]+)$` applied by
`re.sub(..., r'\1', path)`: if the path ends in `_<digits>x<digits>.<alpha>`,
return the path with the `_<digits>x<digits>` part removed. -/
def stripSizeSuffix (path : Str) : Option Str :=
  let r := path.reverse
  let extR := r.takeWhile isAlphaAscii
  if extR = [] then none else
  match r.drop extR.length with
  | '.' :: r2 =>
    let d2 := r2.takeWhile isDigitAscii
    if d2 = [] then none else
    match r2.drop d2.length with
    | 'x' :: r3 =>
      let d1 := r3.takeWhile isDigitAscii
      if d1 = [] then none else
      match r3.drop d1.length with
      | '_' :: r4 => some (r4.reverse ++ '.' :: extR.reverse)
      | _ => none
    | _ => none
  | _ => none

/-- Response of a successful image fetch. -/
structure ImgResp where
  content : List Nat
  contentType : Str
  deriving DecidableEq, Repr

/-- First successful fetch in a list of candidate URLs (the retry loop of
`try_get_high_res_image`: per-URL `RequestException`s are swallowed). -/
def firstSuccess (fetchImg : Str → Option ImgResp) : List Str → Option (ImgResp × Str)
  | [] => none
  | u :: rest =>
    match fetchImg u with
    | some r => some (r, u)
    | none => firstSuccess fetchImg rest

/-- Model of `scraper.try_get_high_res_image(session, url)`: builds the
candidate ladder (cleaned URL, size-suffix-stripped variant, high-res query
variants, original URL) and returns the first success.  The `urlparse` call
on the cleaned URL is outside any handler in the source, so its failure is an
exception that propagates to the caller (the per-image handler). -/
def tryGetHighRes (fetchImg : Str → Option ImgResp) (url : Str) :
    Except Unit (Option (ImgResp × Str)) := do
  let cleaned_url := clean_image_url url
  let urls1 := [cleaned_url]
  let parsed ← urlparseE cleaned_url
  let urls2 :=
    match stripSizeSuffix parsed.path with
    | some newPath =>
      let newUrl := urlunparse { parsed with path := newPath }
      if newUrl ∈ urls1 then urls1 else urls1 ++ [newUrl]
    | none => urls1
  let urls3 :=
    if '?' ∈ cleaned_url || '&' ∈ cleaned_url then
      let base :=
        match splitFirst '?' cleaned_url with
        | some (pre, _) => pre
        | none => cleaned_url
      let variants := [base ++ lit "?quality=100", base ++ lit "?w=2048",
                       base ++ lit "?size=large"]
      urls2 ++ variants.filter (· ∉ urls2)
    else urls2
  let urls := if url ∈ urls3 then urls3 else urls3 ++ [url]
  return firstSuccess fetchImg urls

/-- SHA-256 digest (`scraper.get_image_hash`), modelled as the identity on the
byte content: the dedup logic relies only on digest equality coinciding with
content equality, i.e. on the digest being injective, which is the intended
reading of a cryptographic hash. -/
def get_image_hash (content : List Nat) : List Nat := content

/-- HTML tag kinds scanned for images (`soup.find_all(['img', 'source'])`). -/
inductive TagKind | img | source
  deriving DecidableEq, Repr

/-- An image-bearing element with the attributes the scraper reads.  `none`
models a missing attribute. -/
structure ImgTag where
  kind : TagKind
  src : Option Str
  dataSrc : Option Str
  dataLazySrc : Option Str
  srcset : Option Str
  dataSrcset : Option Str
  deriving DecidableEq, Repr

/-- Python's `or` on optional strings: an absent attribute and an empty
string are both falsy. -/
def pyOr (a b : Option Str) : Option Str :=
  match a with
  | some s => if s = [] then b else some s
  | none => b

/-- Python falsiness of an optional string. -/
def pyFalsy (a : Option Str) : Bool :=
  match a with
  | some s => s = []
  | none => true

/-- Python whitespace stripped by `str.strip()` (ASCII subset; the oracle
data in scope never contains the exotic unicode spaces). -/
def isPySpace (c : Char) : Bool :=
  c = ' ' || c = Char.ofNat 9 || c = Char.ofNat 10 || c = Char.ofNat 13 ||
    c = Char.ofNat 11 || c = Char.ofNat 12

/-- Python `str.strip()`. -/
def stripWs (s : Str) : Str :=
  ((s.dropWhile isPySpace).reverse.dropWhile isPySpace).reverse

/-- Candidate source selection for an image tag (scraper lines 322–344):
`src`/`data-src`/`data-lazy-src` first; if absent, the last comma-segment's
first token of `srcset`/`data-srcset`; for `<source>`, a single-value
`srcset` only. -/
def selectSrc (t : ImgTag) : Option Str :=
  match t.kind with
  | .img =>
    let src := pyOr (pyOr t.src t.dataSrc) t.dataLazySrc
    let srcset := pyOr t.srcset t.dataSrcset
    if ¬pyFalsy srcset && pyFalsy src then
      let ss := stripWs (srcset.getD [])
      let lastSeg := stripWs (((ss.reverse.takeWhile (· ≠ ','))).reverse)
      some (lastSeg.takeWhile (· ≠ ' '))
    else src
  | .source =>
    match t.srcset with
    | some ss0 =>
      let ss := stripWs ss0
      if ' ' ∉ ss && ',' ∉ ss then some ss else none
    | none => none

/-- A link element with the attributes the scraper reads. -/
structure LinkTag where
  href : Str
  text : Str
  rel : List Str
  classes : List Str
  deriving DecidableEq, Repr

/-- Pagination classification heuristic (scraper lines 476–479). -/
def isPagination (t : LinkTag) : Bool :=
  let lt := lowerStr t.text
  containsSub lt (lit "next") || containsSub lt (lit ">") || containsSub lt (lit ">>") ||
    (lit "next") ∈ t.rel ||
    t.classes.any (fun c =>
      containsSub (lowerStr c) (lit "page") || containsSub (lowerStr c) (lit "pagin") ||
        containsSub (lowerStr c) (lit "next"))

/-- A fetched, parsed page. -/
structure PageData where
  contentType : Str
  imgs : List ImgTag
  links : List LinkTag
  deriving Repr

/-- External capabilities of one crawl run.  `robots` is the decision of
`can_fetch` (its per-origin cache only memoizes this function); `fetchPage`
returns `none` on any `RequestException` (connection error or non-2xx);
`join` is `urllib.parse.urljoin`, kept abstract; `stopAt k` is the value of
`control.wait_if_paused()` at loop iteration `k`; `raiseAt = some k` makes an
unexpected exception (the `RunFatal` category of the spec) escape the loop
body at iteration `k`. -/
structure World where
  robots : Str → Bool
  fetchPage : Str → Option PageData
  fetchImg : Str → Option ImgResp
  join : Str → Str → Str
  stopAt : Nat → Bool
  raiseAt : Option Nat

/-- Configuration of one crawl run (the arguments of `scrape_site`). -/
structure CrawlConfig where
  startUrlRaw : Str
  outputDir : Str
  baseServePath : Str
  followPagination : Bool
  maxPages : Nat
  depth : Nat
  hasSink : Bool
  preexisting : List Str

/-- Normalization of the seed URL (scraper lines 207–209). -/
def normalizeStartUrl (u : Str) : Str :=
  if startsWithStr u (lit "http://") || startsWithStr u (lit "https://") then u
  else lit "https://" ++ u

/-- Model of `os.path.join` for the two-argument POSIX case. -/
def ospathJoin (a b : Str) : Str :=
  if startsWithStr b (lit "/") then b
  else if a = [] || a.getLastD ' ' = '/' then a ++ b
  else a ++ '/' :: b

/-- State of the crawl loop.  `found` is `found_image_srcs`, `hashes` is
`downloaded_image_hashes`, `dirFiles` the files present in the domain output
directory, `events` the messages put on the sink queue in order;
`fetchedPages`, `attempts` and `enqueued` record page-fetch attempts,
image-download attempts (calls of `try_get_high_res_image`) and frontier
insertions `(url, entry depth, parent depth)` for the statements below. -/
structure CrawlState where
  startUrl : Str
  baseDomain : Str
  domainPath : Str
  queue : List (Str × Nat)
  visited : List Str
  found : List Str
  hashes : List (List Nat)
  dirFiles : List Str
  saved : List (Str × List Nat)
  imagesCount : Nat
  pages : Nat
  iter : Nat
  events : List Str
  fetchedPages : List Str
  attempts : List Str
  enqueued : List (Str × Nat × Nat)
  done : Bool

/-- Decimal representation of a number (Python f-string interpolation). -/
def natToStr (n : Nat) : Str := (toString n).data

/-- Filename sanitization `re.sub(r'[\\/*?:"<>|]', "_", ...)`. -/
def sanitizeFilename (s : Str) : Str :=
  s.map fun c =>
    if c = '\\' || c = '/' || c = '*' || c = '?' || c = ':' || c = '"' ||
        c = '<' || c = '>' || c = '|' then '_' else c

/-- Model of `os.path.basename` (the part after the last `/`). -/
def basename (p : Str) : Str := (p.reverse.takeWhile (· ≠ '/')).reverse

/-- Model of `os.path.splitext` on a filename: split at the last dot unless
every character before it is a dot. -/
def splitext (f : Str) : Str × Str :=
  let extR := f.reverse.takeWhile (· ≠ '.')
  if extR.length = f.length then (f, [])
  else
    let stem := f.take (f.length - extR.length - 1)
    if stem.all (· = '.') then (f, [])
    else (stem, '.' :: extR.reverse)

/-- Uniqueness loop for filenames (scraper lines 385–392): append `_<n>`
before the extension until the name is not present.  The fuel
`existing.length + 1` is enough by pigeonhole; the fuel-exhausted branch is
unreachable. -/
def uniqueFilenameGo (existing : List Str) (name ext : Str) : Nat → Nat → Str
  | 0, k => name ++ '_' :: natToStr k ++ ext
  | fuel + 1, k =>
    let cand := name ++ '_' :: natToStr k ++ ext
    if cand ∈ existing then uniqueFilenameGo existing name ext fuel (k + 1) else cand

/-- Unique filename in the domain directory. -/
def uniqueFilename (existing : List Str) (sanitized : Str) : Str :=
  if sanitized ∈ existing then
    let (name, ext) := splitext sanitized
    uniqueFilenameGo existing name ext (existing.length + 1) 1
  else sanitized

/-- Extension derived from the image response content type (scraper lines
375–380; the checks are case-sensitive substring tests in the source). -/
def extForContentType (ct : Str) : Str :=
  if containsSub ct (lit "svg") then lit ".svg"
  else if containsSub ct (lit "png") then lit ".png"
  else if containsSub ct (lit "webp") then lit ".webp"
  else if containsSub ct (lit "gif") then lit ".gif"
  else lit ".jpg"

/-- Processing of one image tag (scraper lines 321–441): source selection,
data-URI and icon filters, SVG-conditional canonicalization, URL dedup,
download ladder, filename assignment, content-hash dedup, save and event
emission.  Exceptions inside the per-image `try` (and the `urlparse` failures
inside `try_get_high_res_image` and the filename derivation) skip the image. -/
def processImage (w : World) (cfg : CrawlConfig) (pageUrl : Str) (st : CrawlState)
    (tag : ImgTag) : CrawlState :=
  match selectSrc tag with
  | none => st
  | some src =>
    if src = [] || startsWithStr src (lit "data:image") then st
    else
      let absUrl := w.join pageUrl src
      if iconPatternMatches absUrl then st
      else
        let is_svg := endsWithStr (lowerStr absUrl) (lit ".svg") ||
          containsSub (lowerStr absUrl) (lit "svg")
        let cleaned := if is_svg then absUrl else clean_image_url absUrl
        if cleaned ∈ st.found then st
        else
          let st := { st with found := st.found ++ [cleaned],
                              attempts := st.attempts ++ [cleaned] }
          match tryGetHighRes w.fetchImg cleaned with
          | .error _ => st
          | .ok none => st
          | .ok (some (resp, _fetchedUrl)) =>
            match urlparseE cleaned with
            | .error _ => st
            | .ok pc =>
              let base0 := basename pc.path
              let base1 :=
                if base0 = [] || '.' ∉ base0 then
                  lit "image_" ++ natToStr st.found.length ++
                    extForContentType resp.contentType
                else base0
              let fname := uniqueFilename st.dirFiles (sanitizeFilename base1)
              let hash := get_image_hash resp.content
              if hash ∈ st.hashes then st
              else
                let st := { st with
                  dirFiles := st.dirFiles ++ [fname],
                  hashes := st.hashes ++ [hash],
                  saved := st.saved ++ [(fname, resp.content)],
                  imagesCount := st.imagesCount + 1 }
                if cfg.hasSink then
                  { st with events := st.events ++
                      [cfg.baseServePath ++ '/' ::
                        (st.baseDomain ++ '/' :: pyQuote fname (lit "/"))] }
                else st

/-- Processing of one link (scraper lines 450–486): join, same-domain check,
fragment strip, file-extension filter, frontier admission (not visited, not
queued, budget), pagination placement.  The `urlparse` call can raise; the
error propagates to the page-level handler. -/
def processLink (w : World) (cfg : CrawlConfig) (pageUrl : Str) (curDepth : Nat)
    (st : CrawlState) (l : LinkTag) : Except Unit CrawlState := do
  if l.href = [] then return st
  let absLink0 := w.join pageUrl l.href
  let parsed ← urlparseE absLink0
  if parsed.netloc ≠ st.baseDomain then return st
  let absLink := urlunparse { parsed with fragment := [] }
  if isFileDownloadPath parsed.path then return st
  if absLink ∈ st.visited then return st
  if st.queue.any (fun e => e.1 = absLink) then return st
  if ¬(st.queue.length + st.visited.length < cfg.maxPages) then return st
  let entry := (absLink, curDepth + 1)
  let st := { st with enqueued := st.enqueued ++ [(absLink, curDepth + 1, curDepth)] }
  if cfg.followPagination && isPagination l then
    return { st with queue := entry :: st.queue }
  else
    return { st with queue := st.queue ++ [entry] }

/-- Fold of `processLink` over a page's links; an exception aborts the rest
of the page's links (it is caught by the page-level `except`, which then
continues the main loop). -/
def processLinks (w : World) (cfg : CrawlConfig) (pageUrl : Str) (curDepth : Nat) :
    CrawlState → List LinkTag → CrawlState
  | st, [] => st
  | st, l :: rest =>
    match processLink w cfg pageUrl curDepth st l with
    | .ok st' => processLinks w cfg pageUrl curDepth st' rest
    | .error _ => st

/-- One iteration of the crawl loop (scraper lines 283–500), assuming the
loop condition holds: control poll, frontier pop, visited skip, visited mark,
budget consumption, robots check, page fetch, content-type check, image
pipeline, link extraction (only below the depth limit). -/
def crawlStep (w : World) (cfg : CrawlConfig) (st : CrawlState) : CrawlState :=
  if w.stopAt st.iter then { st with done := true, iter := st.iter + 1 }
  else
    match st.queue with
    | [] => st
    | (current, curDepth) :: rest =>
      let st := { st with queue := rest, iter := st.iter + 1 }
      if current ∈ st.visited && current ≠ st.startUrl then st
      else
        let st := { st with
          visited := if current ∈ st.visited then st.visited else st.visited ++ [current],
          pages := st.pages + 1 }
        if ¬w.robots current then st
        else
          let st := { st with fetchedPages := st.fetchedPages ++ [current] }
          match w.fetchPage current with
          | none => st
          | some page =>
            if ¬containsSub (lowerStr page.contentType) (lit "html") then st
            else
              let st := page.imgs.foldl (processImage w cfg current) st
              if curDepth < cfg.depth then
                processLinks w cfg current curDepth st page.links
              else st

/-- Initialization of a run (scraper lines 207–227).  The seed `urlparse` is
outside the `try`, so its failure escapes `scrape_site` before the loop. -/
def crawlInitE (cfg : CrawlConfig) : Except Unit CrawlState := do
  let startUrl := normalizeStartUrl cfg.startUrlRaw
  let p ← urlparseE startUrl
  return { startUrl := startUrl, baseDomain := p.netloc,
           domainPath := ospathJoin cfg.outputDir p.netloc,
           queue := [(startUrl, 0)], visited := [startUrl],
           found := [], hashes := [], dirFiles := cfg.preexisting, saved := [],
           imagesCount := 0, pages := 0, iter := 0, events := [],
           fetchedPages := [], attempts := [], enqueued := [], done := false }

/-- The crawl loop: runs while the frontier is nonempty, the page budget is
not exhausted, and no stop was observed; returns the final state and whether
an unexpected exception escaped the loop body.  `fuel` bounds the number of
iterations; every property proved below holds for every fuel. -/
def crawlLoopE (w : World) (cfg : CrawlConfig) : Nat → CrawlState → CrawlState × Bool
  | 0, st => (st, false)
  | fuel + 1, st =>
    if st.done || st.queue.isEmpty || ¬(st.pages < cfg.maxPages) then (st, false)
    else if w.raiseAt = some st.iter then (st, true)
    else crawlLoopE w cfg fuel (crawlStep w cfg st)

/-- Messages that `scrape_site` itself puts on the sink queue, and whether an
exception escapes it.  The `finally` (lines 502–505) always appends the
terminal `None` when a sink is attached — but only if the `try` was entered;
an initialization failure escapes with nothing sent. -/
def scrapeSiteMsgs (w : World) (cfg : CrawlConfig) (fuel : Nat) :
    List (Option Str) × Bool :=
  match crawlInitE cfg with
  | .error _ => ([], true)
  | .ok st0 =>
    let (st, raised) := crawlLoopE w cfg fuel st0
    ((if cfg.hasSink then st.events.map some ++ [none] else []), raised)

/-- Messages the sink receives from a background run
(`app.run_scrape_background`, lines 98–121): the wrapper catches any
exception escaping `scrape_site` and puts one more terminal `None`. -/
def runScrapeBackgroundMsgs (w : World) (cfg : CrawlConfig) (fuel : Nat) :
    List (Option Str) :=
  let (msgs, raised) := scrapeSiteMsgs w cfg fuel
  msgs ++ (if raised && cfg.hasSink then [none] else [])

/-- The per-run dedup invariant behind claim C2: the attempted canonical
URLs are exactly the found set and duplicate-free, the content hashes are
duplicate-free and are exactly the hashes of the saved files in order, and
with a sink attached there is one discovery event per saved file. -/
def ImgInv (cfg : CrawlConfig) (st : CrawlState) : Prop :=
  st.attempts = st.found ∧ st.found.Nodup ∧ st.hashes.Nodup ∧
  st.saved.map (fun e => get_image_hash e.2) = st.hashes ∧
  (cfg.hasSink = true → st.events.length = st.saved.length)

/-! # Lemmas -/

/-- Packing a valid codepoint and reading it back is the identity. -/
theorem toNat_ofNat_valid (n : Nat) (h : n.isValidChar) : (Char.ofNat n).toNat = n := by
  rw [Char.ofNat, dif_pos h]
  simp [Char.ofNatAux, Char.toNat, UInt32.toNat, BitVec.toNat_ofNatLt]

/-- Validity of a character's scalar value, at the `Nat` level. -/
theorem char_valid_nat (c : Char) :
    c.toNat < 0xD800 ∨ (0xDFFF < c.toNat ∧ c.toNat < 0x110000) := c.valid

/-- Decoding the empty byte string. -/
theorem utf8DecodeAux_nil (fuel : Nat) : utf8DecodeAux fuel [] = [] := by
  cases fuel <;> rfl

/-- One encoded character decodes back, consuming one unit of fuel. -/
theorem utf8DecodeAux_encodeChar (c : Char) (bs : List Nat) (fuel : Nat) (h : 1 ≤ fuel) :
    utf8DecodeAux fuel (utf8EncodeChar c ++ bs) = c :: utf8DecodeAux (fuel - 1) bs := by
  obtain ⟨f, rfl⟩ : ∃ f, fuel = f + 1 := ⟨fuel - 1, by omega⟩
  simp only [Nat.add_sub_cancel]
  have hv := char_valid_nat c
  by_cases h1 : c.toNat < 0x80
  · have he : utf8EncodeChar c = [c.toNat] := by
      unfold utf8EncodeChar; rw [if_pos h1]
    rw [he]
    show utf8DecodeAux (f + 1) (c.toNat :: bs) = _
    unfold utf8DecodeAux
    rw [if_pos h1, Char.ofNat_toNat, ← utf8DecodeAux.eq_def]
  · by_cases h2 : c.toNat < 0x800
    · have he : utf8EncodeChar c = [0xC0 + c.toNat / 64, 0x80 + c.toNat % 64] := by
        unfold utf8EncodeChar; rw [if_neg h1, if_pos h2]
      rw [he]
      show utf8DecodeAux (f + 1) ((0xC0 + c.toNat / 64) :: (0x80 + c.toNat % 64) :: bs) = _
      unfold utf8DecodeAux
      rw [if_neg (by omega), if_pos (by simp only [Bool.and_eq_true, decide_eq_true_eq]; omega)]
      simp only []
      rw [if_pos (by simp only [isContByte, Bool.and_eq_true, decide_eq_true_eq]; omega)]
      have harg : (0xC0 + c.toNat / 64 - 0xC0) * 64 + (0x80 + c.toNat % 64 - 0x80) = c.toNat := by
        omega
      rw [harg, Char.ofNat_toNat, ← utf8DecodeAux.eq_def]
    · by_cases h3 : c.toNat < 0x10000
      · have he : utf8EncodeChar c =
            [0xE0 + c.toNat / 4096, 0x80 + c.toNat / 64 % 64, 0x80 + c.toNat % 64] := by
          unfold utf8EncodeChar; rw [if_neg h1, if_neg h2, if_pos h3]
        rw [he]
        show utf8DecodeAux (f + 1)
          ((0xE0 + c.toNat / 4096) :: (0x80 + c.toNat / 64 % 64) :: (0x80 + c.toNat % 64) :: bs) = _
        unfold utf8DecodeAux
        rw [if_neg (by omega),
            if_neg (by simp only [Bool.and_eq_true, decide_eq_true_eq]; omega),
            if_pos (by simp only [Bool.and_eq_true, decide_eq_true_eq]; omega)]
        simp only []
        rw [if_pos (by
          simp only [isCont3, isContByte]
          split
          · rename_i hE0
            have : c.toNat / 4096 = 0 := by omega
            simp only [Bool.and_eq_true, decide_eq_true_eq]
            omega
          · split
            · rename_i hne hED
              have : c.toNat / 4096 = 13 := by omega
              have hsur : c.toNat < 0xD800 := by rcases hv with h' | h' <;> omega
              simp only [Bool.and_eq_true, decide_eq_true_eq]
              omega
            · simp only [Bool.and_eq_true, decide_eq_true_eq]
              omega)]
        rw [if_pos (by simp only [isContByte, Bool.and_eq_true, decide_eq_true_eq]; omega)]
        have harg : (0xE0 + c.toNat / 4096 - 0xE0) * 4096 +
            (0x80 + c.toNat / 64 % 64 - 0x80) * 64 + (0x80 + c.toNat % 64 - 0x80) = c.toNat := by
          omega
        rw [harg, Char.ofNat_toNat, ← utf8DecodeAux.eq_def]
      · have h4 : c.toNat < 0x110000 := by rcases hv with h' | h' <;> omega
        have he : utf8EncodeChar c = [0xF0 + c.toNat / 262144, 0x80 + c.toNat / 4096 % 64,
            0x80 + c.toNat / 64 % 64, 0x80 + c.toNat % 64] := by
          unfold utf8EncodeChar; rw [if_neg h1, if_neg h2, if_neg h3]
        rw [he]
        show utf8DecodeAux (f + 1)
          ((0xF0 + c.toNat / 262144) :: (0x80 + c.toNat / 4096 % 64) ::
            (0x80 + c.toNat / 64 % 64) :: (0x80 + c.toNat % 64) :: bs) = _
        unfold utf8DecodeAux
        rw [if_neg (by omega),
            if_neg (by simp only [Bool.and_eq_true, decide_eq_true_eq]; omega),
            if_neg (by simp only [Bool.and_eq_true, decide_eq_true_eq]; omega),
            if_pos (by simp only [Bool.and_eq_true, decide_eq_true_eq]; omega)]
        simp only []
        rw [if_pos (by
          simp only [isCont4, isContByte]
          split
          · rename_i hF0
            have : c.toNat / 262144 = 0 := by omega
            simp only [Bool.and_eq_true, decide_eq_true_eq]
            omega
          · split
            · rename_i hne hF4
              have : c.toNat / 262144 = 4 := by omega
              simp only [Bool.and_eq_true, decide_eq_true_eq]
              omega
            · simp only [Bool.and_eq_true, decide_eq_true_eq]
              omega)]
        rw [if_pos (by simp only [isContByte, Bool.and_eq_true, decide_eq_true_eq]; omega)]
        rw [if_pos (by simp only [isContByte, Bool.and_eq_true, decide_eq_true_eq]; omega)]
        have harg : (0xF0 + c.toNat / 262144 - 0xF0) * 262144 +
            (0x80 + c.toNat / 4096 % 64 - 0x80) * 4096 +
            (0x80 + c.toNat / 64 % 64 - 0x80) * 64 + (0x80 + c.toNat % 64 - 0x80) = c.toNat := by
          omega
        rw [harg, Char.ofNat_toNat, ← utf8DecodeAux.eq_def]

/-- Decoding an encoded string with sufficient fuel is the identity. -/
theorem utf8DecodeAux_encode (s : Str) : ∀ fuel, s.length ≤ fuel →
    utf8DecodeAux fuel (utf8Encode s) = s := by
  induction s with
  | nil => intro fuel _; exact utf8DecodeAux_nil fuel
  | cons c rest ih =>
    intro fuel hf
    show utf8DecodeAux fuel (utf8EncodeChar c ++ utf8Encode rest) = _
    rw [utf8DecodeAux_encodeChar c _ fuel (by simp at hf; omega)]
    rw [ih (fuel - 1) (by simp at hf; omega)]

/-- Each character encodes to at least one byte. -/
theorem utf8EncodeChar_ne_nil (c : Char) : utf8EncodeChar c ≠ [] := by
  simp only [utf8EncodeChar]
  split_ifs <;> simp

/-- The encoding is at least as long as the string. -/
theorem utf8Encode_length_ge (s : Str) : s.length ≤ (utf8Encode s).length := by
  induction s with
  | nil => simp [utf8Encode]
  | cons c rest ih =>
    show _ ≤ (utf8EncodeChar c ++ utf8Encode rest).length
    have := utf8EncodeChar_ne_nil c
    simp only [List.length_append, List.length_cons]
    have : 1 ≤ (utf8EncodeChar c).length := by
      cases h : utf8EncodeChar c with
      | nil => exact absurd h this
      | cons _ _ => simp
    omega

/-- UTF-8 decode–encode round trip (Python
`quote(s).encode...decode('utf-8','replace')` fidelity core). -/
theorem utf8_decode_encode (s : Str) : utf8DecodeReplace (utf8Encode s) = s :=
  utf8DecodeAux_encode s _ (utf8Encode_length_ge s)

/-- Bytes produced by the UTF-8 encoder are below 256. -/
theorem utf8EncodeChar_lt_256 (c : Char) : ∀ b ∈ utf8EncodeChar c, b < 256 := by
  have hv := char_valid_nat c
  simp only [utf8EncodeChar]
  split_ifs with h1 h2 h3 <;> intro b hb <;> simp at hb <;> omega

/-- Bytes of an encoded string are below 256. -/
theorem utf8Encode_lt_256 (s : Str) : ∀ b ∈ utf8Encode s, b < 256 := by
  induction s with
  | nil => simp [utf8Encode]
  | cons c rest ih =>
    intro b hb
    rcases List.mem_append.mp hb with h | h
    · exact utf8EncodeChar_lt_256 c b h
    · exact ih b h

set_option maxRecDepth 8000 in
/-- Hex round trip for one byte. -/
theorem hexRound : ∀ b < 256,
    isHexDigit (hexDigitUpper (b / 16)) = true ∧ isHexDigit (hexDigitUpper (b % 16)) = true ∧
      hexVal (hexDigitUpper (b / 16)) * 16 + hexVal (hexDigitUpper (b % 16)) = b := by
  decide

/-- Unfolding of percent-decoding at a non-`%` character. -/
theorem unquoteToBytes_cons_ne (c : Char) (rest : Str) (h : c ≠ '%') :
    unquoteToBytes (c :: rest) = utf8EncodeChar c ++ unquoteToBytes rest := by
  unfold unquoteToBytes
  split
  · rename_i heq; cases heq
  · rename_i heq
    injection heq with h1 _
    exact absurd h1 h
  · rename_i heq
    injection heq with h1 h2
    subst h1; subst h2
    rw [← unquoteToBytes.eq_def]

/-- Unfolding of percent-decoding at a `%` escape. -/
theorem unquoteToBytes_escape (c1 c2 : Char) (rest : Str) :
    unquoteToBytes ('%' :: c1 :: c2 :: rest) =
      if isHexDigit c1 && isHexDigit c2 then
        (hexVal c1 * 16 + hexVal c2) :: unquoteToBytes rest
      else 0x25 :: unquoteToBytes (c1 :: c2 :: rest) := rfl

/-- Percent-decoding inverts byte quoting. -/
theorem unquoteToBytes_quoteFromBytes (safe : List Nat)
    (hsafe : ∀ b ∈ safe, b < 0x80 ∧ b ≠ 0x25) :
    ∀ bs : List Nat, (∀ b ∈ bs, b < 256) →
      unquoteToBytes (quoteFromBytes safe bs) = bs := by
  intro bs
  induction bs with
  | nil => intro _; rfl
  | cons b rest ih =>
    intro hlt
    have hb : b < 256 := hlt b (by simp)
    have hrest := fun b' hb' => hlt b' (List.mem_cons_of_mem _ hb')
    show unquoteToBytes (quoteByte safe b ++ quoteFromBytes safe rest) = b :: rest
    by_cases hsb : (isAlwaysSafeByte b || b ∈ safe) = true
    · have hbyte : quoteByte safe b = [Char.ofNat b] := by
        unfold quoteByte; rw [if_pos hsb]
      have hb80 : b < 0x80 ∧ b ≠ 0x25 := by
        rcases Bool.or_eq_true_iff.mp hsb with h | h
        · constructor
          · simp only [isAlwaysSafeByte, Bool.or_eq_true, Bool.and_eq_true,
              decide_eq_true_eq] at h
            omega
          · intro hEq
            subst hEq
            simp [isAlwaysSafeByte] at h
        · exact hsafe b (by simpa using h)
      have hvalid : b.isValidChar := Or.inl (by omega)
      have hne : Char.ofNat b ≠ '%' := by
        intro hEq
        have := congrArg Char.toNat hEq
        rw [toNat_ofNat_valid b hvalid] at this
        simp only [show ('%').toNat = 37 from rfl] at this
        omega
      rw [hbyte, List.cons_append, List.nil_append,
          unquoteToBytes_cons_ne _ _ hne]
      have henc : utf8EncodeChar (Char.ofNat b) = [b] := by
        unfold utf8EncodeChar
        rw [toNat_ofNat_valid b hvalid]
        rw [if_pos hb80.1]
      rw [henc, ih hrest]
      rfl
    · have hbyte : quoteByte safe b = ['%', hexDigitUpper (b / 16), hexDigitUpper (b % 16)] := by
        unfold quoteByte; rw [if_neg (by simpa using hsb)]
      obtain ⟨hd1, hd2, hdv⟩ := hexRound b hb
      rw [hbyte]
      show unquoteToBytes ('%' :: hexDigitUpper (b / 16) :: hexDigitUpper (b % 16) ::
        quoteFromBytes safe rest) = b :: rest
      rw [unquoteToBytes_escape, if_pos (by rw [hd1, hd2]; rfl), hdv, ih hrest]

/-- Classification of the characters a quoting with an ASCII-safe set can
produce. -/
theorem quoteFromBytes_chars (safe : List Nat) (hsafe : ∀ b ∈ safe, b < 0x80)
    (bs : List Nat) (hbs : ∀ b ∈ bs, b < 256) :
    ∀ c ∈ quoteFromBytes safe bs,
      (∃ b, (isAlwaysSafeByte b || b ∈ safe) = true ∧ b < 0x80 ∧ c = Char.ofNat b) ∨
        c = '%' ∨ isDigitAscii c = true ∨ (65 ≤ c.toNat ∧ c.toNat ≤ 70) := by
  induction bs with
  | nil => intro c hc; cases hc
  | cons b rest ih =>
    intro c hc
    have hb : b < 256 := hbs b (by simp)
    have hrest := fun b' hb' => hbs b' (List.mem_cons_of_mem _ hb')
    rcases List.mem_append.mp hc with h | h
    · by_cases hsb : (isAlwaysSafeByte b || b ∈ safe) = true
      · left
        refine ⟨b, hsb, ?_, ?_⟩
        · rcases Bool.or_eq_true_iff.mp hsb with h' | h'
          · simp only [isAlwaysSafeByte, Bool.or_eq_true, Bool.and_eq_true,
              decide_eq_true_eq] at h'
            omega
          · exact hsafe b (by simpa using h')
        · unfold quoteByte at h
          rw [if_pos hsb] at h
          simpa using h
      · unfold quoteByte at h
        rw [if_neg hsb] at h
        simp only [List.mem_cons, List.mem_singleton] at h
        rcases h with rfl | rfl | rfl | h'
        · right; left; rfl
        · obtain ⟨h1, _, _⟩ := hexRound b hb
          right; right
          simp only [hexDigitUpper]
          split_ifs with hlt
          · left
            simp only [isDigitAscii, Bool.and_eq_true, decide_eq_true_eq]
            have : b / 16 < 16 := by omega
            rw [toNat_ofNat_valid _ (Or.inl (by omega))]
            omega
          · right
            have : b / 16 < 16 := by omega
            rw [toNat_ofNat_valid _ (Or.inl (by omega))]
            omega
        · obtain ⟨_, h2, _⟩ := hexRound b hb
          right; right
          simp only [hexDigitUpper]
          split_ifs with hlt
          · left
            simp only [isDigitAscii, Bool.and_eq_true, decide_eq_true_eq]
            have : b % 16 < 16 := by omega
            rw [toNat_ofNat_valid _ (Or.inl (by omega))]
            omega
          · right
            have : b % 16 < 16 := by omega
            rw [toNat_ofNat_valid _ (Or.inl (by omega))]
            omega
        · cases h'
    · exact ih hrest c h

/-- Membership in `replaceChar` output. -/
theorem mem_replaceChar {c a b : Char} {s : Str} (h : c ∈ replaceChar a b s) :
    c = b ∨ (c ∈ s ∧ c ≠ a) := by
  simp only [replaceChar, List.mem_map] at h
  obtain ⟨x, hx, hxe⟩ := h
  by_cases hxa : x = a
  · left; rw [← hxe, hxa, if_pos rfl]
  · right
    rw [← hxe, if_neg hxa]
    exact ⟨hx, hxa⟩

/-- Classification of `pyQuote` output characters, with the safe set as
characters. -/
theorem pyQuote_chars (s safe : Str) (hsafe : ∀ x ∈ safe, x.toNat < 0x80) :
    ∀ c ∈ pyQuote s safe,
      isAlwaysSafeByte c.toNat = true ∨ c = '%' ∨ c ∈ safe ∨ isDigitAscii c = true ∨
        (65 ≤ c.toNat ∧ c.toNat ≤ 70) := by
  intro c hc
  have := quoteFromBytes_chars (safe.map Char.toNat)
    (by intro b hb; simp only [List.mem_map] at hb; obtain ⟨x, hx, rfl⟩ := hb
        exact hsafe x hx)
    (utf8Encode s) (utf8Encode_lt_256 s) c hc
  rcases this with ⟨b, hsb, hb80, rfl⟩ | h | h | h
  · rcases Bool.or_eq_true_iff.mp hsb with h' | h'
    · left; rw [toNat_ofNat_valid _ (Or.inl (by omega))]; exact h'
    · right; right; left
      have h'' : b ∈ safe.map Char.toNat := by simpa using h'
      simp only [List.mem_map] at h''
      obtain ⟨x, hx, rfl⟩ := h''
      rw [Char.ofNat_toNat]
      exact hx
  · right; left; exact h
  · right; right; right; left; exact h
  · right; right; right; right; exact h

/-- Characters of a `quote_plus` output: always-safe, `%`, `+`, or an
uppercase hex digit. -/
theorem quotePlus_chars (s : Str) :
    ∀ c ∈ quotePlus s,
      isAlwaysSafeByte c.toNat = true ∨ c = '%' ∨ c = '+' ∨ isDigitAscii c = true ∨
        (65 ≤ c.toNat ∧ c.toNat ≤ 70) := by
  intro c hc
  unfold quotePlus at hc
  split_ifs at hc with hsp
  · rcases mem_replaceChar hc with rfl | ⟨hmem, hne⟩
    · right; right; left; rfl
    · have := pyQuote_chars s [' '] (by intro x hx; simp at hx; subst hx; decide) c hmem
      rcases this with h | h | h | h | h
      · left; exact h
      · right; left; exact h
      · simp only [List.mem_singleton] at h
        exact absurd h hne
      · right; right; right; left; exact h
      · right; right; right; right; exact h
  · have := pyQuote_chars s [] (by intro x hx; cases hx) c hc
    rcases this with h | h | h | h | h
    · left; exact h
    · right; left; exact h
    · cases h
    · right; right; right; left; exact h
    · right; right; right; right; exact h

/-- A character outside the `quote_plus` alphabet never occurs in its
output. -/
theorem notMem_quotePlus (x : Char) (s : Str)
    (hx : ¬(isAlwaysSafeByte x.toNat = true ∨ x = '%' ∨ x = '+' ∨ isDigitAscii x = true ∨
      (65 ≤ x.toNat ∧ x.toNat ≤ 70))) : x ∉ quotePlus s :=
  fun h => hx (quotePlus_chars s x h)

/-- Output of `quote_plus` is ASCII. -/
theorem quotePlus_ascii (s : Str) : ∀ c ∈ quotePlus s, isAsciiChar c = true := by
  intro c hc
  rcases quotePlus_chars s c hc with h | rfl | rfl | h | h
  · simp only [isAlwaysSafeByte, Bool.or_eq_true, Bool.and_eq_true,
      decide_eq_true_eq] at h
    simp only [isAsciiChar, decide_eq_true_eq]
    omega
  · decide
  · decide
  · simp only [isDigitAscii, Bool.and_eq_true, decide_eq_true_eq] at h
    simp only [isAsciiChar, decide_eq_true_eq]
    omega
  · simp only [isAsciiChar, decide_eq_true_eq]
    omega

/-- Characterization of a successful `splitFirst`. -/
theorem splitFirst_eq_some {c : Char} {s pre post : Str} :
    splitFirst c s = some (pre, post) ↔ s = pre ++ c :: post ∧ c ∉ pre := by
  constructor
  · intro h
    induction s generalizing pre post with
    | nil => cases h
    | cons x rest ih =>
      unfold splitFirst at h
      split_ifs at h with hx
      · injection h with h'
        injection h' with h1 h2
        subst hx; subst h2
        rw [← h1]
        exact ⟨rfl, by simp⟩
      · cases hsp : splitFirst c rest with
        | none => rw [hsp] at h; cases h
        | some pq =>
          obtain ⟨p, q⟩ := pq
          rw [hsp] at h
          injection h with h'
          injection h' with h1 h2
          obtain ⟨hr, hnp⟩ := @ih p q hsp
          subst h2
          rw [← h1, hr]
          constructor
          · rfl
          · simp only [List.mem_cons]
            rintro (rfl | hmem)
            · exact hx rfl
            · exact hnp hmem
  · rintro ⟨rfl, hnp⟩
    induction pre with
    | nil =>
      rw [List.nil_append]
      unfold splitFirst
      rw [if_pos rfl]
    | cons x rest ih =>
      rw [List.cons_append]
      unfold splitFirst
      have hx : x ≠ c := fun h => hnp (h ▸ List.mem_cons_self x rest)
      rw [if_neg hx, ih (fun h => hnp (List.mem_cons_of_mem x h))]

/-- Absence of the separator makes `splitFirst` fail. -/
theorem splitFirst_eq_none {c : Char} {s : Str} (h : c ∉ s) : splitFirst c s = none := by
  induction s with
  | nil => rfl
  | cons x rest ih =>
    unfold splitFirst
    rw [if_neg (fun he => h (List.mem_cons.mpr (Or.inl he.symm))),
        ih (fun hm => h (List.mem_cons_of_mem x hm))]

/-- A failing `splitFirst` means the separator is absent. -/
theorem not_mem_of_splitFirst_none {c : Char} {s : Str} :
    splitFirst c s = none → c ∉ s := by
  induction s with
  | nil => intro _; simp
  | cons x rest ih =>
    intro h hmem
    unfold splitFirst at h
    by_cases hx : x = c
    · rw [if_pos hx] at h; cases h
    · rw [if_neg hx] at h
      cases hsp : splitFirst c rest with
      | some pq =>
        obtain ⟨p, q⟩ := pq
        rw [hsp] at h
        cases h
      | none =>
        rcases List.mem_cons.mp hmem with he | hm
        · exact hx he.symm
        · exact ih hsp hm

/-- Replacing forth and back is the identity when the target character is
absent. -/
theorem replaceChar_cancel {x : Str} (h : '+' ∉ x) :
    replaceChar '+' ' ' (replaceChar ' ' '+' x) = x := by
  induction x with
  | nil => rfl
  | cons c rest ih =>
    have hc : c ≠ '+' := fun he => h (he ▸ List.mem_cons_self c rest)
    have hr := ih (fun hm => h (List.mem_cons_of_mem c hm))
    show replaceChar '+' ' ' ((if c = ' ' then '+' else c) :: replaceChar ' ' '+' rest) = _
    by_cases hsp : c = ' '
    · rw [if_pos hsp]
      show (if ('+' : Char) = '+' then ' ' else '+') :: replaceChar '+' ' ' (replaceChar ' ' '+' rest) = _
      rw [if_pos rfl, hr, hsp]
    · rw [if_neg hsp]
      show (if c = '+' then ' ' else c) :: replaceChar '+' ' ' (replaceChar ' ' '+' rest) = _
      rw [if_neg hc, hr]

/-- Replacement of an absent character is the identity. -/
theorem replaceChar_noop {a b : Char} {x : Str} (h : a ∉ x) : replaceChar a b x = x := by
  induction x with
  | nil => rfl
  | cons c rest ih =>
    have hc : c ≠ a := fun he => h (he ▸ List.mem_cons_self c rest)
    show (if c = a then b else c) :: replaceChar a b rest = _
    rw [if_neg hc, ih (fun hm => h (List.mem_cons_of_mem c hm))]

/-- A fully ASCII, nonempty string is a single ASCII run. -/
theorem asciiRuns_allAscii {s : Str} (h : ∀ c ∈ s, isAsciiChar c = true) (hne : s ≠ []) :
    asciiRuns s = [(true, s)] := by
  induction s with
  | nil => exact absurd rfl hne
  | cons c rest ih =>
    have hc : isAsciiChar c = true := h c (by simp)
    cases rest with
    | nil => simp [asciiRuns, hc]
    | cons c2 r2 =>
      have hrest := ih (fun x hx => h x (List.mem_cons_of_mem c hx)) (by simp)
      unfold asciiRuns
      rw [hrest]
      simp [hc]

/-- On ASCII input, `unquote` is percent-decode followed by UTF-8 decode. -/
theorem unquote_allAscii {s : Str} (h : ∀ c ∈ s, isAsciiChar c = true) :
    unquote s = utf8DecodeReplace (unquoteToBytes s) := by
  cases hs : s with
  | nil => rfl
  | cons c rest =>
    rw [← hs]
    unfold unquote
    rw [asciiRuns_allAscii h (by rw [hs]; simp)]
    simp

/-- Round trip: `unquote(qs.replace('+', ' '))` inverts `quote_plus` — the
composition used by `parse_qsl` on names and values produced by
`urlencode`. -/
theorem unquote_replace_quotePlus (s : Str) :
    unquote (replaceChar '+' ' ' (quotePlus s)) = s := by
  have hascii : ∀ c ∈ replaceChar '+' ' ' (quotePlus s), isAsciiChar c = true := by
    intro c hc
    rcases mem_replaceChar hc with rfl | ⟨hm, _⟩
    · decide
    · exact quotePlus_ascii s c hm
  rw [unquote_allAscii hascii]
  unfold quotePlus
  split_ifs with hsp
  · rw [replaceChar_cancel (by
      intro hmem
      have := pyQuote_chars s [' '] (by intro x hx; simp at hx; subst hx; decide) '+' hmem
      exact absurd this (by decide))]
    show utf8DecodeReplace (unquoteToBytes (quoteFromBytes ([' '].map Char.toNat) (utf8Encode s))) = s
    rw [unquoteToBytes_quoteFromBytes _ (by intro b hb; simp at hb; subst hb; constructor <;> decide)
        _ (utf8Encode_lt_256 s)]
    exact utf8_decode_encode s
  · rw [replaceChar_noop (by
      intro hmem
      have := pyQuote_chars s [] (by intro x hx; cases hx) '+' hmem
      exact absurd this (by decide))]
    show utf8DecodeReplace (unquoteToBytes (quoteFromBytes ([].map Char.toNat) (utf8Encode s))) = s
    rw [unquoteToBytes_quoteFromBytes _ (by intro b hb; cases hb) _ (utf8Encode_lt_256 s)]
    exact utf8_decode_encode s

/-- Encoding a nonempty string yields bytes. -/
theorem utf8Encode_ne_nil {s : Str} (h : s ≠ []) : utf8Encode s ≠ [] := by
  cases s with
  | nil => exact absurd rfl h
  | cons c rest =>
    show utf8EncodeChar c ++ utf8Encode rest ≠ []
    simp [utf8EncodeChar_ne_nil c]

/-- Quoting nonempty bytes yields a nonempty string. -/
theorem quoteFromBytes_ne_nil {safe : List Nat} {bs : List Nat} (h : bs ≠ []) :
    quoteFromBytes safe bs ≠ [] := by
  cases bs with
  | nil => exact absurd rfl h
  | cons b rest =>
    show quoteByte safe b ++ quoteFromBytes safe rest ≠ []
    unfold quoteByte
    split_ifs <;> simp

/-- `quote_plus` of a nonempty string is nonempty. -/
theorem quotePlus_ne_nil {s : Str} (h : s ≠ []) : quotePlus s ≠ [] := by
  unfold quotePlus
  split_ifs
  · intro he
    have : pyQuote s [' '] = [] := by
      have := congrArg List.length he
      simpa [replaceChar] using this
    exact quoteFromBytes_ne_nil (utf8Encode_ne_nil h) this
  · exact quoteFromBytes_ne_nil (utf8Encode_ne_nil h)

/-- Unfolding of `splitOn` at a cons cell. -/
theorem splitOn_cons (sep c : Char) (rest : Str) :
    splitOn sep (c :: rest) =
      match splitOn sep rest with
      | h :: t => if c = sep then [] :: h :: t else (c :: h) :: t
      | [] => [[c]] := rfl

/-- `splitOn` never returns the empty list. -/
theorem splitOn_ne_nil (sep : Char) (s : Str) : splitOn sep s ≠ [] := by
  cases s with
  | nil => simp [splitOn]
  | cons c rest =>
    rw [splitOn_cons]
    cases h : splitOn sep rest with
    | nil => simp
    | cons a t => split_ifs <;> simp

/-- Splitting a separator-free string. -/
theorem splitOn_not_mem {sep : Char} {s : Str} (h : sep ∉ s) : splitOn sep s = [s] := by
  induction s with
  | nil => rfl
  | cons c rest ih =>
    rw [splitOn_cons, ih (fun hm => h (List.mem_cons_of_mem c hm))]
    simp only []
    rw [if_neg (fun he => h (List.mem_cons.mpr (Or.inl he.symm)))]

/-- Splitting peels off a leading separator-free segment. -/
theorem splitOn_sep_append {sep : Char} {a t : Str} (h : sep ∉ a) :
    splitOn sep (a ++ sep :: t) = a :: splitOn sep t := by
  induction a with
  | nil =>
    rw [List.nil_append, splitOn_cons]
    cases hs : splitOn sep t with
    | nil => exact absurd hs (splitOn_ne_nil sep t)
    | cons x xs => simp
  | cons c a' ih =>
    rw [List.cons_append, splitOn_cons, ih (fun hm => h (List.mem_cons_of_mem c hm))]
    simp only []
    rw [if_neg (fun he => h (List.mem_cons.mpr (Or.inl he.symm)))]

/-- Splitting inverts joining when no member contains the separator. -/
theorem splitOn_joinWith {sep : Char} {fields : List Str} (hne : fields ≠ [])
    (hf : ∀ f ∈ fields, sep ∉ f) : splitOn sep (joinWith sep fields) = fields := by
  induction fields with
  | nil => exact absurd rfl hne
  | cons f rest ih =>
    cases rest with
    | nil => exact splitOn_not_mem (hf f (by simp))
    | cons g rest' =>
      show splitOn sep (f ++ sep :: joinWith sep (g :: rest')) = _
      rw [splitOn_sep_append (hf f (by simp)),
          ih (by simp) (fun x hx => hf x (List.mem_cons_of_mem f hx))]

/-- The field list underlying `urlencode`. -/
theorem urlencode_eq_joinWith (d : List (Str × List Str)) :
    urlencode d = joinWith '&' ((pairsOf d).map fieldStr) := by
  unfold urlencode pairsOf
  congr 1
  induction d with
  | nil => rfl
  | cons kv rest ih =>
    simp only [List.foldr_cons, List.map_append, List.map_map, ih]
    congr 1

/-- The separator `&` does not occur in a field. -/
theorem amp_not_mem_fieldStr (p : Str × Str) : '&' ∉ fieldStr p := by
  intro hm
  unfold fieldStr at hm
  rcases List.mem_append.mp hm with h | h
  · exact notMem_quotePlus '&' p.1 (by decide) h
  · rcases List.mem_cons.mp h with he | h
    · cases he
    · exact notMem_quotePlus '&' p.2 (by decide) h

/-- The separator `=` does not occur in a quoted name. -/
theorem eq_not_mem_quotePlus (s : Str) : '=' ∉ quotePlus s :=
  notMem_quotePlus '=' s (by decide)

/-- A field never parses empty and splits at its `=`. -/
theorem qslStep_fieldStr (p : Str × Str) (hv : p.2 ≠ ([] : Str))
    (acc : List (Str × Str)) : qslStep (fieldStr p) acc = p :: acc := by
  unfold qslStep
  rw [if_neg (by
    unfold fieldStr
    intro he
    have := congrArg List.length he
    simp at this)]
  rw [show fieldStr p = quotePlus p.1 ++ '=' :: quotePlus p.2 from rfl,
      splitFirst_eq_some.mpr ⟨rfl, eq_not_mem_quotePlus p.1⟩]
  simp only []
  rw [if_neg (by simpa using quotePlus_ne_nil hv)]
  rw [unquote_replace_quotePlus, unquote_replace_quotePlus]

/-- Folding `qslStep` over encoded fields recovers the pairs. -/
theorem foldr_qslStep_fields (ps : List (Str × Str))
    (hv : ∀ p ∈ ps, p.2 ≠ ([] : Str)) :
    (ps.map fieldStr).foldr qslStep [] = ps := by
  induction ps with
  | nil => rfl
  | cons p rest ih =>
    simp only [List.map_cons, List.foldr_cons]
    rw [ih (fun q hq => hv q (List.mem_cons_of_mem p hq)),
        qslStep_fieldStr p (hv p (by simp))]

/-- `parse_qsl` inverts `urlencode` on pairs with nonempty values. -/
theorem parse_qsl_urlencode (d : List (Str × List Str))
    (hv : ∀ p ∈ pairsOf d, p.2 ≠ ([] : Str)) :
    parse_qsl (urlencode d) = pairsOf d := by
  rw [urlencode_eq_joinWith]
  cases hp : pairsOf d with
  | nil => rfl
  | cons p0 ps =>
    have hne : (pairsOf d).map fieldStr ≠ [] := by rw [hp]; simp
    have hjne : joinWith '&' ((pairsOf d).map fieldStr) ≠ [] := by
      rw [hp]
      simp only [List.map_cons]
      cases ps with
      | nil =>
        show fieldStr p0 ≠ []
        unfold fieldStr
        intro he
        have := congrArg List.length he
        simp at this
      | cons q qs =>
        show fieldStr p0 ++ '&' :: joinWith '&' (fieldStr q :: List.map fieldStr qs) ≠ []
        simp
    rw [hp] at hne hjne hv
    unfold parse_qsl
    rw [if_neg hjne]
    rw [splitOn_joinWith hne (by
      intro f hf
      simp only [List.mem_map] at hf
      obtain ⟨p, _, rfl⟩ := hf
      exact amp_not_mem_fieldStr p)]
    exact foldr_qslStep_fields _ hv

/-- Unfolding of `pairsOf` at a cons cell. -/
theorem pairsOf_cons (kv : Str × List Str) (d : List (Str × List Str)) :
    pairsOf (kv :: d) = kv.2.map (fun v => (kv.1, v)) ++ pairsOf d := rfl

/-- Every flattened pair originates in the dict. -/
theorem mem_pairsOf {d : List (Str × List Str)} {p : Str × Str} (h : p ∈ pairsOf d) :
    ∃ kv ∈ d, p.1 = kv.1 ∧ p.2 ∈ kv.2 := by
  induction d with
  | nil => cases h
  | cons kv rest ih =>
    rw [pairsOf_cons] at h
    rcases List.mem_append.mp h with h' | h'
    · simp only [List.mem_map] at h'
      obtain ⟨v, hv, rfl⟩ := h'
      exact ⟨kv, by simp, rfl, hv⟩
    · obtain ⟨kv', hm, he⟩ := ih h'
      exact ⟨kv', List.mem_cons_of_mem kv hm, he⟩

/-- Inserting an existing key appends its value. -/
theorem insertPair_same (k : Str) (vs : List Str) (rest : List (Str × List Str)) (v : Str) :
    insertPair ((k, vs) :: rest) (k, v) = (k, vs ++ [v]) :: rest := by
  unfold insertPair; rw [if_pos rfl]

/-- Inserting under a different head key passes the head through. -/
theorem insertPair_skip {k n : Str} (h : k ≠ n) (vs : List Str)
    (rest : List (Str × List Str)) (v : Str) :
    insertPair ((k, vs) :: rest) (n, v) = (k, vs) :: insertPair rest (n, v) := by
  unfold insertPair
  rw [if_neg h, ← insertPair.eq_def]

/-- Consecutive same-key pairs accumulate onto the head entry. -/
theorem foldl_insertPair_group (k : Str) (vs : List Str) : ∀ (pre : List Str)
    (tailacc : List (Str × List Str)),
    (vs.map (fun v => (k, v))).foldl insertPair ((k, pre) :: tailacc) =
      (k, pre ++ vs) :: tailacc := by
  induction vs with
  | nil => intro pre tailacc; simp
  | cons v vs' ih =>
    intro pre tailacc
    simp only [List.map_cons, List.foldl_cons]
    rw [insertPair_same, ih (pre ++ [v]) tailacc]
    simp

/-- Pairs with keys different from the head leave the head untouched. -/
theorem foldl_insertPair_pass (e : Str × List Str) : ∀ (ps : List (Str × Str))
    (acc : List (Str × List Str)), (∀ p ∈ ps, p.1 ≠ e.1) →
    ps.foldl insertPair (e :: acc) = e :: ps.foldl insertPair acc := by
  intro ps
  induction ps with
  | nil => intro acc _; rfl
  | cons p rest ih =>
    intro acc hne
    obtain ⟨e1, e2⟩ := e
    obtain ⟨p1, p2⟩ := p
    simp only [List.foldl_cons]
    rw [insertPair_skip (Ne.symm (hne (p1, p2) (by simp))) e2 acc p2]
    exact ih _ (fun q hq => hne q (List.mem_cons_of_mem _ hq))

/-- Grouping the flattened pairs recovers a well-formed dict. -/
theorem foldl_insertPair_pairsOf (d : List (Str × List Str))
    (hkeys : (d.map Prod.fst).Nodup) (hvs : ∀ kv ∈ d, kv.2 ≠ []) :
    (pairsOf d).foldl insertPair [] = d := by
  induction d with
  | nil => rfl
  | cons kv d' ih =>
    obtain ⟨k, vs⟩ := kv
    rw [pairsOf_cons, List.foldl_append]
    simp only [List.map_cons] at hkeys
    obtain ⟨hk, hkeys'⟩ := List.nodup_cons.mp hkeys
    cases hv0 : vs with
    | nil => exact absurd hv0 (hvs (k, vs) (by simp))
    | cons v vs' =>
      simp only [List.map_cons, List.foldl_cons]
      rw [show insertPair [] (k, v) = [(k, [v])] from rfl,
          foldl_insertPair_group k vs' [v] []]
      rw [foldl_insertPair_pass (k, [v] ++ vs') _ _ (by
        intro p hp
        obtain ⟨kv', hm', he', _⟩ := mem_pairsOf hp
        intro hpe
        rw [he'] at hpe
        exact hk (List.mem_map.mpr ⟨kv', hm', hpe⟩))]
      rw [ih hkeys' (fun q hq => hvs q (List.mem_cons_of_mem _ hq))]
      simp

/-- `parse_qs` inverts `urlencode` on well-formed dicts. -/
theorem parse_qs_urlencode (d : List (Str × List Str))
    (hkeys : (d.map Prod.fst).Nodup) (hvs : ∀ kv ∈ d, kv.2 ≠ [])
    (hv : ∀ kv ∈ d, ∀ v ∈ kv.2, v ≠ ([] : Str)) :
    parse_qs (urlencode d) = d := by
  unfold parse_qs
  rw [parse_qsl_urlencode d (by
    intro p hp
    obtain ⟨kv, hm, _, hv2⟩ := mem_pairsOf hp
    exact hv kv hm p.2 hv2)]
  exact foldl_insertPair_pairsOf d hkeys hvs

/-- Decoding nonempty bytes yields a nonempty string. -/
theorem utf8DecodeReplace_ne_nil {bs : List Nat} (h : bs ≠ []) :
    utf8DecodeReplace bs ≠ [] := by
  cases bs with
  | nil => exact absurd rfl h
  | cons b rest =>
    show utf8DecodeAux (rest.length + 1) (b :: rest) ≠ []
    unfold utf8DecodeAux
    split_ifs <;> try simp
    all_goals
      (first
        | simp
        | (cases rest with
            | nil => simp
            | cons b2 r2 =>
              simp only []
              split_ifs <;> try simp
              all_goals
                (first
                  | simp
                  | (cases r2 with
                      | nil => simp
                      | cons b3 r3 =>
                        simp only []
                        split_ifs <;> try simp
                        all_goals
                          (first
                            | simp
                            | (cases r3 with
                                | nil => simp
                                | cons b4 r4 =>
                                  simp only []
                                  split_ifs <;> simp))))))

/-- Percent-decoding a nonempty string yields bytes. -/
theorem unquoteToBytes_ne_nil {s : Str} (h : s ≠ []) : unquoteToBytes s ≠ [] := by
  cases s with
  | nil => exact absurd rfl h
  | cons c rest =>
    by_cases hc : c = '%'
    · subst hc
      cases rest with
      | nil =>
        simp [show unquoteToBytes ['%'] = utf8EncodeChar '%' ++ [] from rfl,
          utf8EncodeChar_ne_nil]
      | cons c1 r1 =>
        cases r1 with
        | nil =>
          simp [show unquoteToBytes ['%', c1] =
            utf8EncodeChar '%' ++ unquoteToBytes [c1] from rfl,
            utf8EncodeChar_ne_nil]
        | cons c2 r2 =>
          rw [unquoteToBytes_escape]
          split_ifs <;> simp
    · rw [unquoteToBytes_cons_ne c rest hc]
      simp [utf8EncodeChar_ne_nil]

/-- Runs in `asciiRuns` are nonempty. -/
theorem asciiRuns_members_ne_nil {s : Str} : ∀ br ∈ asciiRuns s, br.2 ≠ ([] : Str) := by
  induction s with
  | nil => intro br h; cases h
  | cons c rest ih =>
    intro br h
    unfold asciiRuns at h
    cases hr : asciiRuns rest with
    | nil =>
      rw [hr] at h
      simp only [List.mem_singleton] at h
      subst h; simp
    | cons b0 more =>
      rw [hr] at h
      simp only [] at h
      split_ifs at h
      · rcases List.mem_cons.mp h with rfl | hm
        · simp
        · exact ih _ (hr ▸ List.mem_cons_of_mem b0 hm)
      · rcases List.mem_cons.mp h with rfl | hm
        · simp
        · exact ih _ (hr ▸ hm)

/-- `asciiRuns` of a nonempty string is nonempty. -/
theorem asciiRuns_ne_nil {s : Str} (h : s ≠ []) : asciiRuns s ≠ [] := by
  cases s with
  | nil => exact absurd rfl h
  | cons c rest =>
    unfold asciiRuns
    cases asciiRuns rest with
    | nil => simp
    | cons b0 more =>
      simp only []
      split_ifs <;> simp

/-- `unquote` of a nonempty string is nonempty. -/
theorem unquote_ne_nil {s : Str} (h : s ≠ []) : unquote s ≠ [] := by
  unfold unquote
  cases hr : asciiRuns s with
  | nil => exact absurd hr (asciiRuns_ne_nil h)
  | cons br more =>
    have hbr : br.2 ≠ [] := asciiRuns_members_ne_nil br (hr ▸ List.mem_cons_self br more)
    simp only [List.foldr_cons]
    intro hemp
    rcases List.append_eq_nil.mp hemp with ⟨h1, _⟩
    split_ifs at h1
    · exact utf8DecodeReplace_ne_nil (unquoteToBytes_ne_nil hbr) h1
    · exact hbr h1

/-- Values produced by `parse_qsl` are nonempty. -/
theorem parse_qsl_values_ne_nil (qs : Str) : ∀ p ∈ parse_qsl qs, p.2 ≠ ([] : Str) := by
  unfold parse_qsl
  generalize (if qs = [] then [] else splitOn '&' qs) = fields
  induction fields with
  | nil => intro p h; cases h
  | cons f rest ih =>
    intro p h
    simp only [List.foldr_cons] at h
    unfold qslStep at h
    split_ifs at h with h1
    · exact ih p h
    · cases hsp : splitFirst '=' f with
      | none => rw [hsp] at h; exact ih p h
      | some nv =>
        obtain ⟨n, v⟩ := nv
        rw [hsp] at h
        simp only [] at h
        split_ifs at h with h2
        · exact ih p h
        · rcases List.mem_cons.mp h with rfl | hm
          · show unquote (replaceChar '+' ' ' v) ≠ []
            apply unquote_ne_nil
            intro he
            exact h2 (by
              have := congrArg List.length he
              simp [replaceChar] at this
              exact this)
          · exact ih p hm

/-- Key lists stay duplicate-free under `insertPair`. -/
theorem insertPair_keys_nodup {acc : List (Str × List Str)} {p : Str × Str}
    (h : (acc.map Prod.fst).Nodup) : ((insertPair acc p).map Prod.fst).Nodup := by
  induction acc with
  | nil => simp [insertPair]
  | cons kv rest ih =>
    obtain ⟨k, vs⟩ := kv
    simp only [List.map_cons, List.nodup_cons] at h
    obtain ⟨hk, hrest⟩ := h
    by_cases hke : k = p.1
    · rw [show p = (p.1, p.2) from rfl, ← hke, insertPair_same]
      simp only [List.map_cons, List.nodup_cons]
      exact ⟨hk, hrest⟩
    · rw [show p = (p.1, p.2) from rfl, insertPair_skip hke]
      simp only [List.map_cons, List.nodup_cons]
      refine ⟨?_, ih hrest⟩
      intro hmem
      have : (insertPair rest (p.1, p.2)).map Prod.fst =
          rest.map Prod.fst ∨ (insertPair rest (p.1, p.2)).map Prod.fst =
          rest.map Prod.fst ++ [p.1] := by
        clear hmem ih hk hrest
        induction rest with
        | nil => right; rfl
        | cons kv' rest' ih' =>
          obtain ⟨k', vs'⟩ := kv'
          by_cases hk' : k' = p.1
          · left
            rw [← hk', insertPair_same]
            simp
          · rw [insertPair_skip hk']
            rcases ih' with h' | h'
            · left; simp only [List.map_cons]; rw [h']
            · right
              simp only [List.map_cons]
              rw [h', List.cons_append]
      rcases this with he | he
      · rw [he] at hmem; exact hk hmem
      · rw [he] at hmem
        rcases List.mem_append.mp hmem with hm | hm
        · exact hk hm
        · simp only [List.mem_singleton] at hm
          exact hke hm

/-- Keys of a `parse_qs` result are duplicate-free. -/
theorem parse_qs_keys_nodup (qs : Str) : ((parse_qs qs).map Prod.fst).Nodup := by
  unfold parse_qs
  generalize parse_qsl qs = ps
  have : ∀ (ps : List (Str × Str)) (acc : List (Str × List Str)),
      (acc.map Prod.fst).Nodup → ((ps.foldl insertPair acc).map Prod.fst).Nodup := by
    intro ps
    induction ps with
    | nil => intro acc h; exact h
    | cons p rest ih =>
      intro acc h
      exact ih _ (insertPair_keys_nodup h)
  exact this ps [] (by simp)

/-- Value lists of a `parse_qs` result are nonempty with nonempty members. -/
theorem parse_qs_values (qs : Str) :
    ∀ kv ∈ parse_qs qs, kv.2 ≠ [] ∧ ∀ v ∈ kv.2, v ≠ ([] : Str) := by
  unfold parse_qs
  have step : ∀ (acc : List (Str × List Str)) (p : Str × Str),
      (∀ kv ∈ acc, kv.2 ≠ [] ∧ ∀ v ∈ kv.2, v ≠ ([] : Str)) → p.2 ≠ [] →
      ∀ kv ∈ insertPair acc p, kv.2 ≠ [] ∧ ∀ v ∈ kv.2, v ≠ ([] : Str) := by
    intro acc
    induction acc with
    | nil =>
      intro p _ hp kv hkv
      simp only [insertPair, List.mem_singleton] at hkv
      subst hkv
      exact ⟨by simp, by intro v hv; simp at hv; subst hv; exact hp⟩
    | cons e rest ih =>
      intro p hacc hp kv hkv
      obtain ⟨k, vs⟩ := e
      by_cases hke : k = p.1
      · rw [show p = (p.1, p.2) from rfl, ← hke, insertPair_same] at hkv
        rcases List.mem_cons.mp hkv with rfl | hm
        · obtain ⟨h1, h2⟩ := hacc (k, vs) (by simp)
          refine ⟨by simp, ?_⟩
          intro v hv
          rcases List.mem_append.mp hv with hv' | hv'
          · exact h2 v hv'
          · simp only [List.mem_singleton] at hv'
            subst hv'
            exact hp
        · exact hacc kv (List.mem_cons_of_mem _ hm)
      · rw [show p = (p.1, p.2) from rfl, insertPair_skip hke] at hkv
        rcases List.mem_cons.mp hkv with rfl | hm
        · exact hacc (k, vs) (by simp)
        · exact ih (p.1, p.2) (fun kv' h' => hacc kv' (List.mem_cons_of_mem _ h')) hp kv hm
  have main : ∀ (ps : List (Str × Str)) (acc : List (Str × List Str)),
      (∀ kv ∈ acc, kv.2 ≠ [] ∧ ∀ v ∈ kv.2, v ≠ ([] : Str)) →
      (∀ p ∈ ps, p.2 ≠ ([] : Str)) →
      ∀ kv ∈ ps.foldl insertPair acc, kv.2 ≠ [] ∧ ∀ v ∈ kv.2, v ≠ ([] : Str) := by
    intro ps
    induction ps with
    | nil => intro acc hacc _; exact hacc
    | cons p rest ih =>
      intro acc hacc hps
      simp only [List.foldl_cons]
      exact ih _ (step acc p hacc (hps p (by simp)))
        (fun q hq => hps q (List.mem_cons_of_mem _ hq))
  exact main _ [] (by intro kv h; cases h) (parse_qsl_values_ne_nil qs)

/-- Filtering and re-encoding a parsed query is stable: re-parsing the
re-encoded query and filtering again reproduces the same encoded query.  This
is the idempotence core of `clean_image_url`'s query transformation. -/
theorem urlencode_filter_stable (q : Str) :
    urlencode (List.filter (fun kv => lowerStr kv.1 ∉ params_to_remove)
        (parse_qs (urlencode (List.filter (fun kv => lowerStr kv.1 ∉ params_to_remove)
          (parse_qs q))))) =
      urlencode (List.filter (fun kv => lowerStr kv.1 ∉ params_to_remove) (parse_qs q)) := by
  set pred := fun kv : Str × List Str => decide (lowerStr kv.1 ∉ params_to_remove) with hpred
  have hd : parse_qs (urlencode (List.filter pred (parse_qs q))) =
      List.filter pred (parse_qs q) := by
    apply parse_qs_urlencode
    · have hsub : ((List.filter pred (parse_qs q)).map Prod.fst).Sublist
          ((parse_qs q).map Prod.fst) := (List.filter_sublist _).map Prod.fst
      exact (parse_qs_keys_nodup q).sublist hsub
    · intro kv hkv
      exact (parse_qs_values q kv (List.mem_of_mem_filter hkv)).1
    · intro kv hkv
      exact (parse_qs_values q kv (List.mem_of_mem_filter hkv)).2
  rw [hd, List.filter_filter]
  have : (fun a : Str × List Str => pred a && pred a) = pred := by
    funext a
    rw [Bool.and_self]
  rw [this]

/-! ### Lemmas on `urlsplit`/`urlparse` and their reassembly -/

/-- `takeWhile`/`dropWhile` of an append whose first part satisfies the
predicate and whose second part starts failing it. -/
theorem takeWhile_append_of_all {p : Char → Bool} {xs ys : Str}
    (hx : ∀ c ∈ xs, p c = true) (hy : ys = [] ∨ p (ys.headD ' ') = false) :
    (xs ++ ys).takeWhile p = xs ∧ (xs ++ ys).dropWhile p = ys := by
  induction xs with
  | nil =>
    simp only [List.nil_append]
    rcases hy with rfl | hy
    · simp
    · cases ys with
      | nil => simp
      | cons y t =>
        simp only [List.headD_cons] at hy
        simp [List.takeWhile_cons, List.dropWhile_cons, hy]
  | cons x xs' ih =>
    have hpx : p x = true := hx x (by simp)
    obtain ⟨h1, h2⟩ := ih (fun c hc => hx c (List.mem_cons_of_mem x hc))
    simp [List.takeWhile_cons, List.dropWhile_cons, hpx, h1, h2]

/-- The head of a nonempty `dropWhile` result fails the predicate. -/
theorem dropWhile_head_false {p : Char → Bool} {l : Str} {b : Char} {t : Str}
    (h : l.dropWhile p = b :: t) : p b = false := by
  induction l with
  | nil => cases h
  | cons x xs ih =>
    rw [List.dropWhile_cons] at h
    split_ifs at h with hx
    · exact ih h
    · injection h with h1 _
      subst h1
      simpa using hx

/-- Decomposition of a string at its last `/`: the segment after the last
slash, and the prefix ending in that slash. -/
theorem revSegment (s : Str) :
    s = s.take (s.length - ((s.reverse.takeWhile (· ≠ '/')).reverse).length) ++
        (s.reverse.takeWhile (· ≠ '/')).reverse ∧
      '/' ∉ (s.reverse.takeWhile (· ≠ '/')).reverse ∧
      ('/' ∈ s →
        s.take (s.length - ((s.reverse.takeWhile (· ≠ '/')).reverse).length) ≠ [] ∧
        (s.take (s.length - ((s.reverse.takeWhile (· ≠ '/')).reverse).length)).getLastD ' ' = '/') := by
  have hsplit : s.reverse.takeWhile (· ≠ '/') ++ s.reverse.dropWhile (· ≠ '/') = s.reverse :=
    List.takeWhile_append_dropWhile _ _
  have hs : s = (s.reverse.dropWhile (· ≠ '/')).reverse ++ (s.reverse.takeWhile (· ≠ '/')).reverse := by
    conv_lhs => rw [← List.reverse_reverse s, ← hsplit]
    rw [List.reverse_append]
  have hlen : s.length - ((s.reverse.takeWhile (· ≠ '/')).reverse).length =
      ((s.reverse.dropWhile (· ≠ '/')).reverse).length := by
    have hl := congrArg List.length hs
    simp only [List.length_append, List.length_reverse] at hl ⊢
    omega
  have htake : s.take (s.length - ((s.reverse.takeWhile (· ≠ '/')).reverse).length) =
      (s.reverse.dropWhile (· ≠ '/')).reverse := by
    have h0 := List.take_left ((s.reverse.dropWhile (· ≠ '/')).reverse)
      ((s.reverse.takeWhile (· ≠ '/')).reverse)
    rw [← hs] at h0
    rw [hlen]
    exact h0
  refine ⟨by rw [htake]; exact hs, ?_, ?_⟩
  · intro hm
    have := List.mem_takeWhile_imp (List.mem_reverse.mp hm)
    simp at this
  · intro hsl
    rw [htake]
    cases hd : s.reverse.dropWhile (· ≠ '/') with
    | nil =>
      exfalso
      have : s.reverse.takeWhile (· ≠ '/') = s.reverse := by
        conv_rhs => rw [← hsplit]
        rw [hd, List.append_nil]
      have hmem : ('/' : Char) ∈ s.reverse.takeWhile (· ≠ '/') := by
        rw [this]
        exact List.mem_reverse.mpr hsl
      have := List.mem_takeWhile_imp hmem
      simp at this
    | cons b t =>
      have hb' : b = '/' := by simpa using dropWhile_head_false hd
      subst hb'
      constructor
      · simp
      · rw [List.getLastD_eq_getLast?, List.getLast?_reverse]
        simp

/-- Characterization of `splitparams`: either it splits at a `;` of the
input, or it returns the input with empty params. -/
theorem splitparams_cases {s a b : Str} (h : splitparams s = (a, b)) :
    s = a ++ ';' :: b ∨ (a = s ∧ b = []) := by
  simp only [splitparams] at h
  split_ifs at h with hslash
  · obtain ⟨hdec, _hnm, _⟩ := revSegment s
    cases hsp : splitFirst ';' (s.reverse.takeWhile (· ≠ '/')).reverse with
    | none =>
      rw [hsp] at h
      simp only [] at h
      injection h with h1 h2
      exact Or.inr ⟨h1.symm, h2.symm⟩
    | some pq =>
      obtain ⟨pre, post⟩ := pq
      rw [hsp] at h
      simp only [] at h
      injection h with h1 h2
      obtain ⟨hre, _⟩ := splitFirst_eq_some.mp hsp
      left
      subst h1; subst h2
      conv_lhs => rw [hdec, hre]
      simp
      have hlen := congrArg List.length hre
      simp only [List.length_reverse, List.length_append, List.length_cons] at hlen
      simp only [ne_eq, decide_not] at hlen
      omega
  · cases hsp : splitFirst ';' s with
    | none =>
      rw [hsp] at h
      simp only [] at h
      injection h with h1 h2
      exact Or.inr ⟨h1.symm, h2.symm⟩
    | some pq =>
      obtain ⟨pre, post⟩ := pq
      rw [hsp] at h
      simp only [] at h
      injection h with h1 h2
      obtain ⟨hre, _⟩ := splitFirst_eq_some.mp hsp
      left
      subst h1; subst h2
      exact hre

/-- Splitting the recombined output again yields the same parts (stability of
the path;params section under a parse–unparse round trip). -/
theorem splitparams_stable {s a b : Str} (h : splitparams s = (a, b)) :
    splitparams (recombineParams a b) = (a, b) := by
  by_cases hb : b = []
  · subst hb
    show splitparams a = (a, [])
    simp only [splitparams] at h
    split_ifs at h with hslash
    · obtain ⟨hdec, hnm, hsl⟩ := revSegment s
      cases hsp : splitFirst ';' (s.reverse.takeWhile (· ≠ '/')).reverse with
      | none =>
        rw [hsp] at h
        simp only [] at h
        injection h with h1 _
        subst h1
        -- a = s and the original computation returned (s, []): rerun it
        simp only [splitparams]
        rw [if_pos hslash, hsp]
      | some pq =>
        obtain ⟨pre, post⟩ := pq
        rw [hsp] at h
        simp only [] at h
        injection h with h1 h2
        obtain ⟨hre, hnp⟩ := splitFirst_eq_some.mp hsp
        subst h1
        -- here a = B ++ pre with B ending in '/' and pre free of ';' and '/'
        obtain ⟨hBne, hBlast⟩ := hsl hslash
        set B := s.take (s.length - ((s.reverse.takeWhile (· ≠ '/')).reverse).length) with hBdef
        have hslB : ('/' : Char) ∈ B := by
          rw [← hBlast]
          cases hB : B with
          | nil => exact absurd hB hBne
          | cons x xs =>
            rw [List.getLastD_cons]
            exact List.getLastD_mem_cons xs x
        have hpreNoSlash : ∀ c ∈ pre, c ∉ (['/'] : Str) := by
          intro c hc hm
          simp only [List.mem_singleton] at hm
          subst hm
          exact hnm (by rw [hre]; exact List.mem_append.mpr (Or.inl hc))
        have hx : ∀ c ∈ pre.reverse, (decide (c ≠ '/')) = true := by
          intro c hc
          simp only [decide_eq_true_eq]
          intro hce
          exact hpreNoSlash c (List.mem_reverse.mp hc) (by simp [hce])
        have hy : B.reverse = [] ∨ (decide ((B.reverse.headD ' ') ≠ '/')) = false := by
          right
          have : B.reverse.headD ' ' = B.getLastD ' ' := by
            rw [List.headD_eq_head?, List.head?_reverse, List.getLastD_eq_getLast?]
          rw [this, hBlast]
          simp
        have hA' : (((B ++ pre).reverse.takeWhile (fun c => c ≠ '/')).reverse) = pre := by
          rw [List.reverse_append]
          rw [(takeWhile_append_of_all hx hy).1, List.reverse_reverse]
        show splitparams (B ++ pre) = (B ++ pre, [])
        simp only [splitparams]
        rw [if_pos (List.mem_append.mpr (Or.inl hslB))]
        rw [hA', splitFirst_eq_none hnp]
    · cases hsp : splitFirst ';' s with
      | none =>
        rw [hsp] at h
        simp only [] at h
        injection h with h1 _
        subst h1
        simp only [splitparams]
        rw [if_neg hslash, hsp]
      | some pq =>
        obtain ⟨pre, post⟩ := pq
        rw [hsp] at h
        simp only [] at h
        injection h with h1 h2
        obtain ⟨hre, hnp⟩ := splitFirst_eq_some.mp hsp
        subst h1
        -- post = [], a = pre contains no ';' and no '/'
        have hns : (';' : Char) ∉ pre := hnp
        have hnsl : ('/' : Char) ∉ pre := by
          intro hm
          exact hslash (by rw [hre]; exact List.mem_append.mpr (Or.inl hm))
        simp only [splitparams]
        rw [if_neg hnsl, splitFirst_eq_none hns]
  · rcases splitparams_cases h with hre | ⟨_, hb'⟩
    · show splitparams (recombineParams a b) = (a, b)
      unfold recombineParams
      rw [if_pos hb, ← hre]
      exact h
    · exact absurd hb' hb

/-! ### Reassembly invariants of `urlsplit`/`urlparse` -/

/-- Scheme characters are never tab, CR or LF. -/
theorem noTRN_of_schemeChars {s : Str} (h : s.all isSchemeChar = true) : noTRN s := by
  intro c hc
  have hsc := List.all_eq_true.mp h c hc
  rintro (rfl | rfl | rfl) <;> exact absurd hsc (by decide)

/-- `noTRN` distributes over `++`. -/
theorem noTRN_append {a b : Str} (ha : noTRN a) (hb : noTRN b) : noTRN (a ++ b) := by
  intro c hc
  rcases List.mem_append.mp hc with h | h
  · exact ha c h
  · exact hb c h

/-- `noTRN` distributes over `::`. -/
theorem noTRN_cons {x : Char} {s : Str}
    (hx : ¬(x = Char.ofNat 9 ∨ x = Char.ofNat 13 ∨ x = Char.ofNat 10)) (hs : noTRN s) :
    noTRN (x :: s) := by
  intro c hc
  rcases List.mem_cons.mp hc with rfl | h
  · exact hx
  · exact hs c h

/-- The empty string is trivially tab/CR/LF-free. -/
theorem noTRN_nil : noTRN [] := by
  intro c hc
  cases hc

/-- A member of a `noTRN` sublist context: restriction to a sublist. -/
theorem noTRN_of_mem {s t : Str} (h : noTRN t) (hm : ∀ c ∈ s, c ∈ t) : noTRN s :=
  fun c hc => h c (hm c hc)

/-- Strings without tab/CR/LF pass `stripTabsNewlines` unchanged. -/
theorem stripTabsNewlines_eq_self {s : Str} (h : noTRN s) : stripTabsNewlines s = s := by
  unfold stripTabsNewlines
  induction s with
  | nil => rfl
  | cons x xs ih =>
    rw [List.filter_cons, if_pos (decide_eq_true (h x (List.mem_cons_self x xs)))]
    rw [ih (fun c hc => h c (List.mem_cons_of_mem x hc))]

/-- Characters of `stripTabsNewlines s` come from `s`. -/
theorem mem_stripTabsNewlines {c : Char} {s : Str} (h : c ∈ stripTabsNewlines s) : c ∈ s :=
  (List.mem_filter.mp h).1

/-- `stripTabsNewlines` output is tab/CR/LF-free. -/
theorem noTRN_stripTabsNewlines (s : Str) : noTRN (stripTabsNewlines s) := by
  intro c hc
  have := (List.mem_filter.mp hc).2
  simpa using this

/-- `dropWhile` is the identity when the head already fails the predicate. -/
theorem dropWhile_eq_self {p : Char → Bool} {s : Str}
    (h : s = [] ∨ p (s.headD ' ') = false) : s.dropWhile p = s := by
  rcases h with rfl | h
  · rfl
  · cases s with
    | nil => rfl
    | cons x xs =>
      rw [List.headD_cons] at h
      rw [List.dropWhile_cons, if_neg (by simp [h])]

/-- Unicode value of an ASCII lowercased uppercase letter. -/
theorem lowerChar_toNat_of_upper {c : Char} (h : isUpperAscii c = true) :
    (lowerChar c).toNat = c.toNat + 32 := by
  unfold lowerChar
  rw [if_pos h]
  apply toNat_ofNat_valid
  simp only [isUpperAscii, Bool.and_eq_true, decide_eq_true_eq] at h
  exact Or.inl (by omega)

/-- Lowercasing preserves ASCII letters. -/
theorem isAlphaAscii_lowerChar {c : Char} (h : isAlphaAscii c = true) :
    isAlphaAscii (lowerChar c) = true := by
  by_cases hu : isUpperAscii c = true
  · have ht := lowerChar_toNat_of_upper hu
    simp only [isUpperAscii, Bool.and_eq_true, decide_eq_true_eq] at hu
    simp only [isAlphaAscii, isUpperAscii, isLowerAscii, Bool.or_eq_true, Bool.and_eq_true,
      decide_eq_true_eq]
    right
    omega
  · unfold lowerChar
    rw [if_neg hu]
    exact h

/-- Lowercasing preserves scheme characters. -/
theorem isSchemeChar_lowerChar {c : Char} (h : isSchemeChar c = true) :
    isSchemeChar (lowerChar c) = true := by
  by_cases hu : isUpperAscii c = true
  · have ht := lowerChar_toNat_of_upper hu
    simp only [isUpperAscii, Bool.and_eq_true, decide_eq_true_eq] at hu
    simp only [isSchemeChar, isAlphaAscii, isUpperAscii, isLowerAscii, isDigitAscii,
      Bool.or_eq_true, Bool.and_eq_true, decide_eq_true_eq]
    left; left; left; left; right
    omega
  · unfold lowerChar
    rw [if_neg hu]
    exact h

/-- ASCII lowercasing of one character is idempotent. -/
theorem lowerChar_idem (c : Char) : lowerChar (lowerChar c) = lowerChar c := by
  by_cases hu : isUpperAscii c = true
  · have ht := lowerChar_toNat_of_upper hu
    have h90 : ¬((lowerChar c).toNat ≤ 90) := by
      simp only [isUpperAscii, Bool.and_eq_true, decide_eq_true_eq] at hu
      omega
    have hnu : isUpperAscii (lowerChar c) = false := by
      simp [isUpperAscii, h90]
    rw [lowerChar]
    simp [hnu]
  · have h0 : lowerChar c = c := by
      unfold lowerChar
      rw [if_neg hu]
    rw [h0]
    exact h0

/-- ASCII lowercasing of a string is idempotent. -/
theorem lowerStr_idem (s : Str) : lowerStr (lowerStr s) = lowerStr s := by
  unfold lowerStr
  rw [List.map_map]
  exact List.map_congr_left (fun c _ => lowerChar_idem c)

/-- `detectScheme` finds no scheme when the input does not start with an
ASCII letter. -/
theorem detectScheme_no {url : Str} (h : url = [] ∨ isAlphaAscii (url.headD ' ') = false) :
    detectScheme url = ([], url) := by
  unfold detectScheme
  cases hsp : splitFirst ':' url with
  | none => rfl
  | some pq =>
    obtain ⟨pre, post⟩ := pq
    obtain ⟨he, -⟩ := splitFirst_eq_some.mp hsp
    simp only []
    split_ifs with hcond
    · exfalso
      simp only [Bool.and_eq_true, decide_eq_true_eq] at hcond
      obtain ⟨⟨hne, halpha⟩, -⟩ := hcond
      cases pre with
      | nil => exact hne rfl
      | cons a t =>
        rcases h with h' | h'
        · rw [he] at h'
          simp at h'
        · rw [he] at h'
          simp only [List.cons_append, List.headD_cons] at h' halpha
          rw [h'] at halpha
          cases halpha
    · rfl

/-- `detectScheme` recognizes an already-lowercase valid scheme before `:`. -/
theorem detectScheme_yes {s rest : Str} (h1 : s ≠ [])
    (h2 : isAlphaAscii (s.headD ' ') = true) (h3 : s.all isSchemeChar = true)
    (h4 : lowerStr s = s) :
    detectScheme (s ++ ':' :: rest) = (s, rest) := by
  have hnc : ':' ∉ s := by
    intro hm
    exact absurd (List.all_eq_true.mp h3 ':' hm) (by decide)
  unfold detectScheme
  rw [splitFirst_eq_some.mpr ⟨rfl, hnc⟩]
  simp only []
  have hcond : (decide (s ≠ []) && isAlphaAscii (s.headD ' ') && s.all isSchemeChar) = true := by
    rw [h2, h3]
    simp [h1]
  rw [if_pos hcond, h4]

/-- The scheme component returned by `detectScheme` is empty or a valid,
lowercase-stable scheme. -/
theorem detectScheme_fst (url : Str) :
    (detectScheme url).1 = [] ∨
      ((detectScheme url).1 ≠ [] ∧ isAlphaAscii ((detectScheme url).1.headD ' ') = true ∧
       (detectScheme url).1.all isSchemeChar = true ∧
       lowerStr (detectScheme url).1 = (detectScheme url).1) := by
  unfold detectScheme
  cases hsp : splitFirst ':' url with
  | none => exact Or.inl rfl
  | some pq =>
    obtain ⟨pre, post⟩ := pq
    simp only []
    split_ifs with hcond
    · simp only [Bool.and_eq_true, decide_eq_true_eq] at hcond
      obtain ⟨⟨hne, halpha⟩, hall⟩ := hcond
      right
      simp only []
      obtain ⟨a, t, hat⟩ := List.exists_cons_of_ne_nil hne
      subst hat
      refine ⟨by simp [lowerStr], ?_, ?_, ?_⟩
      · rw [lowerStr, List.map_cons, List.headD_cons]
        exact isAlphaAscii_lowerChar halpha
      · rw [List.all_eq_true] at hall ⊢
        intro c hc
        rw [lowerStr] at hc
        obtain ⟨b, hb, rfl⟩ := List.mem_map.mp hc
        exact isSchemeChar_lowerChar (hall b hb)
      · exact lowerStr_idem (a :: t)
    · exact Or.inl rfl

/-- Characters of `detectScheme`'s remainder come from the input. -/
theorem detectScheme_snd_mem {url : Str} : ∀ c ∈ (detectScheme url).2, c ∈ url := by
  intro c hc
  unfold detectScheme at hc
  cases hsp : splitFirst ':' url with
  | none =>
    rw [hsp] at hc
    exact hc
  | some pq =>
    obtain ⟨pre, post⟩ := pq
    obtain ⟨he, -⟩ := splitFirst_eq_some.mp hsp
    rw [hsp] at hc
    simp only [] at hc
    split_ifs at hc
    · rw [he]
      simp only [] at hc
      exact List.mem_append.mpr (Or.inr (List.mem_cons_of_mem _ hc))
    · exact hc

/-- Reading `splitNetloc` on an explicit `//` prefix. -/
theorem splitNetloc_cons2 (r : Str) :
    splitNetloc ('/' :: '/' :: r) =
      (r.takeWhile (fun c => ¬isNetlocDelim c), r.dropWhile (fun c => ¬isNetlocDelim c)) := rfl

/-- The facts `urlsplit` needs about `splitNetloc`'s two components. -/
theorem splitNetloc_facts (v : Str) :
    (∀ c ∈ (splitNetloc v).1, isNetlocDelim c = false ∧ c ∈ v) ∧
    (∀ c ∈ (splitNetloc v).2, c ∈ v) ∧
    ((splitNetloc v).1 ≠ [] →
      (splitNetloc v).2 = [] ∨ isNetlocDelim ((splitNetloc v).2.headD ' ') = true) := by
  have h : splitNetloc v = splitNetloc v := rfl
  conv at h => lhs; rw [splitNetloc.eq_def]
  split at h
  next rest =>
    have h1 : (splitNetloc ('/' :: '/' :: rest)).1 =
        rest.takeWhile (fun c => ¬isNetlocDelim c) := by rw [← h]
    have h2 : (splitNetloc ('/' :: '/' :: rest)).2 =
        rest.dropWhile (fun c => ¬isNetlocDelim c) := by rw [← h]
    rw [h1, h2]
    refine ⟨?_, ?_, ?_⟩
    · intro c hc
      constructor
      · have := List.mem_takeWhile_imp hc
        simpa using this
      · exact List.mem_cons_of_mem _ (List.mem_cons_of_mem _
          ((List.takeWhile_sublist _).mem hc))
    · intro c hc
      exact List.mem_cons_of_mem _ (List.mem_cons_of_mem _
        ((List.dropWhile_sublist _).mem hc))
    · intro _
      cases hd : rest.dropWhile (fun c => ¬isNetlocDelim c) with
      | nil => exact Or.inl rfl
      | cons b t =>
        right
        rw [List.headD_cons]
        have := dropWhile_head_false hd
        simpa using this
  next =>
    have h1 : (splitNetloc v).1 = [] := by rw [← h]
    have h2 : (splitNetloc v).2 = v := by rw [← h]
    rw [h1, h2]
    refine ⟨?_, ?_, ?_⟩
    · intro c hc
      cases hc
    · intro c hc
      exact hc
    · intro hne
      exact absurd rfl hne

/-- `splitOnceOr` never loses characters: either a genuine split or the
identity with empty remainder. -/
theorem splitOnceOr_spec (c : Char) (s : Str) :
    c ∉ (splitOnceOr c s).1 ∧
      (s = (splitOnceOr c s).1 ++ c :: (splitOnceOr c s).2 ∨
        ((splitOnceOr c s).1 = s ∧ (splitOnceOr c s).2 = [])) := by
  unfold splitOnceOr
  cases hsp : splitFirst c s with
  | none =>
    exact ⟨not_mem_of_splitFirst_none hsp, Or.inr ⟨rfl, rfl⟩⟩
  | some pq =>
    obtain ⟨a, b⟩ := pq
    obtain ⟨he, hnm⟩ := splitFirst_eq_some.mp hsp
    exact ⟨hnm, Or.inl he⟩

/-- Characters of both `splitOnceOr` components come from the input. -/
theorem splitOnceOr_mem {c x : Char} {s : Str} :
    (x ∈ (splitOnceOr c s).1 → x ∈ s) ∧ (x ∈ (splitOnceOr c s).2 → x ∈ s) := by
  obtain ⟨-, hsp | ⟨h1, h2⟩⟩ := splitOnceOr_spec c s
  · constructor <;> intro hx
    · rw [hsp]
      exact List.mem_append.mpr (Or.inl hx)
    · rw [hsp]
      exact List.mem_append.mpr (Or.inr (List.mem_cons_of_mem _ hx))
  · constructor <;> intro hx
    · rw [h1] at hx
      exact hx
    · rw [h2] at hx
      cases hx

/-- A nonempty `splitOnceOr` prefix starts like the input. -/
theorem splitOnceOr_head {c : Char} {s : Str} (h : (splitOnceOr c s).1 ≠ []) :
    (splitOnceOr c s).1.headD ' ' = s.headD ' ' := by
  obtain ⟨-, hsp | ⟨h1, -⟩⟩ := splitOnceOr_spec c s
  · conv_rhs => rw [hsp]
    cases hpre : (splitOnceOr c s).1 with
    | nil => exact absurd hpre h
    | cons a t => rw [List.cons_append, List.headD_cons, List.headD_cons]
  · rw [h1]

/-- Every successful `urlsplit` satisfies the reassembly invariants. -/
theorem urlsplitE_ok_inv {u : Str} {p : UrlParts} (h : urlsplitE u = .ok p) : SplitInv p := by
  simp only [urlsplitE] at h
  split_ifs at h with hbr
  have hUtrn : noTRN (stripTabsNewlines (u.dropWhile isC0OrSpace)) :=
    noTRN_stripTabsNewlines _
  generalize hU : stripTabsNewlines (u.dropWhile isC0OrSpace) = U at h hbr hUtrn
  have hsch := detectScheme_fst U
  have hVmem := @detectScheme_snd_mem U
  generalize hS : (detectScheme U).1 = S at h hsch
  generalize hV : (detectScheme U).2 = V at h hbr hVmem
  have hsnf := splitNetloc_facts V
  generalize hN : (splitNetloc V).1 = N at h hbr hsnf
  generalize hR : (splitNetloc V).2 = R at h hsnf
  have hfs := splitOnceOr_spec '#' R
  have hfh : (splitOnceOr '#' R).1 ≠ [] →
      (splitOnceOr '#' R).1.headD ' ' = R.headD ' ' := fun hh => splitOnceOr_head hh
  have hfm : ∀ x : Char, (x ∈ (splitOnceOr '#' R).1 → x ∈ R) ∧
      (x ∈ (splitOnceOr '#' R).2 → x ∈ R) := fun x => @splitOnceOr_mem '#' x R
  generalize hF1 : (splitOnceOr '#' R).1 = F1 at h hfs hfh hfm
  generalize hF2 : (splitOnceOr '#' R).2 = F2 at h hfs hfm
  have hqs := splitOnceOr_spec '?' F1
  have hqh : (splitOnceOr '?' F1).1 ≠ [] →
      (splitOnceOr '?' F1).1.headD ' ' = F1.headD ' ' := fun hh => splitOnceOr_head hh
  have hqm : ∀ x : Char, (x ∈ (splitOnceOr '?' F1).1 → x ∈ F1) ∧
      (x ∈ (splitOnceOr '?' F1).2 → x ∈ F1) := fun x => @splitOnceOr_mem '?' x F1
  generalize hQ1 : (splitOnceOr '?' F1).1 = Q1 at h hqs hqh hqm
  generalize hQ2 : (splitOnceOr '?' F1).2 = Q2 at h hqs hqm
  cases h
  refine ⟨?_, ?_, ?_, ?_, ?_, ?_, ?_, ?_, ?_, ?_, ?_, ?_⟩
  · exact hsch
  · exact fun c hc => (hsnf.1 c hc).1
  · simpa using hbr
  · intro hm
    exact hfs.1 ((hqm '#').1 hm)
  · exact hqs.1
  · intro hm
    exact hfs.1 ((hqm '#').2 hm)
  · rfl
  · intro hne
    by_cases hq0 : Q1 = []
    · exact Or.inl hq0
    · right
      obtain ⟨a, t, hat⟩ := List.exists_cons_of_ne_nil hq0
      have haQ : a ∈ Q1 := by
        rw [hat]
        exact List.mem_cons_self a t
      have haF : a ∈ F1 := (hqm a).1 haQ
      have hf0 : F1 ≠ [] := by
        intro h0
        rw [h0] at haF
        cases haF
      have haR : a ∈ R := (hfm a).1 haF
      have hr0 : R ≠ [] := by
        intro h0
        rw [h0] at haR
        cases haR
      have hhe : Q1.headD ' ' = R.headD ' ' := by
        rw [hqh hq0]
        exact hfh hf0
      rcases hsnf.2.2 hne with h0 | hdel
      · exact absurd h0 hr0
      · rw [← hhe] at hdel
        have hdm : Q1.headD ' ' ∈ Q1 := by
          rw [hat, List.headD_cons]
          exact List.mem_cons_self a t
        simp only [isNetlocDelim, Bool.or_eq_true, decide_eq_true_eq] at hdel
        rcases hdel with (hd | hd) | hd
        · exact hd
        · exact absurd (hd ▸ hdm) (fun hm => hqs.1 hm)
        · exact absurd (hd ▸ hdm) (fun hm => hfs.1 ((hqm _).1 hm))
  · exact noTRN_of_mem hUtrn (fun c hc => hVmem c ((hsnf.1 c hc).2))
  · exact noTRN_of_mem hUtrn
      (fun c hc => hVmem c (hsnf.2.1 c ((hfm c).1 ((hqm c).1 hc))))
  · exact noTRN_of_mem hUtrn
      (fun c hc => hVmem c (hsnf.2.1 c ((hfm c).1 ((hqm c).2 hc))))
  · exact noTRN_of_mem hUtrn (fun c hc => hVmem c (hsnf.2.1 c ((hfm c).2 hc)))

/-- `recombineParams` with empty params is the path. -/
theorem recombineParams_nil_right (a : Str) : recombineParams a [] = a := by
  unfold recombineParams
  rw [if_neg (by simp)]

/-- `recombineParams` with nonempty params inserts the `;`. -/
theorem recombineParams_of_ne {a b : Str} (h : b ≠ []) : recombineParams a b = a ++ ';' :: b := by
  unfold recombineParams
  rw [if_pos h]

/-- Every successful `urlparse` satisfies the reassembly invariants. -/
theorem urlparseE_ok_inv {u : Str} {p : UrlParts} (h : urlparseE u = .ok p) : ParseInv p := by
  unfold urlparseE at h
  cases hsp : urlsplitE u with
  | error e =>
    rw [hsp] at h
    cases h
  | ok q =>
    have hq := urlsplitE_ok_inv hsp
    rw [hsp] at h
    simp only [] at h
    split_ifs at h with hcond
    · simp only [Bool.and_eq_true, decide_eq_true_eq] at hcond
      obtain ⟨hus, hsemi⟩ := hcond
      have hql : splitparams q.path = ((splitparams q.path).1, (splitparams q.path).2) := rfl
      cases h
      generalize hA : (splitparams q.path).1 = A at hql ⊢
      generalize hB : (splitparams q.path).2 = B at hql ⊢
      have hcs := splitparams_cases hql
      have hmemP : ∀ c, c ∈ recombineParams A B → c ∈ q.path ∨ c = ';' := by
        rcases hcs with hdec | ⟨hA', hB'⟩
        · by_cases hB0 : B = []
          · subst hB0
            rw [recombineParams_nil_right]
            intro c hc
            exact Or.inl (hdec ▸ List.mem_append.mpr (Or.inl hc))
          · rw [recombineParams_of_ne hB0, ← hdec]
            exact fun c hc => Or.inl hc
        · subst hB'
          rw [recombineParams_nil_right, hA']
          exact fun c hc => Or.inl hc
      have hheadP : q.netloc ≠ [] → recombineParams A B = [] ∨
          (recombineParams A B).headD ' ' = '/' := by
        intro hne
        rcases hcs with hdec | ⟨hA', hB'⟩
        · by_cases hB0 : B = []
          · subst hB0
            rw [recombineParams_nil_right]
            cases hA0 : A with
            | nil => exact Or.inl rfl
            | cons a t =>
              right
              rw [List.headD_cons]
              rcases hq.path_head hne with h0 | hh
              · rw [hdec, hA0] at h0
                simp at h0
              · rw [hdec, hA0, List.cons_append, List.headD_cons] at hh
                exact hh
          · rw [recombineParams_of_ne hB0, ← hdec]
            exact hq.path_head hne
        · subst hB'
          rw [recombineParams_nil_right, hA']
          exact hq.path_head hne
      refine ⟨hq.scheme_ok, hq.netloc_ok, hq.brackets_ok, ?_, ?_, hheadP, hq.query_hash,
        Or.inl ⟨q.path, hql, hus⟩, hq.netloc_trn, ?_, hq.query_trn, hq.frag_trn⟩
      · intro hm
        rcases hmemP _ hm with hm' | hm'
        · exact hq.path_hash hm'
        · exact absurd hm' (by decide)
      · intro hm
        rcases hmemP _ hm with hm' | hm'
        · exact hq.path_qm hm'
        · exact absurd hm' (by decide)
      · intro c hc
        rcases hmemP c hc with hm' | rfl
        · exact hq.path_trn c hm'
        · decide
    · cases h
      refine ⟨hq.scheme_ok, hq.netloc_ok, hq.brackets_ok, ?_, ?_, ?_, hq.query_hash,
        Or.inr ⟨hq.params_empty, ?_⟩, hq.netloc_trn, ?_, hq.query_trn, hq.frag_trn⟩
      · rw [hq.params_empty, recombineParams_nil_right]
        exact hq.path_hash
      · rw [hq.params_empty, recombineParams_nil_right]
        exact hq.path_qm
      · rw [hq.params_empty, recombineParams_nil_right]
        exact hq.path_head
      · simpa using hcond
      · rw [hq.params_empty, recombineParams_nil_right]
        exact hq.path_trn

/-- Re-parsing the string `urlunsplit` reassembles from components
satisfying the `urlsplit` invariants recovers the components exactly
(for a nonempty netloc). -/
theorem urlsplit_recovery {scheme netloc r query fragment : Str}
    (hs : scheme = [] ∨ (scheme ≠ [] ∧ isAlphaAscii (scheme.headD ' ') = true ∧
        scheme.all isSchemeChar = true ∧ lowerStr scheme = scheme))
    (hnl : ∀ c ∈ netloc, isNetlocDelim c = false)
    (hbr : ¬(('[' ∈ netloc ∧ ']' ∉ netloc) ∨ (']' ∈ netloc ∧ '[' ∉ netloc)))
    (hn : netloc ≠ [])
    (hr1 : '#' ∉ r) (hr2 : '?' ∉ r)
    (hrh : r = [] ∨ r.headD ' ' = '/')
    (hq : '#' ∉ query)
    (htn : noTRN netloc) (htr : noTRN r) (htq : noTRN query) (htf : noTRN fragment) :
    urlsplitE (urlunsplit scheme netloc r query fragment) =
      .ok ⟨scheme, netloc, r, [], query, fragment⟩ := by
  have hout : urlunsplit scheme netloc r query fragment =
      (if scheme ≠ [] then scheme ++ [':'] else []) ++
        '/' :: '/' :: (netloc ++ (r ++ (if query ≠ [] then '?' :: query else []) ++
          (if fragment ≠ [] then '#' :: fragment else []))) := by
    simp only [urlunsplit]
    have hc1 : (decide (netloc ≠ []) || (decide (scheme ≠ []) && decide (scheme ∈ usesNetloc) &&
        decide (r.take 2 ≠ lit "//"))) = true := by
      simp [hn]
    rw [if_pos hc1]
    have hc2 : ¬((decide (r ≠ []) && decide (r.headD ' ' ≠ '/')) = true) := by
      rcases hrh with hr0 | hh
      · subst hr0
        simp
      · intro hc
        simp only [Bool.and_eq_true, decide_eq_true_eq] at hc
        exact hc.2 hh
    rw [if_neg hc2]
    split_ifs <;> simp [List.append_assoc]
  rw [hout]
  set QP := (if query ≠ [] then '?' :: query else ([] : Str)) with hQP
  set FP := (if fragment ≠ [] then '#' :: fragment else ([] : Str)) with hFP
  set PRE := (if scheme ≠ [] then scheme ++ [':'] else ([] : Str)) with hPRE
  set OUT := PRE ++ '/' :: '/' :: (netloc ++ (r ++ QP ++ FP)) with hOUT
  have hqp1 : '#' ∉ QP := by
    rw [hQP]
    split_ifs
    · intro hm
      rcases List.mem_cons.mp hm with he | hm'
      · exact absurd he (by decide)
      · exact hq hm'
    · intro hm
      cases hm
  have hqp2 : noTRN QP := by
    rw [hQP]
    split_ifs
    · exact noTRN_cons (by decide) htq
    · exact noTRN_nil
  have hfp2 : noTRN FP := by
    rw [hFP]
    split_ifs
    · exact noTRN_cons (by decide) htf
    · exact noTRN_nil
  have hOUTtrn : noTRN OUT := by
    rw [hOUT]
    apply noTRN_append
    · rw [hPRE]
      split_ifs with hsc
      · apply noTRN_append
        · rcases hs with h0 | ⟨-, -, h3, -⟩
          · exact absurd h0 hsc
          · exact noTRN_of_schemeChars h3
        · exact noTRN_cons (by decide) noTRN_nil
      · exact noTRN_nil
    · apply noTRN_cons (by decide)
      apply noTRN_cons (by decide)
      apply noTRN_append htn
      apply noTRN_append
      · exact noTRN_append htr hqp2
      · exact hfp2
  have hdrop : OUT.dropWhile isC0OrSpace = OUT := by
    apply dropWhile_eq_self
    right
    rw [hOUT, hPRE]
    by_cases hsc : scheme = []
    · rw [if_neg (by simp [hsc]), List.nil_append, List.headD_cons]
      decide
    · obtain ⟨-, h2, -, -⟩ := hs.resolve_left hsc
      obtain ⟨a, t, hat⟩ := List.exists_cons_of_ne_nil hsc
      rw [if_pos hsc, hat, List.cons_append, List.cons_append, List.headD_cons]
      rw [hat, List.headD_cons] at h2
      simp only [isC0OrSpace, decide_eq_false_iff_not]
      simp only [isAlphaAscii, isUpperAscii, isLowerAscii, Bool.or_eq_true,
        Bool.and_eq_true, decide_eq_true_eq] at h2
      omega
  have hstrip : stripTabsNewlines OUT = OUT := stripTabsNewlines_eq_self hOUTtrn
  have hds : detectScheme OUT = (scheme, '/' :: '/' :: (netloc ++ (r ++ QP ++ FP))) := by
    by_cases hsc : scheme = []
    · have hO : OUT = '/' :: '/' :: (netloc ++ (r ++ QP ++ FP)) := by
        rw [hOUT, hPRE, if_neg (by simp [hsc]), List.nil_append]
      rw [hO, hsc]
      apply detectScheme_no
      right
      rw [List.headD_cons]
      decide
    · obtain ⟨-, h2, h3, h4⟩ := hs.resolve_left hsc
      have hO : OUT = scheme ++ ':' :: ('/' :: '/' :: (netloc ++ (r ++ QP ++ FP))) := by
        rw [hOUT, hPRE, if_pos hsc, List.append_assoc, List.singleton_append]
      rw [hO]
      exact detectScheme_yes hsc h2 h3 h4
  have hds1 : (detectScheme OUT).1 = scheme := by rw [hds]
  have hds2 : (detectScheme OUT).2 = '/' :: '/' :: (netloc ++ (r ++ QP ++ FP)) := by rw [hds]
  have hx1 : ∀ c ∈ netloc, ((fun c => ¬isNetlocDelim c) : Char → Bool) c = true := by
    intro c hc
    simp [hnl c hc]
  have hy1 : r ++ QP ++ FP = [] ∨
      ((fun c => ¬isNetlocDelim c) : Char → Bool) ((r ++ QP ++ FP).headD ' ') = false := by
    rcases hrh with hr0 | hh
    · subst hr0
      rw [List.nil_append]
      by_cases hq0 : query = []
      · have hQP0 : QP = [] := by rw [hQP, if_neg (by simp [hq0])]
        by_cases hf0 : fragment = []
        · have hFP0 : FP = [] := by rw [hFP, if_neg (by simp [hf0])]
          left
          rw [hQP0, hFP0]
          rfl
        · right
          have hFP1 : FP = '#' :: fragment := by rw [hFP, if_pos hf0]
          rw [hQP0, hFP1, List.nil_append, List.headD_cons]
          decide
      · right
        have hQP1 : QP = '?' :: query := by rw [hQP, if_pos hq0]
        rw [hQP1, List.cons_append, List.headD_cons]
        decide
    · right
      have hr0 : r ≠ [] := by
        intro h0
        rw [h0, List.headD_nil] at hh
        exact absurd hh (by decide)
      obtain ⟨a, t, hat⟩ := List.exists_cons_of_ne_nil hr0
      rw [hat, List.headD_cons] at hh
      rw [hat, List.cons_append, List.cons_append, List.headD_cons, hh]
      decide
  obtain ⟨htw, hdw⟩ := takeWhile_append_of_all hx1 hy1
  have hsn1 : (splitNetloc ('/' :: '/' :: (netloc ++ (r ++ QP ++ FP)))).1 = netloc := by
    rw [splitNetloc_cons2]
    exact htw
  have hsn2 : (splitNetloc ('/' :: '/' :: (netloc ++ (r ++ QP ++ FP)))).2 = r ++ QP ++ FP := by
    rw [splitNetloc_cons2]
    exact hdw
  have hnm : '#' ∉ r ++ QP := by
    intro hm
    rcases List.mem_append.mp hm with hm' | hm'
    · exact hr1 hm'
    · exact hqp1 hm'
  have hfr : splitOnceOr '#' (r ++ QP ++ FP) = (r ++ QP, fragment) := by
    by_cases hf0 : fragment = []
    · have hFP0 : FP = [] := by rw [hFP, if_neg (by simp [hf0])]
      rw [hFP0, List.append_nil]
      unfold splitOnceOr
      rw [splitFirst_eq_none hnm, hf0]
    · have hFP1 : FP = '#' :: fragment := by rw [hFP, if_pos hf0]
      rw [hFP1]
      unfold splitOnceOr
      rw [splitFirst_eq_some.mpr ⟨rfl, hnm⟩]
  have hfr1 : (splitOnceOr '#' (r ++ QP ++ FP)).1 = r ++ QP := by rw [hfr]
  have hfr2 : (splitOnceOr '#' (r ++ QP ++ FP)).2 = fragment := by rw [hfr]
  have hqr : splitOnceOr '?' (r ++ QP) = (r, query) := by
    by_cases hq0 : query = []
    · have hQP0 : QP = [] := by rw [hQP, if_neg (by simp [hq0])]
      rw [hQP0, List.append_nil]
      unfold splitOnceOr
      rw [splitFirst_eq_none hr2, hq0]
    · have hQP1 : QP = '?' :: query := by rw [hQP, if_pos hq0]
      rw [hQP1]
      unfold splitOnceOr
      rw [splitFirst_eq_some.mpr ⟨rfl, hr2⟩]
  have hqr1 : (splitOnceOr '?' (r ++ QP)).1 = r := by rw [hqr]
  have hqr2 : (splitOnceOr '?' (r ++ QP)).2 = query := by rw [hqr]
  simp only [urlsplitE]
  rw [hdrop, hstrip, hds1, hds2, hsn1, hsn2, hfr1, hfr2, hqr1, hqr2]
  rw [if_neg (by simpa using hbr)]

/-- Re-parsing `urlunparse` of an invariant-satisfying `urlparse` result
recovers it exactly (for a nonempty netloc). -/
theorem urlparse_recovery {p : UrlParts} (hiv : ParseInv p) (hn : p.netloc ≠ []) :
    urlparseE (urlunparse p) = .ok p := by
  obtain ⟨ps, pn, pa, pr, pq, pf⟩ := p
  have hn' : pn ≠ [] := hn
  have hsr : urlsplitE (urlunsplit ps pn (recombineParams pa pr) pq pf) =
      .ok ⟨ps, pn, recombineParams pa pr, [], pq, pf⟩ :=
    urlsplit_recovery hiv.scheme_ok hiv.netloc_ok hiv.brackets_ok hn'
      hiv.recomb_hash hiv.recomb_qm (hiv.recomb_head hn') hiv.query_hash
      hiv.netloc_trn hiv.recomb_trn hiv.query_trn hiv.frag_trn
  have hpp : (∃ s0, splitparams s0 = (pa, pr) ∧ ps ∈ usesParams) ∨
      (pr = [] ∧ ¬(ps ∈ usesParams ∧ ';' ∈ pa)) := hiv.pp
  have h1 : urlunparse ⟨ps, pn, pa, pr, pq, pf⟩ =
      urlunsplit ps pn (recombineParams pa pr) pq pf := rfl
  unfold urlparseE
  rw [h1, hsr]
  show (if (decide (ps ∈ usesParams) && decide (';' ∈ recombineParams pa pr)) = true then
      (Except.ok (⟨ps, pn, (splitparams (recombineParams pa pr)).1,
        (splitparams (recombineParams pa pr)).2, pq, pf⟩ : UrlParts) : Except Unit UrlParts)
    else .ok ⟨ps, pn, recombineParams pa pr, [], pq, pf⟩) = .ok ⟨ps, pn, pa, pr, pq, pf⟩
  rcases hpp with ⟨s0, hs0, hus⟩ | ⟨hnil, hneg⟩
  · have hstab := splitparams_stable hs0
    by_cases hsemi : ';' ∈ recombineParams pa pr
    · rw [if_pos (by simp [hus, hsemi]), hstab]
    · have hpr0 : pr = [] := by
        by_contra hne
        exact hsemi (by
          rw [recombineParams_of_ne hne]
          exact List.mem_append.mpr (Or.inr (List.mem_cons_self _ _)))
      subst hpr0
      rw [recombineParams_nil_right] at hsemi ⊢
      rw [if_neg (by simp [hsemi])]
  · subst hnil
    rw [recombineParams_nil_right]
    rw [if_neg (by
      intro hc
      simp only [Bool.and_eq_true, decide_eq_true_eq] at hc
      exact hneg hc)]

/-- Membership in `joinWith`: the separator or a character of some part. -/
theorem mem_joinWith {sep : Char} {l : List Str} {c : Char} (h : c ∈ joinWith sep l) :
    c = sep ∨ ∃ x ∈ l, c ∈ x := by
  induction l with
  | nil => cases h
  | cons s rest ih =>
    cases rest with
    | nil => exact Or.inr ⟨s, by simp, h⟩
    | cons s2 rest2 =>
      simp only [joinWith] at h
      rcases List.mem_append.mp h with h' | h'
      · exact Or.inr ⟨s, by simp, h'⟩
      · rcases List.mem_cons.mp h' with rfl | h''
        · exact Or.inl rfl
        · rcases ih h'' with h3 | ⟨x, hx, hcx⟩
          · exact Or.inl h3
          · exact Or.inr ⟨x, List.mem_cons_of_mem _ hx, hcx⟩

/-- The character alphabet of `urlencode` output. -/
theorem urlencode_chars (d : List (Str × List Str)) :
    ∀ c ∈ urlencode d,
      isAlwaysSafeByte c.toNat = true ∨ c = '%' ∨ c = '+' ∨ isDigitAscii c = true ∨
        (65 ≤ c.toNat ∧ c.toNat ≤ 70) ∨ c = '=' ∨ c = '&' := by
  intro c hc
  rw [urlencode_eq_joinWith] at hc
  rcases mem_joinWith hc with rfl | ⟨x, hx, hcx⟩
  · right; right; right; right; right; right; rfl
  · obtain ⟨pq, hpq, rfl⟩ := List.mem_map.mp hx
    unfold fieldStr at hcx
    rcases List.mem_append.mp hcx with h' | h'
    · rcases quotePlus_chars _ c h' with h | h | h | h | h
      · exact Or.inl h
      · right; left; exact h
      · right; right; left; exact h
      · right; right; right; left; exact h
      · right; right; right; right; left; exact h
    · rcases List.mem_cons.mp h' with rfl | h''
      · right; right; right; right; right; left; rfl
      · rcases quotePlus_chars _ c h'' with h | h | h | h | h
        · exact Or.inl h
        · right; left; exact h
        · right; right; left; exact h
        · right; right; right; left; exact h
        · right; right; right; right; left; exact h

/-- `urlencode` output never contains `#`. -/
theorem urlencode_no_hash (d : List (Str × List Str)) : '#' ∉ urlencode d := by
  intro hm
  rcases urlencode_chars d '#' hm with h | h | h | h | h | h | h <;>
    exact absurd h (by decide)

/-- `urlencode` output never contains tab, CR or LF. -/
theorem urlencode_noTRN (d : List (Str × List Str)) : noTRN (urlencode d) := by
  intro c hc
  rintro (rfl | rfl | rfl) <;>
    rcases urlencode_chars d _ hc with h | h | h | h | h | h | h <;>
      exact absurd h (by decide)

/-! ### Claim C6: idempotence of `clean_image_url` -/

/-- C6 (amended): `clean_image_url` is idempotent on every URL that parses
successfully with a nonempty network location.  (On URLs without a netloc the
original claim is refuted by `clean_image_url_not_idem` below.) -/
theorem clean_image_url_idem {u : Str} {p : UrlParts}
    (hp : urlparseE u = .ok p) (hn : p.netloc ≠ []) :
    clean_image_url (clean_image_url u) = clean_image_url u := by
  have hiv := urlparseE_ok_inv hp
  have hinner : clean_image_url u =
      urlunparse { p with query := urlencode (List.filter
        (fun kv => lowerStr kv.1 ∉ params_to_remove) (parse_qs p.query)) } := by
    unfold clean_image_url
    rw [hp]
  rw [hinner]
  have hiv' : ParseInv { p with query := urlencode (List.filter
      (fun kv => lowerStr kv.1 ∉ params_to_remove) (parse_qs p.query)) } :=
    { scheme_ok := hiv.scheme_ok, netloc_ok := hiv.netloc_ok, brackets_ok := hiv.brackets_ok,
      recomb_hash := hiv.recomb_hash, recomb_qm := hiv.recomb_qm,
      recomb_head := hiv.recomb_head, query_hash := urlencode_no_hash _,
      pp := hiv.pp, netloc_trn := hiv.netloc_trn, recomb_trn := hiv.recomb_trn,
      query_trn := urlencode_noTRN _, frag_trn := hiv.frag_trn }
  have hrec := urlparse_recovery hiv' hn
  unfold clean_image_url
  rw [hrec]
  show urlunparse { p with query := urlencode (List.filter
      (fun kv => lowerStr kv.1 ∉ params_to_remove)
      (parse_qs (urlencode (List.filter (fun kv => lowerStr kv.1 ∉ params_to_remove)
        (parse_qs p.query))))) } =
    urlunparse { p with query := urlencode (List.filter
      (fun kv => lowerStr kv.1 ∉ params_to_remove) (parse_qs p.query)) }
  rw [urlencode_filter_stable p.query]

/-- C6 counterexample: on `"////"` (which parses with empty scheme and empty
netloc) `clean_image_url` is not idempotent — one application yields `"//"`,
a second application yields `""`. -/
theorem clean_image_url_not_idem :
    clean_image_url (clean_image_url (lit "////")) ≠ clean_image_url (lit "////") := by
  intro h
  have h1 : clean_image_url (lit "////") = lit "//" := rfl
  have h2 : clean_image_url (lit "//") = [] := rfl
  rw [h1, h2] at h
  cases h

/-- C6 witness: the amended idempotence theorem applied at a concrete URL. -/
theorem clean_image_url_idem_witness :
    clean_image_url (clean_image_url (lit "http://h/p?x=1")) =
      clean_image_url (lit "http://h/p?x=1") :=
  clean_image_url_idem (p := ⟨lit "http", lit "h", lit "/p", [], lit "x=1", []⟩)
    rfl (by decide)

/-! ### Claim C5: which query parameters `clean_image_url` removes -/

/-- C5 (amended): on every URL that parses, `clean_image_url` changes only the
query component — scheme, netloc, path, params and fragment are reassembled
unchanged (in particular the fragment is preserved, not stripped) — and the
new query re-parses to exactly the parameter groups of the old query whose
name does not lowercase to an entry of the literal list `params_to_remove`,
in their original group order with their original value lists (so the
mixed-case entries `maxWidth`/`maxHeight` never match any lowercased name,
and parameters with blank values are dropped by the query parser itself). -/
theorem clean_image_url_params {u : Str} {p : UrlParts} (hp : urlparseE u = .ok p) :
    clean_image_url u = urlunparse { p with query := urlencode (List.filter
      (fun kv => lowerStr kv.1 ∉ params_to_remove) (parse_qs p.query)) } ∧
    parse_qs (urlencode (List.filter (fun kv => lowerStr kv.1 ∉ params_to_remove)
        (parse_qs p.query))) =
      List.filter (fun kv => lowerStr kv.1 ∉ params_to_remove) (parse_qs p.query) := by
  constructor
  · unfold clean_image_url
    rw [hp]
  · apply parse_qs_urlencode
    · exact (parse_qs_keys_nodup p.query).sublist ((List.filter_sublist _).map Prod.fst)
    · intro kv hkv
      exact (parse_qs_values p.query kv (List.mem_of_mem_filter hkv)).1
    · intro kv hkv
      exact (parse_qs_values p.query kv (List.mem_of_mem_filter hkv)).2

/-- C5 counterexample: `maxWidth` is in the claimed removal set, yet on
`"http://h/p.jpg?maxWidth=100#f"` the output equals the input — the
`maxWidth` parameter survives (its lowercased name `maxwidth` matches no
list entry) and the fragment `#f` is not stripped. -/
theorem clean_image_url_params_counterexample :
    clean_image_url (lit "http://h/p.jpg?maxWidth=100#f") =
      lit "http://h/p.jpg?maxWidth=100#f" ∧
    '#' ∈ clean_image_url (lit "http://h/p.jpg?maxWidth=100#f") ∧
    lowerStr (lit "maxWidth") ∉ params_to_remove := by
  refine ⟨rfl, by decide, by decide⟩

/-- C5 witness: the amended theorem applied at a concrete URL whose query
holds one removable (`w`) and one surviving (`x`) parameter. -/
theorem clean_image_url_params_witness :
    clean_image_url (lit "http://h/img.png?w=2&x=1") =
      urlunparse { (⟨lit "http", lit "h", lit "/img.png", [], lit "w=2&x=1", []⟩ :
        UrlParts) with query := urlencode (List.filter
          (fun kv => lowerStr kv.1 ∉ params_to_remove) (parse_qs (lit "w=2&x=1"))) } ∧
    parse_qs (urlencode (List.filter (fun kv => lowerStr kv.1 ∉ params_to_remove)
        (parse_qs (lit "w=2&x=1")))) =
      List.filter (fun kv => lowerStr kv.1 ∉ params_to_remove) (parse_qs (lit "w=2&x=1")) :=
  clean_image_url_params
    (p := ⟨lit "http", lit "h", lit "/img.png", [], lit "w=2&x=1", []⟩) rfl

/-! ### Claim C8: graceful failure of `clean_image_url` -/

/-- C8: `clean_image_url` never raises — the Python body is wrapped in a
`try/except Exception` whose handler returns the input, modelled by the
`Except`-valued parser — and on every parse failure it returns its input
unchanged. -/
theorem clean_image_url_total {u : Str} (e : Unit) (h : urlparseE u = .error e) :
    clean_image_url u = u := by
  unfold clean_image_url
  rw [h]

/-- C8 witness: a malformed URL (unbalanced bracket in the netloc) makes the
parser fail and `clean_image_url` return the input unchanged. -/
theorem clean_image_url_total_witness :
    clean_image_url (lit "http://[oops") = lit "http://[oops" :=
  clean_image_url_total () rfl

/-! ### Claim C7: control transitions of `ScrapeControl` -/

/-- C7 (amended): `pause` sets the paused flag (stopped unchanged), `resume`
clears it (stopped unchanged), `stop` sets stopped and clears paused, and no
sequence of later transitions ever clears stopped.  However `stop` is not
terminal for the whole state: `pause` after `stop` still sets the paused flag
(see the counterexample), so "no transition is valid after stop other than
no-ops" fails. -/
theorem control_transitions (s : ControlState) :
    s.pause = ⟨true, s.stopped⟩ ∧
    s.resume = ⟨false, s.stopped⟩ ∧
    s.stop = ⟨false, true⟩ ∧
    (∀ ops : List ControlOp, s.stopped = true → (applyOps s ops).stopped = true) := by
  refine ⟨rfl, rfl, rfl, ?_⟩
  intro ops
  induction ops generalizing s with
  | nil => intro h; exact h
  | cons op rest ih =>
    intro h
    show (applyOps (applyOp s op) rest).stopped = true
    apply ih
    cases op <;>
      simp [applyOp, ControlState.pause, ControlState.resume, ControlState.stop, h]

/-- C7 counterexample: after `stop`, `pause` is not a no-op — it changes the
state by setting the paused flag while stopped. -/
theorem control_pause_after_stop :
    ControlState.init.stop.pause ≠ ControlState.init.stop ∧
    ControlState.init.stop.pause = ⟨true, true⟩ :=
  ⟨by decide, rfl⟩

/-- C7 witness: the amended theorem applied at a stopped state and a concrete
transition sequence. -/
theorem control_transitions_witness :
    ControlState.init.stop.stopped = true ∧
    (applyOps ControlState.init.stop [ControlOp.pause, ControlOp.resume]).stopped = true :=
  ⟨by decide, (control_transitions ControlState.init.stop).2.2.2
    [ControlOp.pause, ControlOp.resume] (by decide)⟩

/-! ### Frame lemmas for the crawl loop -/

/-- `processImage` never touches the frontier, the visited set, the counters
of pages, the fetch/enqueue records or the loop bookkeeping. -/
theorem processImage_frame (w : World) (cfg : CrawlConfig) (pageUrl : Str)
    (st : CrawlState) (tag : ImgTag) :
    (processImage w cfg pageUrl st tag).queue = st.queue ∧
    (processImage w cfg pageUrl st tag).visited = st.visited ∧
    (processImage w cfg pageUrl st tag).pages = st.pages ∧
    (processImage w cfg pageUrl st tag).fetchedPages = st.fetchedPages ∧
    (processImage w cfg pageUrl st tag).enqueued = st.enqueued ∧
    (processImage w cfg pageUrl st tag).iter = st.iter ∧
    (processImage w cfg pageUrl st tag).done = st.done ∧
    (processImage w cfg pageUrl st tag).startUrl = st.startUrl ∧
    (processImage w cfg pageUrl st tag).baseDomain = st.baseDomain := by
  simp only [processImage]
  repeat' (first | split_ifs | split)
  all_goals simp

/-- The image fold of one page keeps the same frame. -/
theorem foldl_processImage_frame (w : World) (cfg : CrawlConfig) (pageUrl : Str)
    (imgs : List ImgTag) (st : CrawlState) :
    ((imgs.foldl (processImage w cfg pageUrl) st).queue = st.queue ∧
     (imgs.foldl (processImage w cfg pageUrl) st).visited = st.visited ∧
     (imgs.foldl (processImage w cfg pageUrl) st).pages = st.pages ∧
     (imgs.foldl (processImage w cfg pageUrl) st).fetchedPages = st.fetchedPages ∧
     (imgs.foldl (processImage w cfg pageUrl) st).enqueued = st.enqueued ∧
     (imgs.foldl (processImage w cfg pageUrl) st).iter = st.iter ∧
     (imgs.foldl (processImage w cfg pageUrl) st).done = st.done ∧
     (imgs.foldl (processImage w cfg pageUrl) st).startUrl = st.startUrl ∧
     (imgs.foldl (processImage w cfg pageUrl) st).baseDomain = st.baseDomain) := by
  induction imgs generalizing st with
  | nil => exact ⟨rfl, rfl, rfl, rfl, rfl, rfl, rfl, rfl, rfl⟩
  | cons tag rest ih =>
    simp only [List.foldl_cons]
    obtain ⟨h1, h2, h3, h4, h5, h6, h7, h8, h9⟩ := ih (processImage w cfg pageUrl st tag)
    obtain ⟨g1, g2, g3, g4, g5, g6, g7, g8, g9⟩ := processImage_frame w cfg pageUrl st tag
    exact ⟨h1.trans g1, h2.trans g2, h3.trans g3, h4.trans g4, h5.trans g5,
      h6.trans g6, h7.trans g7, h8.trans g8, h9.trans g9⟩

/-- `processLink` never touches anything except the frontier and the enqueue
record. -/
theorem processLink_frame {w : World} {cfg : CrawlConfig} {pageUrl : Str}
    {curDepth : Nat} {st st' : CrawlState} {l : LinkTag}
    (h : processLink w cfg pageUrl curDepth st l = .ok st') :
    st'.visited = st.visited ∧ st'.pages = st.pages ∧ st'.fetchedPages = st.fetchedPages ∧
    st'.found = st.found ∧ st'.hashes = st.hashes ∧ st'.saved = st.saved ∧
    st'.events = st.events ∧ st'.attempts = st.attempts ∧ st'.iter = st.iter ∧
    st'.done = st.done ∧ st'.startUrl = st.startUrl ∧ st'.baseDomain = st.baseDomain ∧
    st'.imagesCount = st.imagesCount ∧ st'.dirFiles = st.dirFiles := by
  unfold processLink at h
  simp only [bind, Except.bind, pure, Except.pure] at h
  by_cases h1 : l.href = []
  · rw [if_pos h1] at h
    cases h
    exact ⟨rfl, rfl, rfl, rfl, rfl, rfl, rfl, rfl, rfl, rfl, rfl, rfl, rfl, rfl⟩
  · rw [if_neg h1] at h
    cases hp : urlparseE (w.join pageUrl l.href) with
    | error e =>
      rw [hp] at h
      simp only [] at h
      exact Except.noConfusion h
    | ok parsed =>
      rw [hp] at h
      simp only [] at h
      split_ifs at h <;> cases h <;>
        exact ⟨rfl, rfl, rfl, rfl, rfl, rfl, rfl, rfl, rfl, rfl, rfl, rfl, rfl, rfl⟩

/-- Frontier admission: `processLink` either leaves the frontier and the
enqueue record unchanged, or pushes exactly one entry at depth `curDepth + 1`
after the not-visited, not-queued and strict-budget checks all pass. -/
theorem processLink_admission {w : World} {cfg : CrawlConfig} {pageUrl : Str}
    {curDepth : Nat} {st st' : CrawlState} {l : LinkTag}
    (h : processLink w cfg pageUrl curDepth st l = .ok st') :
    (st'.queue = st.queue ∧ st'.enqueued = st.enqueued) ∨
    ∃ a, a ∉ st.visited ∧ (∀ e ∈ st.queue, e.1 ≠ a) ∧
      st.queue.length + st.visited.length < cfg.maxPages ∧
      st'.enqueued = st.enqueued ++ [(a, curDepth + 1, curDepth)] ∧
      (st'.queue = st.queue ++ [(a, curDepth + 1)] ∨
        st'.queue = (a, curDepth + 1) :: st.queue) := by
  unfold processLink at h
  simp only [bind, Except.bind, pure, Except.pure] at h
  by_cases h1 : l.href = []
  · rw [if_pos h1] at h
    cases h
    exact Or.inl ⟨rfl, rfl⟩
  · rw [if_neg h1] at h
    cases hp : urlparseE (w.join pageUrl l.href) with
    | error e =>
      rw [hp] at h
      simp only [] at h
      exact Except.noConfusion h
    | ok parsed =>
      rw [hp] at h
      simp only [] at h
      split_ifs at h with h2 h3 h4 h5 h6 h7
      all_goals try (cases h; exact Or.inl ⟨rfl, rfl⟩)
      all_goals (
        cases h
        refine Or.inr ⟨urlunparse { parsed with fragment := [] }, h4, ?_,
          h6, rfl, ?_⟩)
      all_goals first
        | exact Or.inl rfl
        | exact Or.inr rfl
        | (intro e he hea
           exact h5 (List.any_eq_true.mpr ⟨e, he, decide_eq_true hea⟩))

/-- Along one page's links the enqueue record only grows by entries whose
parent depth is the current depth and whose entry depth is one more. -/
theorem processLinks_enqueued {w : World} {cfg : CrawlConfig} {pageUrl : Str}
    {curDepth : Nat} (ls : List LinkTag) (st : CrawlState) :
    ∀ e ∈ (processLinks w cfg pageUrl curDepth st ls).enqueued,
      e ∈ st.enqueued ∨ (e.2.1 = curDepth + 1 ∧ e.2.2 = curDepth) := by
  induction ls generalizing st with
  | nil => exact fun e he => Or.inl he
  | cons l rest ih =>
    intro e he
    simp only [processLinks] at he
    cases hpl : processLink w cfg pageUrl curDepth st l with
    | error err =>
      rw [hpl] at he
      simp only [] at he
      exact Or.inl he
    | ok st1 =>
      rw [hpl] at he
      simp only [] at he
      rcases ih st1 e he with h1 | h1
      · rcases processLink_admission hpl with ⟨-, he'⟩ | ⟨a, -, -, -, he', -⟩
        · rw [he'] at h1
          exact Or.inl h1
        · rw [he'] at h1
          rcases List.mem_append.mp h1 with h2 | h2
          · exact Or.inl h2
          · simp only [List.mem_singleton] at h2
            subst h2
            exact Or.inr ⟨rfl, rfl⟩
      · exact Or.inr h1

/-- Along one page's links the budget bound is preserved: a push requires the
strict budget check, so the combined frontier-plus-visited count never
exceeds `max maxPages 2`. -/
theorem processLinks_budget {w : World} {cfg : CrawlConfig} {pageUrl : Str}
    {curDepth : Nat} (ls : List LinkTag) (st : CrawlState)
    (h : st.queue.length + st.visited.length ≤ max cfg.maxPages 2) :
    (processLinks w cfg pageUrl curDepth st ls).queue.length +
      (processLinks w cfg pageUrl curDepth st ls).visited.length ≤ max cfg.maxPages 2 := by
  induction ls generalizing st with
  | nil => exact h
  | cons l rest ih =>
    simp only [processLinks]
    cases hpl : processLink w cfg pageUrl curDepth st l with
    | error err => exact h
    | ok st1 =>
      apply ih
      have hv := (processLink_frame hpl).1
      rcases processLink_admission hpl with ⟨hq, -⟩ | ⟨a, -, -, hlt, -, hq | hq⟩
      · rw [hq, hv]
        exact h
      · rw [hq, hv]
        simp only [List.length_append, List.length_cons, List.length_nil]
        omega
      · rw [hq, hv]
        simp only [List.length_cons]
        omega

/-- The crawl loop with an empty frontier is the identity. -/
theorem crawlLoopE_empty (w : World) (cfg : CrawlConfig) (fuel : Nat) (st : CrawlState)
    (h : st.queue = []) : crawlLoopE w cfg fuel st = (st, false) := by
  cases fuel with
  | zero => rfl
  | succ f =>
    unfold crawlLoopE
    rw [if_pos (by simp [h])]

/-- `processLinks` keeps the same frame as `processLink`. -/
theorem processLinks_frame {w : World} {cfg : CrawlConfig} {pageUrl : Str}
    {curDepth : Nat} (ls : List LinkTag) (st : CrawlState) :
    (processLinks w cfg pageUrl curDepth st ls).visited = st.visited ∧
    (processLinks w cfg pageUrl curDepth st ls).pages = st.pages ∧
    (processLinks w cfg pageUrl curDepth st ls).fetchedPages = st.fetchedPages ∧
    (processLinks w cfg pageUrl curDepth st ls).found = st.found ∧
    (processLinks w cfg pageUrl curDepth st ls).hashes = st.hashes ∧
    (processLinks w cfg pageUrl curDepth st ls).saved = st.saved ∧
    (processLinks w cfg pageUrl curDepth st ls).events = st.events ∧
    (processLinks w cfg pageUrl curDepth st ls).attempts = st.attempts ∧
    (processLinks w cfg pageUrl curDepth st ls).iter = st.iter ∧
    (processLinks w cfg pageUrl curDepth st ls).done = st.done ∧
    (processLinks w cfg pageUrl curDepth st ls).startUrl = st.startUrl ∧
    (processLinks w cfg pageUrl curDepth st ls).baseDomain = st.baseDomain := by
  induction ls generalizing st with
  | nil => exact ⟨rfl, rfl, rfl, rfl, rfl, rfl, rfl, rfl, rfl, rfl, rfl, rfl⟩
  | cons l rest ih =>
    simp only [processLinks]
    cases hpl : processLink w cfg pageUrl curDepth st l with
    | error err => exact ⟨rfl, rfl, rfl, rfl, rfl, rfl, rfl, rfl, rfl, rfl, rfl, rfl⟩
    | ok st1 =>
      obtain ⟨h1, h2, h3, h4, h5, h6, h7, h8, h9, h10, h11, h12, -, -⟩ :=
        processLink_frame hpl
      obtain ⟨g1, g2, g3, g4, g5, g6, g7, g8, g9, g10, g11, g12⟩ := ih st1
      exact ⟨g1.trans h1, g2.trans h2, g3.trans h3, g4.trans h4, g5.trans h5,
        g6.trans h6, g7.trans h7, g8.trans h8, g9.trans h9, g10.trans h10,
        g11.trans h11, g12.trans h12⟩

/-- Case analysis of one crawl-loop iteration: a stop poll, an empty
frontier, a visited skip, or the processing pipeline with its intermediate
states. -/
theorem crawlStep_effects (w : World) (cfg : CrawlConfig) (st : CrawlState) :
    (w.stopAt st.iter = true ∧
      crawlStep w cfg st = { st with done := true, iter := st.iter + 1 }) ∨
    (st.queue = [] ∧ crawlStep w cfg st = st) ∨
    (∃ u d rest, st.queue = (u, d) :: rest ∧ u ∈ st.visited ∧ u ≠ st.startUrl ∧
      crawlStep w cfg st = { st with queue := rest, iter := st.iter + 1 }) ∨
    (∃ u d rest, st.queue = (u, d) :: rest ∧ ¬(u ∈ st.visited ∧ u ≠ st.startUrl) ∧
      ∃ stB, stB = { st with queue := rest, iter := st.iter + 1, visited := if u ∈ st.visited then st.visited else st.visited ++ [u], pages := st.pages + 1 } ∧
        ((crawlStep w cfg st = stB ∧ w.robots u = false) ∨
          (w.robots u = true ∧
            ∃ stF, stF = { stB with fetchedPages := stB.fetchedPages ++ [u] } ∧
              (crawlStep w cfg st = stF ∨
                ∃ (page : PageData) (stI : CrawlState),
                  stI = page.imgs.foldl (processImage w cfg u) stF ∧
                  (crawlStep w cfg st = stI ∨
                    (d < cfg.depth ∧
                      crawlStep w cfg st = processLinks w cfg u d stI page.links)))))) := by
  generalize hcs : crawlStep w cfg st = res
  unfold crawlStep at hcs
  split_ifs at hcs with h1
  · exact Or.inl ⟨h1, hcs.symm⟩
  · split at hcs
    next heq =>
      exact Or.inr (Or.inl ⟨heq, hcs.symm⟩)
    next current curDepth rest heq =>
      simp only [] at hcs
      split_ifs at hcs with h2 h3 h4
      · simp only [Bool.and_eq_true, decide_eq_true_eq] at h2
        exact Or.inr (Or.inr (Or.inl ⟨current, curDepth, rest, heq, h2.1, h2.2, hcs.symm⟩))
      all_goals (
        refine Or.inr (Or.inr (Or.inr ⟨current, curDepth, rest, heq, ?_, _, rfl, ?_⟩))
        · intro hc
          exact h2 (by simp [hc.1, hc.2]))
      all_goals (
        first
          | rw [if_pos (show current ∈ st.visited by assumption)]
          | rw [if_neg (show current ∉ st.visited by assumption)]
        first
          | exact Or.inl ⟨hcs.symm, by simp_all⟩
          | (refine Or.inr ⟨by assumption, _, rfl, ?_⟩
             split at hcs <;>
               first
                 | exact Or.inl hcs.symm
                 | (rename_i page heqp
                    split_ifs at hcs with h5 <;>
                      first
                        | exact Or.inl hcs.symm
                        | (refine Or.inr ⟨page, _, rfl, ?_⟩
                           first
                             | exact Or.inr ⟨by assumption, hcs.symm⟩
                             | exact Or.inl hcs.symm))))

/-- One loop iteration preserves the budget bound
`|queue| + |visited| ≤ max maxPages 2`. -/
theorem crawlStep_budget_inv (w : World) (cfg : CrawlConfig) (st : CrawlState)
    (h : st.queue.length + st.visited.length ≤ max cfg.maxPages 2) :
    (crawlStep w cfg st).queue.length + (crawlStep w cfg st).visited.length ≤
      max cfg.maxPages 2 := by
  rcases crawlStep_effects w cfg st with ⟨-, he⟩ | ⟨-, he⟩ |
    ⟨u, d, rest, heq, -, -, he⟩ | ⟨u, d, rest, heq, -, stB, hB, hfin⟩
  · rw [he]
    exact h
  · rw [he]
    exact h
  · rw [he]
    have hq := congrArg List.length heq
    simp only [List.length_cons] at hq
    show rest.length + st.visited.length ≤ max cfg.maxPages 2
    omega
  · have hq := congrArg List.length heq
    simp only [List.length_cons] at hq
    have hBv : stB.queue.length + stB.visited.length ≤ max cfg.maxPages 2 := by
      rw [hB]
      split_ifs with hv
      · show rest.length + st.visited.length ≤ max cfg.maxPages 2
        omega
      · show rest.length + (st.visited ++ [u]).length ≤ max cfg.maxPages 2
        simp only [List.length_append, List.length_cons, List.length_nil]
        omega
    rcases hfin with ⟨he, -⟩ | ⟨-, stF, hF, hfin2⟩
    · rw [he]
      exact hBv
    · have hFv : stF.queue.length + stF.visited.length ≤ max cfg.maxPages 2 := by
        rw [hF]
        exact hBv
      rcases hfin2 with he | ⟨page, stI, hI, hfin3⟩
      · rw [he]
        exact hFv
      · have hfr := foldl_processImage_frame w cfg u page.imgs stF
        have hIv : stI.queue.length + stI.visited.length ≤ max cfg.maxPages 2 := by
          rw [hI, hfr.1, hfr.2.1]
          exact hFv
        rcases hfin3 with he | ⟨-, he⟩
        · rw [he]
          exact hIv
        · rw [he]
          exact processLinks_budget page.links stI hIv

/-- One loop iteration adds to the enqueue record only entries one level
below a parent that is strictly under the depth limit. -/
theorem crawlStep_enqueued (w : World) (cfg : CrawlConfig) (st : CrawlState) :
    ∀ e ∈ (crawlStep w cfg st).enqueued,
      e ∈ st.enqueued ∨ (e.2.2 < cfg.depth ∧ e.2.1 = e.2.2 + 1) := by
  intro e he
  rcases crawlStep_effects w cfg st with ⟨-, hE⟩ | ⟨-, hE⟩ |
    ⟨u, d, rest, -, -, -, hE⟩ | ⟨u, d, rest, -, -, stB, hB, hfin⟩
  · rw [hE] at he
    exact Or.inl he
  · rw [hE] at he
    exact Or.inl he
  · rw [hE] at he
    exact Or.inl he
  · have hBe : stB.enqueued = st.enqueued := by rw [hB]
    rcases hfin with ⟨hE, -⟩ | ⟨-, stF, hF, hfin2⟩
    · rw [hE, hBe] at he
      exact Or.inl he
    · have hFe : stF.enqueued = st.enqueued := by
        rw [hF]
        exact hBe
      rcases hfin2 with hE | ⟨page, stI, hI, hfin3⟩
      · rw [hE, hFe] at he
        exact Or.inl he
      · have hIe : stI.enqueued = st.enqueued := by
          rw [hI, (foldl_processImage_frame w cfg u page.imgs stF).2.2.2.2.1]
          exact hFe
        rcases hfin3 with hE | ⟨hd, hE⟩
        · rw [hE, hIe] at he
          exact Or.inl he
        · rw [hE] at he
          rcases processLinks_enqueued page.links stI e he with h1 | h1
          · rw [hIe] at h1
            exact Or.inl h1
          · refine Or.inr ⟨?_, ?_⟩
            · rw [h1.2]
              exact hd
            · rw [h1.1, h1.2]

/-- Transport of an invariant preserved by `crawlStep` through the loop. -/
theorem crawlLoopE_inv {w : World} {cfg : CrawlConfig} (P : CrawlState → Prop)
    (hstep : ∀ st, P st → P (crawlStep w cfg st)) :
    ∀ fuel st, P st → P (crawlLoopE w cfg fuel st).1 := by
  intro fuel
  induction fuel with
  | zero => exact fun st h => h
  | succ f ih =>
    intro st h
    unfold crawlLoopE
    split_ifs with h1 h2
    · exact h
    · exact h
    · exact ih _ (hstep st h)

/-- Field values of a successfully initialized run. -/
theorem crawlInitE_fields {cfg : CrawlConfig} {st0 : CrawlState}
    (h : crawlInitE cfg = .ok st0) :
    st0.startUrl = normalizeStartUrl cfg.startUrlRaw ∧
    (∃ p : UrlParts, urlparseE st0.startUrl = .ok p ∧ st0.baseDomain = p.netloc ∧
      st0.domainPath = ospathJoin cfg.outputDir p.netloc) ∧
    st0.queue = [(st0.startUrl, 0)] ∧ st0.visited = [st0.startUrl] ∧
    st0.found = [] ∧ st0.hashes = [] ∧ st0.saved = [] ∧ st0.events = [] ∧
    st0.fetchedPages = [] ∧ st0.attempts = [] ∧ st0.enqueued = [] ∧
    st0.pages = 0 ∧ st0.iter = 0 ∧ st0.done = false ∧ st0.dirFiles = cfg.preexisting := by
  unfold crawlInitE at h
  simp only [bind, Except.bind, pure, Except.pure] at h
  cases hp : urlparseE (normalizeStartUrl cfg.startUrlRaw) with
  | error e =>
    rw [hp] at h
    simp only [] at h
    exact Except.noConfusion h
  | ok p =>
    rw [hp] at h
    simp only [] at h
    cases h
    exact ⟨rfl, ⟨p, hp, rfl, rfl⟩, rfl, rfl, rfl, rfl, rfl, rfl, rfl, rfl, rfl, rfl,
      rfl, rfl, rfl⟩

/-! ### Claim C9: budget consumption precedes robots check and fetch -/

/-- C9: a dequeued entry that is not skipped as already visited consumes one
unit of the page budget unconditionally; the fetch record then stays
unchanged when robots disallows the page, and gains exactly this one page
when robots allows it — in either case (and also when the subsequent fetch
fails) the budget was already charged. -/
theorem crawl_budget_consumed (w : World) (cfg : CrawlConfig) (st : CrawlState)
    (u : Str) (d : Nat) (rest : List (Str × Nat))
    (hq : st.queue = (u, d) :: rest)
    (hstop : w.stopAt st.iter = false)
    (hskip : ¬(u ∈ st.visited ∧ u ≠ st.startUrl)) :
    (crawlStep w cfg st).pages = st.pages + 1 ∧
    (w.robots u = false → (crawlStep w cfg st).fetchedPages = st.fetchedPages) ∧
    (w.robots u = true → (crawlStep w cfg st).fetchedPages = st.fetchedPages ++ [u]) := by
  rcases crawlStep_effects w cfg st with ⟨h1, -⟩ | ⟨h1, -⟩ |
    ⟨v, d', rest', heq, hv, hne, -⟩ | ⟨v, d', rest', heq, -, stB, hB, hfin⟩
  · rw [hstop] at h1
    cases h1
  · rw [hq] at h1
    cases h1
  · rw [hq] at heq
    injection heq with heq1 heq2
    injection heq1 with hu hd
    subst hu
    exact absurd ⟨hv, hne⟩ hskip
  · rw [hq] at heq
    injection heq with heq1 heq2
    injection heq1 with hu hd
    subst hu
    have hBp : stB.pages = st.pages + 1 := by rw [hB]
    have hBf : stB.fetchedPages = st.fetchedPages := by rw [hB]
    rcases hfin with ⟨hE, hrf⟩ | ⟨hrt, stF, hF, hfin2⟩
    · refine ⟨by rw [hE]; exact hBp, fun _ => by rw [hE]; exact hBf, fun hr => ?_⟩
      rw [hrf] at hr
      cases hr
    · have hFp : stF.pages = st.pages + 1 := by
        rw [hF]
        exact hBp
      have hFf : stF.fetchedPages = st.fetchedPages ++ [u] := by
        rw [hF]
        rw [show ({ stB with fetchedPages := stB.fetchedPages ++ [u] } : CrawlState).fetchedPages = stB.fetchedPages ++ [u] from rfl, hBf]
      have hend : (crawlStep w cfg st).pages = stF.pages ∧
          (crawlStep w cfg st).fetchedPages = stF.fetchedPages := by
        rcases hfin2 with hE | ⟨page, stI, hI, hfin3⟩
        · rw [hE]
          exact ⟨rfl, rfl⟩
        · have hfr := foldl_processImage_frame w cfg u page.imgs stF
          rcases hfin3 with hE | ⟨-, hE⟩
          · rw [hE, hI]
            exact ⟨hfr.2.2.1, hfr.2.2.2.1⟩
          · rw [hE]
            have hlf := @processLinks_frame w cfg u d' page.links stI
            rw [hlf.2.1, hlf.2.2.1, hI]
            exact ⟨hfr.2.2.1, hfr.2.2.2.1⟩
      refine ⟨by rw [hend.1]; exact hFp, fun hr => ?_, fun _ => by rw [hend.2]; exact hFf⟩
      rw [hrt] at hr
      cases hr

/-- C9 witness: the budget theorem applied at a concrete state whose robots
oracle rejects the page. -/
theorem crawl_budget_consumed_witness :
    (crawlStep ⟨fun _ => false, fun _ => none, fun _ => none, fun _ v => v,
        fun _ => false, none⟩
      ⟨lit "http://h", lit "o", lit "/s", false, 5, 1, true, []⟩
      ⟨lit "http://h", lit "h", lit "o/h", [(lit "http://h/a", 1)], [lit "http://h"],
        [], [], [], [], 0, 1, 1, [], [lit "http://h"], [], [], false⟩).pages = 2 ∧
    (crawlStep ⟨fun _ => false, fun _ => none, fun _ => none, fun _ v => v,
        fun _ => false, none⟩
      ⟨lit "http://h", lit "o", lit "/s", false, 5, 1, true, []⟩
      ⟨lit "http://h", lit "h", lit "o/h", [(lit "http://h/a", 1)], [lit "http://h"],
        [], [], [], [], 0, 1, 1, [], [lit "http://h"], [], [], false⟩).fetchedPages =
      [lit "http://h"] := by
  have h := crawl_budget_consumed
    ⟨fun _ => false, fun _ => none, fun _ => none, fun _ v => v, fun _ => false, none⟩
    ⟨lit "http://h", lit "o", lit "/s", false, 5, 1, true, []⟩
    ⟨lit "http://h", lit "h", lit "o/h", [(lit "http://h/a", 1)], [lit "http://h"],
      [], [], [], [], 0, 1, 1, [], [lit "http://h"], [], [], false⟩
    (lit "http://h/a") 1 [] rfl rfl (by decide)
  exact ⟨h.1, (h.2.1 rfl).trans rfl⟩

/-! ### Claim C4: the depth rule -/

/-- C4: every frontier insertion during a run records a parent depth strictly
below the depth limit and an entry depth one greater; consequently, with
depth limit 0 — and the seed allowed by robots, no stop or exception at the
first iteration, and a positive page budget — exactly one page, the seed, is
ever fetched, regardless of the links on the seed page. -/
theorem crawl_depth_rule (w : World) (cfg : CrawlConfig) {st0 : CrawlState}
    (hinit : crawlInitE cfg = .ok st0) :
    (∀ fuel, ∀ e ∈ ((crawlLoopE w cfg fuel st0).1).enqueued,
        e.2.2 < cfg.depth ∧ e.2.1 = e.2.2 + 1) ∧
    (cfg.depth = 0 → 1 ≤ cfg.maxPages → w.stopAt 0 = false → w.raiseAt ≠ some 0 →
      w.robots st0.startUrl = true →
      ∀ fuel, 1 ≤ fuel →
        ((crawlLoopE w cfg fuel st0).1).fetchedPages = [st0.startUrl]) := by
  obtain ⟨hsu, -, hq0, hv0, -, -, -, -, hf0, -, he0, hp0, hi0, hd0, -⟩ :=
    crawlInitE_fields hinit
  constructor
  · intro fuel
    exact crawlLoopE_inv
      (fun st => ∀ e ∈ st.enqueued, e.2.2 < cfg.depth ∧ e.2.1 = e.2.2 + 1)
      (fun st hst e he => by
        rcases crawlStep_enqueued w cfg st e he with h1 | h1
        · exact hst e h1
        · exact h1)
      fuel st0 (by intro e he; rw [he0] at he; cases he)
  · intro hdep hmax hstop hraise hrob fuel hfuel
    have hstep : (crawlStep w cfg st0).queue = [] ∧
        (crawlStep w cfg st0).fetchedPages = [st0.startUrl] := by
      rcases crawlStep_effects w cfg st0 with ⟨h1, -⟩ | ⟨h1, -⟩ |
        ⟨u, d, rest, heq, -, hne, -⟩ | ⟨u, d, rest, heq, -, stB, hB, hfin⟩
      · rw [hi0, hstop] at h1
        cases h1
      · rw [hq0] at h1
        cases h1
      · rw [hq0] at heq
        injection heq with heq1 heq2
        injection heq1 with hu hd
        exact absurd hu.symm hne
      · rw [hq0] at heq
        injection heq with heq1 heq2
        injection heq1 with hu hd
        subst hu
        have hBq : stB.queue = [] := by
          rw [hB, ← heq2]
        have hBf : stB.fetchedPages = st0.fetchedPages := by rw [hB]
        rcases hfin with ⟨-, hrf⟩ | ⟨-, stF, hF, hfin2⟩
        · rw [hrob] at hrf
          cases hrf
        · have hFq : stF.queue = [] := by
            rw [hF]
            exact hBq
          have hFf : stF.fetchedPages = [st0.startUrl] := by
            rw [hF]
            rw [show ({ stB with fetchedPages := stB.fetchedPages ++ [st0.startUrl] } : CrawlState).fetchedPages = stB.fetchedPages ++ [st0.startUrl] from rfl]
            rw [hBf, hf0]
            rfl
          rcases hfin2 with hE | ⟨page, stI, hI, hfin3⟩
          · rw [hE]
            exact ⟨hFq, hFf⟩
          · have hfr := foldl_processImage_frame w cfg st0.startUrl page.imgs stF
            rcases hfin3 with hE | ⟨hdep2, -⟩
            · rw [hE, hI]
              exact ⟨hfr.1.trans hFq, hfr.2.2.2.1.trans hFf⟩
            · exfalso
              rw [hdep] at hdep2
              omega
    obtain ⟨f, rfl⟩ : ∃ f, fuel = f + 1 := ⟨fuel - 1, by omega⟩
    show ((crawlLoopE w cfg (f + 1) st0).1).fetchedPages = [st0.startUrl]
    unfold crawlLoopE
    rw [hd0, hq0, hp0]
    rw [if_neg (by intro hc; simp at hc; omega)]
    rw [if_neg (by rw [hi0]; exact hraise)]
    rw [crawlLoopE_empty w cfg f _ hstep.1]
    exact hstep.2

/-- C4 witness: the depth theorem applied to a concrete run with depth 0
whose seed page contains a link; only the seed is fetched. -/
theorem crawl_depth_rule_witness :
    ∃ st0, crawlInitE ⟨lit "http://h", lit "o", lit "/s", false, 5, 0, true, []⟩ =
        .ok st0 ∧
      ((crawlLoopE ⟨fun _ => true,
          fun _ => some ⟨lit "text/html", [], [⟨lit "http://h/b", [], [], []⟩]⟩,
          fun _ => none, fun _ v => v, fun _ => false, none⟩
        ⟨lit "http://h", lit "o", lit "/s", false, 5, 0, true, []⟩ 2 st0).1).fetchedPages =
        [st0.startUrl] := by
  refine ⟨_, rfl, ?_⟩
  exact (crawl_depth_rule
    ⟨fun _ => true,
      fun _ => some ⟨lit "text/html", [], [⟨lit "http://h/b", [], [], []⟩]⟩,
      fun _ => none, fun _ v => v, fun _ => false, none⟩
    ⟨lit "http://h", lit "o", lit "/s", false, 5, 0, true, []⟩ rfl).2
    rfl (by decide) rfl (by decide) rfl 2 (by decide)

/-! ### Claim C3: frontier admission and the page budget -/

/-- C3 (amended): a link is pushed only if its URL is not already visited,
not already queued, and the combined visited-plus-queued count is strictly
below the page budget — every violating push is rejected — and consequently
the combined count never exceeds `max maxPages 2` during a run.  The
original "stays strictly below maxPages throughout" fails already at
initialization, where the seed occupies both the queue and the visited set
(see the counterexample), and an admitted push can reach `maxPages` exactly. -/
theorem crawl_admission (w : World) (cfg : CrawlConfig) :
    (∀ (pageUrl : Str) (curDepth : Nat) (st st' : CrawlState) (l : LinkTag),
      processLink w cfg pageUrl curDepth st l = .ok st' →
      st'.queue = st.queue ∨
        ∃ a, a ∉ st.visited ∧ (∀ e ∈ st.queue, e.1 ≠ a) ∧
          st.queue.length + st.visited.length < cfg.maxPages ∧
          (st'.queue = st.queue ++ [(a, curDepth + 1)] ∨
            st'.queue = (a, curDepth + 1) :: st.queue)) ∧
    (∀ st0, crawlInitE cfg = .ok st0 → ∀ fuel,
      ((crawlLoopE w cfg fuel st0).1).queue.length +
        ((crawlLoopE w cfg fuel st0).1).visited.length ≤ max cfg.maxPages 2) := by
  constructor
  · intro pageUrl curDepth st st' l h
    rcases processLink_admission h with ⟨h1, -⟩ | ⟨a, h1, h2, h3, -, h4⟩
    · exact Or.inl h1
    · exact Or.inr ⟨a, h1, h2, h3, h4⟩
  · intro st0 hinit fuel
    obtain ⟨-, -, hq0, hv0, -⟩ := crawlInitE_fields hinit
    refine crawlLoopE_inv
      (fun st => st.queue.length + st.visited.length ≤ max cfg.maxPages 2)
      (fun st h => crawlStep_budget_inv w cfg st h) fuel st0 ?_
    show st0.queue.length + st0.visited.length ≤ max cfg.maxPages 2
    rw [hq0, hv0]
    simp only [List.length_cons, List.length_nil]
    omega

/-- C3 counterexample: with a page budget of 1, already the initial state has
visited+queued = 2, which is not strictly below `maxPages`. -/
theorem crawl_admission_counterexample :
    ∃ st0, crawlInitE ⟨lit "http://h", lit "o", lit "/s", false, 1, 0, true, []⟩ =
        .ok st0 ∧
      ¬(st0.queue.length + st0.visited.length <
        (⟨lit "http://h", lit "o", lit "/s", false, 1, 0, true, []⟩ :
          CrawlConfig).maxPages) :=
  ⟨_, rfl, by decide⟩

/-- C3 witness: the amended theorem applied to a concrete run. -/
theorem crawl_admission_witness :
    ∃ st0, crawlInitE ⟨lit "http://h", lit "o", lit "/s", false, 3, 1, true, []⟩ =
        .ok st0 ∧
      ((crawlLoopE ⟨fun _ => true, fun _ => none, fun _ => none, fun _ v => v,
            fun _ => false, none⟩
          ⟨lit "http://h", lit "o", lit "/s", false, 3, 1, true, []⟩ 2 st0).1).queue.length +
        ((crawlLoopE ⟨fun _ => true, fun _ => none, fun _ => none, fun _ v => v,
            fun _ => false, none⟩
          ⟨lit "http://h", lit "o", lit "/s", false, 3, 1, true, []⟩ 2 st0).1).visited.length ≤
        max 3 2 :=
  ⟨_, rfl, (crawl_admission
    ⟨fun _ => true, fun _ => none, fun _ => none, fun _ v => v, fun _ => false, none⟩
    ⟨lit "http://h", lit "o", lit "/s", false, 3, 1, true, []⟩).2 _ rfl 2⟩

/-! ### Claim C10: seed normalization and the domain directory -/

/-- C10: a seed without an `http://` or `https://` prefix is normalized by
prepending `https://` before any crawling, and the per-domain output
directory is derived by joining the output root with the netloc of the
normalized seed URL. -/
theorem crawl_seed_https (cfg : CrawlConfig) {st0 : CrawlState}
    (hinit : crawlInitE cfg = .ok st0)
    (h1 : startsWithStr cfg.startUrlRaw (lit "http://") = false)
    (h2 : startsWithStr cfg.startUrlRaw (lit "https://") = false) :
    st0.startUrl = lit "https://" ++ cfg.startUrlRaw ∧
    st0.queue = [(st0.startUrl, 0)] ∧ st0.visited = [st0.startUrl] ∧
    ∃ p : UrlParts, urlparseE st0.startUrl = .ok p ∧ st0.baseDomain = p.netloc ∧
      st0.domainPath = ospathJoin cfg.outputDir p.netloc := by
  obtain ⟨hs, hex, hq, hv, -⟩ := crawlInitE_fields hinit
  refine ⟨?_, hq, hv, hex⟩
  rw [hs]
  unfold normalizeStartUrl
  rw [if_neg (by simp [h1, h2])]

/-- C10 witness: the seed theorem applied at a bare domain seed. -/
theorem crawl_seed_https_witness :
    ∃ st0, crawlInitE ⟨lit "example.com/x", lit "out", lit "/s", false, 3, 1, true, []⟩ =
        .ok st0 ∧
      st0.startUrl = lit "https://" ++ lit "example.com/x" ∧
      st0.queue = [(st0.startUrl, 0)] ∧ st0.visited = [st0.startUrl] ∧
      ∃ p : UrlParts, urlparseE st0.startUrl = .ok p ∧ st0.baseDomain = p.netloc ∧
        st0.domainPath = ospathJoin (lit "out") p.netloc :=
  ⟨_, rfl, crawl_seed_https
    ⟨lit "example.com/x", lit "out", lit "/s", false, 3, 1, true, []⟩ rfl rfl rfl⟩

/-! ### Claim C1: terminal signals -/

/-- C1 (amended): for every run with an event sink attached, all terminal
`none` signals come after every discovery event, and their number is exactly
one when the crawl loop does not raise — but exactly two when it does: the
`finally` inside `scrape_site` sends one, and the background wrapper's
exception handler sends a second. -/
theorem run_terminal_signals (w : World) (cfg : CrawlConfig) (fuel : Nat)
    (hsink : cfg.hasSink = true) :
    ∃ (evs : List Str) (t : Nat),
      runScrapeBackgroundMsgs w cfg fuel = evs.map some ++ List.replicate t none ∧
      (t = 1 ∨ (t = 2 ∧ (scrapeSiteMsgs w cfg fuel).2 = true)) := by
  unfold runScrapeBackgroundMsgs scrapeSiteMsgs
  cases hinit : crawlInitE cfg with
  | error e =>
    refine ⟨[], 1, ?_, Or.inl rfl⟩
    simp [hsink]
  | ok st0 =>
    cases hloop : crawlLoopE w cfg fuel st0 with
    | mk st raised =>
      simp only [hloop]
      cases raised with
      | false =>
        refine ⟨st.events, 1, ?_, Or.inl rfl⟩
        simp [hsink]
      | true =>
        refine ⟨st.events, 2, ?_, Or.inr ⟨rfl, rfl⟩⟩
        simp [hsink, List.replicate]

/-- C1 counterexample: a run whose loop raises at the first iteration sends
two terminal signals to the sink, not one. -/
theorem run_terminal_signals_counterexample :
    runScrapeBackgroundMsgs
      ⟨fun _ => true, fun _ => none, fun _ => none, fun _ v => v, fun _ => false, some 0⟩
      ⟨lit "http://h", lit "o", lit "/s", false, 3, 1, true, []⟩ 1 = [none, none] := rfl

/-- C1 witness: the amended theorem applied at a concrete non-raising run. -/
theorem run_terminal_signals_witness :
    ∃ (evs : List Str) (t : Nat),
      runScrapeBackgroundMsgs
        ⟨fun _ => true, fun _ => none, fun _ => none, fun _ v => v, fun _ => false, none⟩
        ⟨lit "http://h", lit "o", lit "/s", false, 3, 1, true, []⟩ 2 =
        evs.map some ++ List.replicate t none ∧
      (t = 1 ∨ (t = 2 ∧ (scrapeSiteMsgs
        ⟨fun _ => true, fun _ => none, fun _ => none, fun _ v => v, fun _ => false, none⟩
        ⟨lit "http://h", lit "o", lit "/s", false, 3, 1, true, []⟩ 2).2 = true)) :=
  run_terminal_signals
    ⟨fun _ => true, fun _ => none, fun _ => none, fun _ v => v, fun _ => false, none⟩
    ⟨lit "http://h", lit "o", lit "/s", false, 3, 1, true, []⟩ 2 rfl

/-- Appending a fresh element keeps a list duplicate-free. -/
theorem nodup_snoc {α : Type} {l : List α} {a : α} (h : l.Nodup) (ha : a ∉ l) :
    (l ++ [a]).Nodup := by
  rw [List.nodup_append_comm]
  exact List.nodup_cons.mpr ⟨ha, h⟩

/-- Processing one image tag preserves the dedup invariant. -/
theorem processImage_inv (w : World) (cfg : CrawlConfig) (pageUrl : Str)
    (st : CrawlState) (tag : ImgTag) (h : ImgInv cfg st) :
    ImgInv cfg (processImage w cfg pageUrl st tag) := by
  obtain ⟨h1, h2, h3, h4, h5⟩ := h
  simp only [processImage]
  repeat' (first | split_ifs | split)
  all_goals first
    | exact ⟨h1, h2, h3, h4, h5⟩
    | exact ⟨congrArg (· ++ _) h1, nodup_snoc h2 (by assumption), h3, h4, h5⟩
    | exact ⟨congrArg (· ++ _) h1, nodup_snoc h2 (by assumption),
        nodup_snoc h3 (by assumption),
        by show List.map _ (st.saved ++ _) = st.hashes ++ _
           rw [List.map_append, h4]
           try rfl,
        fun hs => absurd hs (by assumption)⟩
    | exact ⟨congrArg (· ++ _) h1, nodup_snoc h2 (by assumption),
        nodup_snoc h3 (by assumption),
        by show List.map _ (st.saved ++ _) = st.hashes ++ _
           rw [List.map_append, h4]
           try rfl,
        fun hs => by
          show (st.events ++ _).length = (st.saved ++ _).length
          simp [h5 hs]⟩

/-- The image fold of one page preserves the dedup invariant. -/
theorem foldl_processImage_inv (w : World) (cfg : CrawlConfig) (pageUrl : Str)
    (imgs : List ImgTag) (st : CrawlState) (h : ImgInv cfg st) :
    ImgInv cfg (imgs.foldl (processImage w cfg pageUrl) st) := by
  induction imgs generalizing st with
  | nil => exact h
  | cons tag rest ih => exact ih _ (processImage_inv w cfg pageUrl st tag h)

/-- One crawl iteration preserves the dedup invariant. -/
theorem crawlStep_img_inv (w : World) (cfg : CrawlConfig) (st : CrawlState)
    (h : ImgInv cfg st) : ImgInv cfg (crawlStep w cfg st) := by
  rcases crawlStep_effects w cfg st with ⟨-, hE⟩ | ⟨-, hE⟩ | ⟨u, d, rest, -, -, -, hE⟩ |
    ⟨u, d, rest, -, -, stB, hB, hfin⟩
  · rw [hE]
    exact h
  · rw [hE]
    exact h
  · rw [hE]
    exact h
  · have hBinv : ImgInv cfg stB := by rw [hB]; exact h
    rcases hfin with ⟨hE, -⟩ | ⟨-, stF, hF, hfin2⟩
    · rw [hE]
      exact hBinv
    · have hFinv : ImgInv cfg stF := by rw [hF]; exact hBinv
      rcases hfin2 with hE | ⟨page, stI, hI, hfin3⟩
      · rw [hE]
        exact hFinv
      · have hIinv : ImgInv cfg stI := by
          rw [hI]
          exact foldl_processImage_inv w cfg u page.imgs stF hFinv
        rcases hfin3 with hE | ⟨-, hE⟩
        · rw [hE]
          exact hIinv
        · rw [hE]
          obtain ⟨-, -, -, hfF, hfH, hfS, hfE, hfA, -⟩ :=
            @processLinks_frame w cfg u d page.links stI
          obtain ⟨i1, i2, i3, i4, i5⟩ := hIinv
          refine ⟨?_, ?_, ?_, ?_, ?_⟩
          · rw [hfA, hfF]
            exact i1
          · rw [hfF]
            exact i2
          · rw [hfH]
            exact i3
          · rw [hfS, hfH]
            exact i4
          · intro hs
            rw [hfE, hfS]
            exact i5 hs

/-! ### Claim C2: per-run dedup -/

/-- C2: throughout a run, the list of download attempts is duplicate-free
(at most one attempt per canonical URL), the hashes of the saved files are
duplicate-free (at most one saved file per content hash, so two URLs with
identical bytes save once), with a sink there is exactly one discovery event
per saved file, and processing an image tag either leaves the attempt list
unchanged (in particular whenever its canonical URL was already processed)
or records exactly one attempt for a canonical URL not yet processed. -/
theorem crawl_dedup (w : World) (cfg : CrawlConfig) {st0 : CrawlState}
    (hinit : crawlInitE cfg = .ok st0) :
    (∀ fuel,
      ((crawlLoopE w cfg fuel st0).1).attempts.Nodup ∧
      (((crawlLoopE w cfg fuel st0).1).saved.map (fun e => get_image_hash e.2)).Nodup ∧
      (cfg.hasSink = true →
        ((crawlLoopE w cfg fuel st0).1).events.length =
          ((crawlLoopE w cfg fuel st0).1).saved.length)) ∧
    (∀ (pageUrl : Str) (st : CrawlState) (tag : ImgTag),
      (processImage w cfg pageUrl st tag).attempts = st.attempts ∨
      ∃ cu, cu ∉ st.found ∧
        (processImage w cfg pageUrl st tag).attempts = st.attempts ++ [cu]) := by
  constructor
  · intro fuel
    obtain ⟨-, -, -, -, hf0, hh0, hs0, he0, -, ha0, -⟩ := crawlInitE_fields hinit
    have hI : ImgInv cfg ((crawlLoopE w cfg fuel st0).1) := by
      refine crawlLoopE_inv (ImgInv cfg) (fun st h => crawlStep_img_inv w cfg st h)
        fuel st0 ?_
      refine ⟨?_, ?_, ?_, ?_, ?_⟩
      · rw [ha0, hf0]
      · rw [hf0]
        exact List.nodup_nil
      · rw [hh0]
        exact List.nodup_nil
      · rw [hs0, hh0]
        rfl
      · intro hs
        rw [he0, hs0]
        rfl
    obtain ⟨i1, i2, i3, i4, i5⟩ := hI
    refine ⟨?_, ?_, i5⟩
    · rw [i1]
      exact i2
    · rw [i4]
      exact i3
  · intro pageUrl st tag
    generalize hres : processImage w cfg pageUrl st tag = res
    simp only [processImage] at hres
    repeat' (first | split_ifs at hres | split at hres)
    all_goals subst hres
    all_goals first
      | exact Or.inl rfl
      | exact Or.inr ⟨_, by assumption, rfl⟩

/-- C2 witness: the dedup theorem applied to a concrete run whose single page
carries two distinct image URLs that download to identical bytes; the run
makes two attempts but saves one file and emits one event. -/
theorem crawl_dedup_witness :
    ∃ st0, crawlInitE ⟨lit "http://h", lit "o", lit "/s", false, 5, 0, true, []⟩ =
        .ok st0 ∧
      (((crawlLoopE ⟨fun _ => true,
          fun _ => some ⟨lit "text/html",
            [⟨.img, some (lit "http://h/x.png"), none, none, none, none⟩,
             ⟨.img, some (lit "http://h/y.png"), none, none, none, none⟩], []⟩,
          fun _ => some ⟨[1, 2, 3], lit "image/png"⟩, fun _ v => v, fun _ => false, none⟩
        ⟨lit "http://h", lit "o", lit "/s", false, 5, 0, true, []⟩ 2 st0).1).attempts.Nodup ∧
       (((crawlLoopE ⟨fun _ => true,
          fun _ => some ⟨lit "text/html",
            [⟨.img, some (lit "http://h/x.png"), none, none, none, none⟩,
             ⟨.img, some (lit "http://h/y.png"), none, none, none, none⟩], []⟩,
          fun _ => some ⟨[1, 2, 3], lit "image/png"⟩, fun _ v => v, fun _ => false, none⟩
        ⟨lit "http://h", lit "o", lit "/s", false, 5, 0, true, []⟩ 2 st0).1).saved.map
          (fun e => get_image_hash e.2)).Nodup) ∧
      ((crawlLoopE ⟨fun _ => true,
          fun _ => some ⟨lit "text/html",
            [⟨.img, some (lit "http://h/x.png"), none, none, none, none⟩,
             ⟨.img, some (lit "http://h/y.png"), none, none, none, none⟩], []⟩,
          fun _ => some ⟨[1, 2, 3], lit "image/png"⟩, fun _ v => v, fun _ => false, none⟩
        ⟨lit "http://h", lit "o", lit "/s", false, 5, 0, true, []⟩ 2 st0).1).attempts.length = 2 ∧
      ((crawlLoopE ⟨fun _ => true,
          fun _ => some ⟨lit "text/html",
            [⟨.img, some (lit "http://h/x.png"), none, none, none, none⟩,
             ⟨.img, some (lit "http://h/y.png"), none, none, none, none⟩], []⟩,
          fun _ => some ⟨[1, 2, 3], lit "image/png"⟩, fun _ v => v, fun _ => false, none⟩
        ⟨lit "http://h", lit "o", lit "/s", false, 5, 0, true, []⟩ 2 st0).1).saved.length = 1 ∧
      ((crawlLoopE ⟨fun _ => true,
          fun _ => some ⟨lit "text/html",
            [⟨.img, some (lit "http://h/x.png"), none, none, none, none⟩,
             ⟨.img, some (lit "http://h/y.png"), none, none, none, none⟩], []⟩,
          fun _ => some ⟨[1, 2, 3], lit "image/png"⟩, fun _ v => v, fun _ => false, none⟩
        ⟨lit "http://h", lit "o", lit "/s", false, 5, 0, true, []⟩ 2 st0).1).events.length = 1 := by
  refine ⟨_, rfl, ?_, ?_, ?_, ?_⟩
  · have h := (crawl_dedup ⟨fun _ => true,
      fun _ => some ⟨lit "text/html",
        [⟨.img, some (lit "http://h/x.png"), none, none, none, none⟩,
         ⟨.img, some (lit "http://h/y.png"), none, none, none, none⟩], []⟩,
      fun _ => some ⟨[1, 2, 3], lit "image/png"⟩, fun _ v => v, fun _ => false, none⟩
      ⟨lit "http://h", lit "o", lit "/s", false, 5, 0, true, []⟩ rfl).1 2
    exact ⟨h.1, h.2.1⟩
  · rfl
  · rfl
  · rfl

end ImageScraper
